import Mathlib

/-!
# pmenu: a verification development

A shallow embedding of the core of `pmenu.c` (the pie-menu variant of xmenu):

* the line parser `parsestdin` (with `fgets`, `strspn`, `strtok` on C strings),
* the menu-tree builder `allocitem` / `allocmenu` / `buildmenutree`,
* the slice layout `setupitems` and the angle lookup of `getitem`,
* keyboard cycling `itemcycle`,
* the window bookkeeping `mapmenu` / `getmenu` and one iteration of the event
  loop `run`.

The C heap is modelled by two stores, one for `struct Item` and one for
`struct Menu`; a pointer is an `Option Nat` (`none` is `NULL`), and `malloc`
hands out the next unused index.  Loops that follow pointers carry fuel; running
out of fuel, dereferencing `NULL` and dividing by zero all yield `none`
(respectively an error value), never a made-up result.
-/

set_option autoImplicit false

namespace Pmenu

/-! ## C strings and the line parser -/

/-- The NUL character, which terminates every C string. -/
def NUL : Char := Char.ofNat 0

/-- The C string held in a buffer: the characters before the first NUL. -/
def cstr (buf : List Char) : List Char :=
  buf.takeWhile (fun c => c != NUL)

/-- C `strspn`: length of the initial segment of `s` made of characters of `accept`. -/
def strspn (s accept : List Char) : Nat :=
  (s.takeWhile (fun c => accept.contains c)).length

/-- C `strtok` on the string that starts at the scan position `s`: skips leading
delimiters; when nothing is left there is no token (and later calls find none
either); otherwise the token runs up to the next delimiter, which is overwritten by
NUL, and the saved position is the character after it.  Returns the token and the
saved position. -/
def strtok (s delim : List Char) : Option (List Char) × List Char :=
  match s.dropWhile (fun c => delim.contains c) with
  | [] => (none, [])
  | c :: cs =>
    (some ((c :: cs).takeWhile (fun d => !delim.contains d)),
     ((c :: cs).dropWhile (fun d => !delim.contains d)).drop 1)

/-- Reads at most `n` characters, stopping after a newline. -/
def fgetsAux : Nat → List Char → List Char × List Char
  | 0, inp => ([], inp)
  | _ + 1, [] => ([], [])
  | n + 1, c :: cs =>
    if c = '\n' then ([c], cs)
    else ((c :: (fgetsAux n cs).1), (fgetsAux n cs).2)

/-- C `fgets(buf, size, stdin)`: `none` at end of input, otherwise the characters
stored in `buf` (at most `size - 1`, ending after the first newline) and the
remaining input. -/
def fgets (size : Nat) (inp : List Char) : Option (List Char × List Char) :=
  match inp with
  | [] => none
  | _ :: _ => some (fgetsAux (size - 1) inp)

/-- One record handed to `buildmenutree(level, label, output, file)`. -/
structure Record where
  level : Nat
  label : Option (List Char)
  output : Option (List Char)
  file : Option (List Char)
deriving DecidableEq, Repr

/-- The icon marker tested by `strncmp(label, "IMG:", 4) == 0`. -/
def imgMarker : List Char := ['I', 'M', 'G', ':']

/-- Strips the leading tabs of the output field: `while (*output == '\t') output++`. -/
def skipTabs (s : List Char) : List Char :=
  s.dropWhile (fun c => c == '\t')

/-- The body of the `while (fgets ...)` loop of `parsestdin`, up to the call of
`buildmenutree`: from the buffer contents to the record. -/
def parseline (bytes : List Char) : Record :=
  let buf := cstr bytes
  let level := strspn buf ['\t']
  let s := buf.drop level
  let t1 := strtok s ['\t', '\n']
  let isImg : Bool :=
    match t1.1 with
    | some l => l.take 4 == imgMarker
    | none => false
  let file : Option (List Char) :=
    if isImg then t1.1.map (fun l => l.drop 4) else none
  let t2 := if isImg then strtok t1.2 ['\t', '\n'] else t1
  let label := t2.1
  let t3 := strtok t2.2 ['\n']
  let output :=
    match t3.1 with
    | none => label
    | some o => some (skipTabs o)
  { level := level, label := label, output := output, file := file }

/-- Runs the `while (fgets ...)` loop of `parsestdin` up to the calls of
`buildmenutree`: the records in input order.  The fuel bounds the number of lines
read; `none` when it runs out before the end of the input. -/
def readrecords (size : Nat) : Nat → List Char → Option (List Record)
  | fuel, inp =>
    match fgets size inp with
    | none => some []
    | some (buf, rest) =>
      match fuel with
      | 0 => none
      | fuel1 + 1 => (readrecords size fuel1 rest).map (fun rs => parseline buf :: rs)

/-! ## The heap: items and menus -/

/-- The fields of `struct Item` the core reads or writes.  Pointers are `Option Nat`. -/
structure Item where
  label : Option (List Char)
  output : Option (List Char)
  file : Option (List Char)
  angle1 : Int
  angle2 : Int
  prev : Option Nat
  next : Option Nat
  submenu : Option Nat
deriving DecidableEq, Repr, Inhabited

/-- The fields of `struct Menu` the core reads or writes.  `win` is the window
created for the menu by `allocmenu`. -/
structure Menu where
  parent : Option Nat
  caller : Option Nat
  list : Option Nat
  selected : Option Nat
  nitems : Nat
  halfslice : Int
  level : Nat
  win : Nat
deriving DecidableEq, Repr, Inhabited

/-- The allocated objects: `items i` for `i < nitem` and `menus m` for `m < nmenu`. -/
structure Heap where
  items : Nat → Item
  nitem : Nat
  menus : Nat → Menu
  nmenu : Nat

/-- Store `v` at index `i`. -/
def upd {α : Type} (f : Nat → α) (i : Nat) (v : α) : Nat → α :=
  fun j => if j = i then v else f j

/-- The heap before anything is allocated. -/
def Heap.empty : Heap :=
  { items := fun _ => default, nitem := 0, menus := fun _ => default, nmenu := 0 }

/-- Range of the C type `unsigned`. -/
def UMAX : Nat := 2 ^ 32

/-- Ways in which a call of `buildmenutree` does not return. -/
inductive BuildErr where
  | reachedNullMenu
  | nullDeref
  | noFuel
deriving DecidableEq, Repr

/-- C `allocitem`: a separator (`label == NULL`) gets neither label nor output;
otherwise the output is the label itself or a copy of `output` (`strdup(NULL)` is a
null dereference).  `next` and `submenu` start as `NULL`.  Fields `malloc` leaves
undefined (`prev`, the angles) are given `none` and `0`; the program writes each
before reading it. -/
def allocitem (h : Heap) (label output file : Option (List Char)) :
    Except BuildErr (Heap × Nat) :=
  match label, output with
  | some _, none => .error .nullDeref
  | _, _ =>
    let item : Item :=
      { label := label
        output := match label with
          | none => none
          | some _ => output
        file := file
        angle1 := 0, angle2 := 0
        prev := none, next := none, submenu := none }
    .ok ({ h with items := upd h.items h.nitem item, nitem := h.nitem + 1 }, h.nitem)

/-- C `allocmenu`: the window of the new menu is a fresh one, numbered by the
index of the menu. -/
def allocmenu (h : Heap) (parent list : Option Nat) (level : Nat) : Heap × Nat :=
  let menu : Menu :=
    { parent := parent, list := list, caller := none, selected := none
      nitems := 0, halfslice := 0, level := level, win := h.nmenu }
  ({ h with menus := upd h.menus h.nmenu menu, nmenu := h.nmenu + 1 }, h.nmenu)

/-- The loop `for (item = first; item->next != NULL; item = item->next);`. -/
def lastitem (items : Nat → Item) : Nat → Nat → Option Nat
  | 0, _ => none
  | fuel + 1, i =>
    match (items i).next with
    | none => some i
    | some j => lastitem items fuel j

/-- The loop `for (menu = prevmenu, i = level; menu != NULL && i != prevmenu->level;
menu = menu->parent, i++);` with `plevel = prevmenu->level`.  It is entered with
`level < plevel`, so `i` stays below `plevel` and `i++` does not wrap.  The result
is the value of `menu` at loop exit (`some none` when it is `NULL`). -/
def findmenu (menus : Nat → Menu) (plevel : Nat) :
    Nat → Option Nat → Nat → Option (Option Nat)
  | 0, _, _ => none
  | _ + 1, none, _ => some none
  | fuel + 1, some m, i =>
    if i = plevel then some (some m)
    else findmenu menus plevel fuel (menus m).parent (i + 1)

/-- The static variables of `buildmenutree` together with the heap. -/
structure Builder where
  heap : Heap
  prevmenu : Option Nat
  rootmenu : Option Nat

/-- The state before the first call of `buildmenutree`. -/
def Builder.init : Builder :=
  { heap := Heap.empty, prevmenu := none, rootmenu := none }

/-- The statement `item->next = curritem; curritem->prev = item;`. -/
def linkafter (h : Heap) (item curritem : Nat) : Heap :=
  let items1 := upd h.items item { h.items item with next := some curritem }
  { h with items := upd items1 curritem { items1 curritem with prev := some item } }

/-- The statement `prevmenu->nitems++` (on an `unsigned`). -/
def bumpnitems (h : Heap) (m : Nat) : Heap :=
  { h with menus := upd h.menus m { h.menus m with nitems := ((h.menus m).nitems + 1) % UMAX } }

/-- The last item of the list of menu `m`, as found by the `for` loops of
`buildmenutree`. -/
def menulast (h : Heap) (m : Nat) : Except BuildErr Nat :=
  match (h.menus m).list with
  | none => .error .nullDeref
  | some first =>
    match lastitem h.items h.nitem first with
    | none => .error .noFuel
    | some item => .ok item

/-- C `buildmenutree(level, label, output, file)`: one call, acting on the static
state.  The returned builder holds the new `prevmenu` and the returned `rootmenu`. -/
def buildmenutree (b : Builder) (r : Record) : Except BuildErr Builder :=
  match allocitem b.heap r.label r.output r.file with
  | .error e => .error e
  | .ok (h1, curritem) =>
    match b.prevmenu with
    | none =>
      let am := allocmenu h1 none (some curritem) r.level
      let h2 : Heap :=
        { am.1 with items := upd am.1.items curritem { am.1.items curritem with prev := none } }
      .ok { heap := bumpnitems h2 am.2, prevmenu := some am.2, rootmenu := some am.2 }
    | some pm =>
      let plevel := (h1.menus pm).level
      if r.level < plevel then
        match findmenu h1.menus plevel (plevel + 1) (some pm) r.level with
        | none => .error .noFuel
        | some none => .error .reachedNullMenu
        | some (some menu) =>
          match menulast h1 menu with
          | .error e => .error e
          | .ok item =>
            .ok { heap := bumpnitems (linkafter h1 item curritem) menu
                  prevmenu := some menu, rootmenu := b.rootmenu }
      else if r.level = plevel then
        match menulast h1 pm with
        | .error e => .error e
        | .ok item =>
          .ok { heap := bumpnitems (linkafter h1 item curritem) pm
                prevmenu := some pm, rootmenu := b.rootmenu }
      else
        let am := allocmenu h1 (some pm) (some curritem) r.level
        match menulast am.1 pm with
        | .error e => .error e
        | .ok item =>
          let menus1 := upd am.1.menus am.2 { am.1.menus am.2 with caller := some item }
          let items1 := upd am.1.items item { am.1.items item with submenu := some am.2 }
          let items2 := upd items1 curritem { items1 curritem with prev := none }
          let h2 : Heap := { am.1 with menus := menus1, items := items2 }
          .ok { heap := bumpnitems h2 am.2, prevmenu := some am.2, rootmenu := b.rootmenu }

/-- Calls `buildmenutree` on the records in order, as the loop of `parsestdin` does. -/
def buildall : Builder → List Record → Except BuildErr Builder
  | b, [] => .ok b
  | b, r :: rs =>
    match buildmenutree b r with
    | .error e => .error e
    | .ok b1 => buildall b1 rs

/-- C `parsestdin`: reads the lines of the input and returns the final static state
of `buildmenutree`, whose `rootmenu` is the returned pointer (`NULL` for empty input).
Every line read holds at least one character, so `inp.length` lines are enough fuel. -/
def parsestdin (size : Nat) (inp : List Char) : Except BuildErr Builder :=
  match readrecords size inp.length inp with
  | none => .error .noFuel
  | some recs => buildall Builder.init recs

/-- The items of a list, collected by following `next` from `first`. -/
def itemsfrom (items : Nat → Item) : Nat → Option Nat → Option (List Nat)
  | _, none => some []
  | 0, some _ => none
  | fuel + 1, some i => (itemsfrom items fuel (items i).next).map (fun l => i :: l)

/-- The item list of menu `m`. -/
def Heap.menuitems (h : Heap) (m : Nat) : Option (List Nat) :=
  itemsfrom h.items h.nitem (h.menus m).list


/-! ## Slice layout and hit testing -/

/-- Conversion of an `unsigned` value to `int`. -/
def toint (v : Nat) : Int :=
  if v < 2 ^ 31 then (v : Int) else (v : Int) - 2 ^ 32

/-- The `for` loop of `setupitems` over the items from `item` on: `n` counts the
items seen, `angle` is the bisector of the current item (1/64 degree).  The label
and submenu positions, which are floating-point, are left out. -/
def setupitemsloop (nitems : Nat) (halfslice : Int) :
    Nat → (Nat → Item) → Option Nat → Nat → Int → Option (Nat → Item)
  | _, items, none, _, _ => some items
  | 0, _, some _, _, _ => none
  | fuel + 1, items, some i, n, angle =>
    let n1 := (n + 1) % UMAX
    let a1 := angle - halfslice
    let a2 := if a1 < 0 then a1 + 360 * 64 else a1
    let items1 := upd items i { items i with angle1 := a2, angle2 := halfslice * 2 }
    setupitemsloop nitems halfslice fuel items1 (items1 i).next n1
      (toint (((360 * 64 * n1) % UMAX) / nitems))

/-- C `setupitems(menu)`: `halfslice = (360 * 64) / (nitems * 2)` in `unsigned`
arithmetic (a zero divisor yields `none`), then the loop over the item list. -/
def setupitems (h : Heap) (m : Nat) : Option Heap :=
  let d := ((h.menus m).nitems * 2) % UMAX
  if d = 0 then none
  else
    let hs : Int := toint ((360 * 64) / d)
    let menus1 := upd h.menus m { h.menus m with halfslice := hs }
    (setupitemsloop (h.menus m).nitems hs h.nitem h.items (h.menus m).list 0 0).map
      (fun items1 => { h with menus := menus1, items := items1 })

/-- The recursion of `setupmenu` over the submenus of the items from `item` on. -/
def setupmenu : Nat → Heap → Nat → Option Heap
  | 0, _, _ => none
  | fuel + 1, h, m =>
    match setupitems h m with
    | none => none
    | some h1 =>
      match itemsfrom h1.items h1.nitem (h1.menus m).list with
      | none => none
      | some l =>
        l.foldl
          (fun acc i =>
            match acc with
            | none => none
            | some hh =>
              match (hh.items i).submenu with
              | none => some hh
              | some s => setupmenu fuel hh s)
          (some h1)

/-- The scan of `getitem`: the first item from `item` on whose slice
`[angle1, angle1 + angle2)` holds `angle`; `some none` is the result `NULL`. -/
def getitemscan (items : Nat → Item) : Nat → Option Nat → Int → Option (Option Nat)
  | _, none, _ => some none
  | 0, some _, _ => none
  | fuel + 1, some i, angle =>
    if (items i).angle1 ≤ angle ∧ angle < (items i).angle1 + (items i).angle2 then some (some i)
    else getitemscan items fuel (items i).next angle

/-- The angle lookup of `getitem`: the part after `angle` has been computed. -/
def getitemangle (h : Heap) (m : Nat) (angle : Int) : Option (Option Nat) :=
  if angle < (h.menus m).halfslice then some (h.menus m).list
  else getitemscan h.items h.nitem (h.menus m).list angle

/-- C `getitem(menu, x, y)`.  The floating-point computation of the angle of the
point (`atan2`, scaled to 1/64 degree) is the parameter `ang`. -/
def getitem (ang : Int → Int → Int) (h : Heap) (menu : Option Nat) (x y : Int) :
    Option (Option Nat) :=
  match menu with
  | none => some none
  | some m => getitemangle h m (ang x y)

/-! ## Keyboard cycling -/

/-- Direction constant `ITEMPREV`. -/
def ITEMPREV : Nat := 0

/-- Direction constant `ITEMNEXT`. -/
def ITEMNEXT : Nat := 1

/-- The loop `while (item != NULL && item->label == NULL) item = item->next;`. -/
def skipnext (items : Nat → Item) : Nat → Option Nat → Option (Option Nat)
  | _, none => some none
  | 0, some _ => none
  | fuel + 1, some i =>
    if (items i).label = none then skipnext items fuel (items i).next else some (some i)

/-- The loop `while (item != NULL && item->label == NULL) item = item->prev;`. -/
def skipprev (items : Nat → Item) : Nat → Option Nat → Option (Option Nat)
  | _, none => some none
  | 0, some _ => none
  | fuel + 1, some i =>
    if (items i).label = none then skipprev items fuel (items i).prev else some (some i)

/-- The loop `for (lastitem = list; lastitem != NULL && lastitem->next != NULL;
lastitem = lastitem->next);`. -/
def lastof (items : Nat → Item) : Nat → Option Nat → Option (Option Nat)
  | _, none => some none
  | 0, some _ => none
  | fuel + 1, some i =>
    match (items i).next with
    | none => some (some i)
    | some j => lastof items fuel (some j)

/-- C `itemcycle(currmenu, direction)`; `some none` is the result `NULL`. -/
def itemcycle (h : Heap) (m : Nat) (direction : Nat) : Option (Option Nat) :=
  if direction = ITEMNEXT then
    let item : Option Nat :=
      match (h.menus m).selected with
      | none => (h.menus m).list
      | some s => (h.items s).next
    match skipnext h.items (h.nitem + 1) item with
    | none => none
    | some none => some (h.menus m).list
    | some (some i) => some (some i)
  else
    match lastof h.items (h.nitem + 1) (h.menus m).list with
    | none => none
    | some lastitem =>
      let item : Option Nat :=
        match (h.menus m).selected with
        | none => lastitem
        | some s => (h.items s).prev
      match skipprev h.items (h.nitem + 1) item with
      | none => none
      | some none => some lastitem
      | some (some i) => some (some i)

/-! ## Windows and the event loop -/

/-- C `getmenu(currmenu, win)`: walks the parent links from `menu`. -/
def getmenu (menus : Nat → Menu) : Nat → Option Nat → Nat → Option (Option Nat)
  | _, none, _ => some none
  | 0, some _, _ => none
  | fuel + 1, some m, win =>
    if (menus m).win = win then some (some m)
    else getmenu menus fuel (menus m).parent win

/-- The loop `while (menu->level > minlevel) menu = menu->parent;` of `mapmenu`. -/
def climb (menus : Nat → Menu) (minlevel : Nat) : Nat → Option Nat → Option Nat
  | _, none => none
  | 0, some _ => none
  | fuel + 1, some m =>
    if minlevel < (menus m).level then climb menus minlevel fuel (menus m).parent
    else some m

/-- The loop `while (menu != menu_) { menu = menu->parent; menu_ = menu_->parent; }`
of `mapmenu`; the result is the lowest common ancestor (possibly `NULL`). -/
def meet (menus : Nat → Menu) : Nat → Option Nat → Option Nat → Option (Option Nat)
  | 0, _, _ => none
  | fuel + 1, a, b =>
    if a = b then some a
    else
      match a, b with
      | some x, some y => meet menus fuel (menus x).parent (menus y).parent
      | _, _ => none

/-- The loop of `mapmenu` that unmaps the menus from `menu` up to `lca` (exclusive)
and clears their `selected`. -/
def unmapchain : Nat → (Nat → Menu) → Option Nat → Option Nat → Option (Nat → Menu)
  | 0, _, _, _ => none
  | fuel + 1, menus, menu, lca =>
    if menu = lca then some menus
    else
      match menu with
      | none => none
      | some x =>
        unmapchain fuel (upd menus x { menus x with selected := none }) (menus x).parent lca

/-- The loop of `mapmenu` that maps the menus from `menu` up to `lca` (exclusive);
it changes nothing in the heap but has to reach `lca`. -/
def mapchain (menus : Nat → Menu) : Nat → Option Nat → Option Nat → Option Unit
  | 0, _, _ => none
  | fuel + 1, menu, lca =>
    if menu = lca then some ()
    else
      match menu with
      | none => none
      | some x => mapchain menus fuel (menus x).parent lca

/-- C `mapmenu(currmenu)` with its static variable `prevmenu` (here `mapped`):
returns the heap and the new value of the static variable. -/
def mapmenu (h : Heap) (mapped : Option Nat) (curr : Nat) : Option (Heap × Option Nat) :=
  if mapped = some curr then some (h, mapped)
  else
    match mapped with
    | none => some (h, some curr)
    | some prev =>
      let minlevel := min (h.menus curr).level (h.menus prev).level
      let maxlevel := max (h.menus curr).level (h.menus prev).level
      let menu := if (h.menus curr).level = maxlevel then curr else prev
      let menu_ := if (h.menus curr).level = maxlevel then prev else curr
      match climb h.menus minlevel (h.nmenu + 1) (some menu) with
      | none => none
      | some m1 =>
        match meet h.menus (h.nmenu + 1) (some m1) (some menu_) with
        | none => none
        | some lca =>
          match unmapchain (h.nmenu + 1) h.menus (some prev) lca with
          | none => none
          | some menus1 =>
            match mapchain menus1 (h.nmenu + 1) (some curr) lca with
            | none => none
            | some _ => some ({ h with menus := menus1 }, some curr)

/-- The variables of `run` and of `mapmenu` that live across iterations of the
event loop, together with the heap. -/
structure RunState where
  heap : Heap
  currmenu : Nat
  rootmenu : Nat
  previtem : Option Nat
  mapped : Option Nat

/-- The key symbols `run` distinguishes. -/
inductive Key where
  | escape | tab | isoLeftTab | up | down | ret | right | left | other
deriving DecidableEq, Repr

/-- The X events `run` handles, with the fields it reads. -/
inductive Event where
  | expose (count : Nat)
  | leaveNotify (win : Nat)
  | motionNotify (win : Nat) (x y : Int)
  | buttonRelease (win : Nat) (x y : Int)
  | buttonPress (win : Nat)
  | keyPress (ksym : Key) (shift : Bool)
  | configureNotify (win : Nat) (x y : Int)
  | clientMessage (win : Nat)
  | other

/-- What one iteration of the event loop leads to: the loop goes on in a new state,
or `run` returns, having printed `printed` (nothing when `none`). -/
inductive Outcome where
  | running (st : RunState)
  | finished (printed : Option (List Char))

/-- The code of `run` from the label `selectitem` on. -/
def selectitem (st : RunState) (item : Nat) : Option Outcome :=
  if (st.heap.items item).label = none then some (.running st)
  else
    match (st.heap.items item).submenu with
    | some s =>
      match mapmenu st.heap st.mapped s with
      | none => none
      | some (h1, mp) =>
        some (.running
          { st with
            heap := { h1 with
              menus := upd h1.menus s { h1.menus s with selected := (h1.menus s).list } }
            currmenu := s
            mapped := mp })
    | none =>
      match (st.heap.items item).output with
      | none => none
      | some o => some (.finished (some o))

/-- The `KeyPress` case of `run` after the test for Escape in the root menu and
after Shift-Tab has been turned into `XK_ISO_Left_Tab`: cycling, selecting, or going
back to the parent menu. -/
def keyaction (st : RunState) (ksym : Key) : Option Outcome :=
  let h := st.heap
  let setsel (item : Option Nat) : Option Outcome :=
    some (.running
      { st with
        heap := { h with
          menus := upd h.menus st.currmenu { h.menus st.currmenu with selected := item } } })
  if ksym = .isoLeftTab ∨ ksym = .up then
    match itemcycle h st.currmenu ITEMPREV with
    | none => none
    | some item => setsel item
  else if ksym = .tab ∨ ksym = .down then
    match itemcycle h st.currmenu ITEMNEXT with
    | none => none
    | some item => setsel item
  else if (ksym = .ret ∨ ksym = .right) ∧ (h.menus st.currmenu).selected ≠ none then
    match (h.menus st.currmenu).selected with
    | none => none
    | some i => selectitem st i
  else if (ksym = .escape ∨ ksym = .left) ∧ (h.menus st.currmenu).parent ≠ none then
    match (h.menus st.currmenu).parent with
    | none => none
    | some p =>
      let item := (h.menus p).selected
      match mapmenu h st.mapped p with
      | none => none
      | some (h1, mp) =>
        some (.running
          { st with
            heap := { h1 with menus := upd h1.menus p { h1.menus p with selected := item } }
            currmenu := p
            mapped := mp })
  else some (.running st)

/-- One iteration of the `while (!XNextEvent(dpy, &ev))` loop of `run`: the `switch`
on the event.  `none` stands for a crash (null dereference) or a loop that does not
end.  Drawing and pointer warping do not touch the state and are left out, as are
the window coordinates stored on `ConfigureNotify`. -/
def runstep (ang : Int → Int → Int) (st : RunState) (ev : Event) : Option Outcome :=
  let h := st.heap
  let fuel := h.nmenu + 1
  match ev with
  | .expose _ => some (.running st)
  | .other => some (.running st)
  | .leaveNotify win =>
    match getmenu h.menus fuel (some st.currmenu) win with
    | none => none
    | some none => some (.running st)
    | some (some menu) =>
      if menu ≠ st.rootmenu ∧ menu = st.currmenu then
        match (h.menus st.currmenu).parent with
        | none => none
        | some p =>
          match mapmenu h st.mapped p with
          | none => none
          | some (h1, mp) =>
            some (.running
              { st with
                heap := { h1 with menus := upd h1.menus p { h1.menus p with selected := none } }
                currmenu := p
                previtem := none
                mapped := mp })
      else
        some (.running
          { st with
            heap := { h with
              menus := upd h.menus st.currmenu { h.menus st.currmenu with selected := none } }
            previtem := none })
  | .motionNotify win x y =>
    match getmenu h.menus fuel (some st.currmenu) win with
    | none => none
    | some menu =>
      match getitem ang h menu x y with
      | none => none
      | some item =>
        match menu, item with
        | some m, some i =>
          if st.previtem = some i then some (.running st)
          else
            some (.running
              { st with
                heap := { h with menus := upd h.menus m { h.menus m with selected := some i } }
                previtem := some i })
        | _, _ => some (.running st)
  | .buttonRelease win x y =>
    match getmenu h.menus fuel (some st.currmenu) win with
    | none => none
    | some menu =>
      match getitem ang h menu x y with
      | none => none
      | some item =>
        match menu, item with
        | some _, some i => selectitem st i
        | _, _ => some (.running st)
  | .buttonPress win =>
    match getmenu h.menus fuel (some st.currmenu) win with
    | none => none
    | some none => some (.finished none)
    | some (some _) => some (.running st)
  | .keyPress ksym0 shift =>
    if ksym0 = .escape ∧ (h.menus st.currmenu).parent = none then some (.finished none)
    else keyaction st (if ksym0 = .tab ∧ shift = true then Key.isoLeftTab else ksym0)
  | .configureNotify win _ _ =>
    match getmenu h.menus fuel (some st.currmenu) win with
    | none => none
    | some _ => some (.running st)
  | .clientMessage win =>
    match getmenu h.menus fuel (some st.currmenu) win with
    | none => none
    | some none => none
    | some (some menu) =>
      match (h.menus menu).parent with
      | none => some (.finished none)
      | some p =>
        match mapmenu h st.mapped p with
        | none => none
        | some (h1, mp) => some (.running { st with heap := h1, currmenu := p, mapped := mp })

/-- The state in which `run(rootmenu)` enters its event loop: `mapmenu` has mapped
the root menu. -/
def runinit (h : Heap) (root : Nat) : RunState :=
  { heap := h, currmenu := root, rootmenu := root, previtem := none, mapped := some root }

/-! ## Specification predicates -/

/-- A record as `parsestdin` produces them: the output is `NULL` exactly when the
label is (see `parseline_parsed`). -/
def Record.parsed (r : Record) : Prop :=
  r.label.isSome = r.output.isSome

instance (r : Record) : Decidable r.parsed := by
  unfold Record.parsed
  infer_instance

/-- The builder state after the records `pre`, all at level 0: one menu, number 0,
whose items are the items `0 .. pre.length - 1`, chained in input order. -/
structure FlatInv (b : Builder) (pre : List Record) : Prop where
  root : b.rootmenu = some 0
  prev : b.prevmenu = some 0
  nmenu : b.heap.nmenu = 1
  nitem : b.heap.nitem = pre.length
  parent : (b.heap.menus 0).parent = none
  list : (b.heap.menus 0).list = some 0
  level : (b.heap.menus 0).level = 0
  nitems : (b.heap.menus 0).nitems = pre.length % UMAX
  items : ∀ i r, pre[i]? = some r →
    (b.heap.items i).label = r.label ∧ (b.heap.items i).output = r.output ∧
    (b.heap.items i).submenu = none ∧
    (b.heap.items i).next = if i + 1 < pre.length then some (i + 1) else none

/-- The level invariant of the data model: the root menu is at level 0 and every
other menu is one level below its parent. -/
structure LevelInv (h : Heap) (root : Nat) : Prop where
  rootlevel : (h.menus root).level = 0
  step : ∀ m, m < h.nmenu → m ≠ root →
    ∃ p, p < h.nmenu ∧ (h.menus m).parent = some p ∧
      (h.menus m).level = (h.menus p).level + 1

/-- Every record is indented at most one level deeper than the record before it,
`prev` being the level of the preceding record. -/
def indented : Nat → List Record → Bool
  | _, [] => true
  | prev, r :: rs => decide (r.level ≤ prev + 1) && indented r.level rs

/-- Input whose first record is at level 0 and whose indentation grows by at most
one level from a record to the next. -/
def wellindented : List Record → Bool
  | [] => true
  | r :: rs => decide (r.level = 0) && indented 0 rs

/-- No separator is directly followed by a record at a deeper level, from the record
`prev` on. -/
def sepleaffrom : Record → List Record → Bool
  | _, [] => true
  | prev, r :: rs =>
    (prev.label.isSome || decide (r.level ≤ prev.level)) && sepleaffrom r rs

/-- No separator record of the input is directly followed by a record at a deeper
level. -/
def sepleaf : List Record → Bool
  | [] => true
  | r :: rs => sepleaffrom r rs

/-- The builder state `parsestdin` ends with on the records `recs` (the initial
state when a call of `buildmenutree` fails). -/
def built (recs : List Record) : Builder :=
  match buildall Builder.init recs with
  | .ok b => b
  | .error _ => Builder.init

/-- The state of the builder between two calls: the root menu `root` and the menu
`pm` of the previous item exist, `pm` is at level `lvl`, the root menu has no parent
and the level invariant holds. -/
structure BuildInv (b : Builder) (root pm lvl : Nat) : Prop where
  hroot : b.rootmenu = some root
  hprev : b.prevmenu = some pm
  rootlt : root < b.heap.nmenu
  pmlt : pm < b.heap.nmenu
  pmlevel : (b.heap.menus pm).level = lvl
  rootparent : (b.heap.menus root).parent = none
  inv : LevelInv b.heap root

/-- What `allocitem` and `buildmenutree` guarantee for every item: a submenu pointer
points to an allocated menu, and an item with a label has an output string. -/
structure ItemsInv (h : Heap) : Prop where
  sublt : ∀ i s, (h.items i).submenu = some s → s < h.nmenu
  outputs : ∀ i, (h.items i).label ≠ none → (h.items i).output ≠ none

/-- The heaps `h1` and `h` hold the same tree: the same menus with the same parents
and levels, and items with the same submenu, label and output. -/
structure sameshape (h1 h : Heap) : Prop where
  nmenu : h1.nmenu = h.nmenu
  parent : ∀ x, (h1.menus x).parent = (h.menus x).parent
  level : ∀ x, (h1.menus x).level = (h.menus x).level
  submenu : ∀ i, (h1.items i).submenu = (h.items i).submenu
  label : ∀ i, (h1.items i).label = (h.items i).label
  output : ∀ i, (h1.items i).output = (h.items i).output

/-- The states of the event loop on a well-formed tree: the tree satisfies the level
invariant of the data model, its root menu has no parent, the items are as the
builder makes them, and the current and the mapped menu are allocated menus. -/
structure NavInv (st : RunState) : Prop where
  levels : LevelInv st.heap st.rootmenu
  rootlt : st.rootmenu < st.heap.nmenu
  rootparent : (st.heap.menus st.rootmenu).parent = none
  items : ItemsInv st.heap
  currlt : st.currmenu < st.heap.nmenu
  mappedlt : ∀ p, st.mapped = some p → p < st.heap.nmenu

/-- The list `l` is the sequence of items reached from the pointer `first` by
following `next` until `NULL`. -/
def ischain (items : Nat → Item) : Option Nat → List Nat → Prop
  | p, [] => p = none
  | p, i :: l => p = some i ∧ ischain items (items i).next l

/-- The value of `angle` in `setupitems` when the loop reaches the item with index
`k` of a menu of `nitems` items: `(360 * 64 * k) / nitems` in `unsigned` arithmetic. -/
def bisector (nitems k : Nat) : Int :=
  toint (((360 * 64 * k) % UMAX) / nitems)

/-- The angle `a` lies in the slice `[angle1, angle1 + angle2)` of the item, the
test made by the scan of `getitem`. -/
def inslice (it : Item) (a : Int) : Prop :=
  it.angle1 ≤ a ∧ a < it.angle1 + it.angle2

instance (it : Item) (a : Int) : Decidable (inslice it a) := by
  unfold inslice
  infer_instance

/-- The pointer reached from `p` by following `parent` `k` times. -/
def nthparent (menus : Nat → Menu) : Nat → Option Nat → Option Nat
  | 0, p => p
  | _ + 1, none => none
  | k + 1, some m => nthparent menus k (menus m).parent

/-- Two menu stores agree on every field except `selected`. -/
def sameexceptselected (menus1 menus : Nat → Menu) : Prop :=
  ∀ x, menus1 x = { menus x with selected := (menus1 x).selected }

/-! ## Sample inputs -/

/-- The records of the input `"Foo\n\tBar\n\t\tBaz\nQux\n"`. -/
def nestedrecords : List Record :=
  [{ level := 0, label := some ['F', 'o', 'o'], output := some ['F', 'o', 'o'], file := none },
   { level := 1, label := some ['B', 'a', 'r'], output := some ['B', 'a', 'r'], file := none },
   { level := 2, label := some ['B', 'a', 'z'], output := some ['B', 'a', 'z'], file := none },
   { level := 0, label := some ['Q', 'u', 'x'], output := some ['Q', 'u', 'x'], file := none }]

/-- Seven records at level 0, the input `"x\nx\nx\nx\nx\nx\nx\n"`. -/
def sevenrecords : List Record :=
  List.replicate 7 { level := 0, label := some ['x'], output := some ['x'], file := none }

/-- The records of the input `"\nA\n"`: a separator followed by the item `A`. -/
def sepfirstrecords : List Record :=
  [{ level := 0, label := none, output := none, file := none },
   { level := 0, label := some ['A'], output := some ['A'], file := none }]

/-- The records of the input `"A\n\n"`: the item `A` followed by a separator. -/
def seplastrecords : List Record :=
  [{ level := 0, label := some ['A'], output := some ['A'], file := none },
   { level := 0, label := none, output := none, file := none }]

/-- The records of the input `"A\nB\n"`. -/
def tworecords : List Record :=
  [{ level := 0, label := some ['A'], output := some ['A'], file := none },
   { level := 0, label := some ['B'], output := some ['B'], file := none }]

/-- The records of the input `"Foo\n\tBar\n"`. -/
def foobarrecords : List Record :=
  [{ level := 0, label := some ['F', 'o', 'o'], output := some ['F', 'o', 'o'], file := none },
   { level := 1, label := some ['B', 'a', 'r'], output := some ['B', 'a', 'r'], file := none }]

/-- The records of the input `"A\n\t\tB\n"`: the second line is indented by two
levels. -/
def jumprecords : List Record :=
  [{ level := 0, label := some ['A'], output := some ['A'], file := none },
   { level := 2, label := some ['B'], output := some ['B'], file := none }]

/-- The records of the input `"A\n\t\tB\n\t\t\tC\n"`. -/
def deeprecords : List Record :=
  [{ level := 0, label := some ['A'], output := some ['A'], file := none },
   { level := 2, label := some ['B'], output := some ['B'], file := none },
   { level := 3, label := some ['C'], output := some ['C'], file := none }]

/-- The records of the input `"A\n\tB\nC\n\t\tD\n"`: the submenu of `C` is indented
by two levels. -/
def crossrecords : List Record :=
  [{ level := 0, label := some ['A'], output := some ['A'], file := none },
   { level := 1, label := some ['B'], output := some ['B'], file := none },
   { level := 0, label := some ['C'], output := some ['C'], file := none },
   { level := 2, label := some ['D'], output := some ['D'], file := none }]

/-- The records of the input `"\n\tBar\n"`: an empty line followed by an indented
line. -/
def sepsubrecords : List Record :=
  [{ level := 0, label := none, output := none, file := none },
   { level := 1, label := some ['B', 'a', 'r'], output := some ['B', 'a', 'r'], file := none }]

/-- The heap with which `main` calls `run`: the tree `parsestdin` builds from the
records, laid out by `setupmenu` from the root (menu 0) down. -/
def laidout (recs : List Record) : Heap :=
  match setupmenu ((built recs).heap.nmenu + 1) (built recs).heap 0 with
  | some h => h
  | none => (built recs).heap

/-- The heap `h` with `selected` of menu `m` set to `sel`. -/
def withselected (h : Heap) (m : Nat) (sel : Option Nat) : Heap :=
  { h with menus := upd h.menus m { h.menus m with selected := sel } }

/-- Feeds the events to the event loop one after the other, until `run` returns. -/
def runevents (ang : Int → Int → Int) : RunState → List Event → Option Outcome
  | st, [] => some (.running st)
  | st, ev :: evs =>
    match runstep ang st ev with
    | some (.running st1) => runevents ang st1 evs
    | r => r

/-- The state of the event loop after the events `evs` (the state `st` itself when
`run` has returned or crashed on the way). -/
def afterevents (ang : Int → Int → Int) (st : RunState) (evs : List Event) : RunState :=
  match runevents ang st evs with
  | some (.running st1) => st1
  | _ => st

/-- The state in the tree of `"Foo\n\tBar\n"` after the pointer moved onto `Foo` and
the button was released there: the submenu is the current menu. -/
def insubmenu : RunState :=
  afterevents (fun _ _ => 0) (runinit (laidout foobarrecords) 0)
    [.motionNotify 0 0 0, .buttonRelease 0 0 0]

/-! ## Invariants of every built tree -/

/-- What holds for the menus after every non-failing sequence of calls of
`buildmenutree`, whatever the indentation: the root menu `root` and the menu `pm`
of the previous item are allocated, the root menu has no parent, and every other
menu has an allocated parent at a strictly smaller level. -/
structure StrictInv (b : Builder) (root pm : Nat) : Prop where
  hroot : b.rootmenu = some root
  hprev : b.prevmenu = some pm
  rootlt : root < b.heap.nmenu
  pmlt : pm < b.heap.nmenu
  rootparent : (b.heap.menus root).parent = none
  step : ∀ m, m < b.heap.nmenu → m ≠ root →
    ∃ p, p < b.heap.nmenu ∧ (b.heap.menus m).parent = some p ∧
      (b.heap.menus p).level < (b.heap.menus m).level

/-- The item lists of the menus: `L m` is the list of menu `m`, reached from
`list` by following `next`; it is not empty, holds allocated items only, shares no
item with the list of another menu, and `nitems` counts it (as an `unsigned`). -/
structure ListsInv (h : Heap) (L : Nat → List Nat) : Prop where
  chain : ∀ m, m < h.nmenu → ischain h.items (h.menus m).list (L m)
  nonempty : ∀ m, m < h.nmenu → L m ≠ []
  bound : ∀ m, m < h.nmenu → ∀ i ∈ L m, i < h.nitem
  disjoint : ∀ m1 m2, m1 < h.nmenu → m2 < h.nmenu → ∀ i, i ∈ L m1 → i ∈ L m2 → m1 = m2
  count : ∀ m, m < h.nmenu → (h.menus m).nitems = (L m).length % UMAX

/-- The state of the builder after a non-failing sequence of calls: the menus
and the item lists are well formed, and the item allocated last is the last item of
the list of the menu `pm` it was added to. -/
structure GenInv (b : Builder) (root pm : Nat) (L : Nat → List Nat) : Prop where
  menus : StrictInv b root pm
  lists : ListsInv b.heap L
  lastprev : (L pm).getLast? = some (b.heap.nitem - 1)

/-- The effect of a call of `buildmenutree` that appends the item of record `r` to
the existing menu `a`: nothing is allocated but the item, which is the item with
index `b.heap.nitem`; the menus keep parent, level and first item, the other items
keep label, output and submenu; `a` becomes the menu of the previous item. -/
structure Appended (b b1 : Builder) (a : Nat) (r : Record) : Prop where
  prev : b1.prevmenu = some a
  root : b1.rootmenu = b.rootmenu
  nitem : b1.heap.nitem = b.heap.nitem + 1
  nmenu : b1.heap.nmenu = b.heap.nmenu
  parent : ∀ m, (b1.heap.menus m).parent = (b.heap.menus m).parent
  level : ∀ m, (b1.heap.menus m).level = (b.heap.menus m).level
  newlabel : (b1.heap.items b.heap.nitem).label = r.label
  newoutput : r.parsed → (b1.heap.items b.heap.nitem).output = r.output
  newsubmenu : (b1.heap.items b.heap.nitem).submenu = none
  oldlabel : ∀ j, j ≠ b.heap.nitem → (b1.heap.items j).label = (b.heap.items j).label
  oldsubmenu : ∀ j, j ≠ b.heap.nitem → (b1.heap.items j).submenu = (b.heap.items j).submenu

/-- The effect of a call of `buildmenutree` that opens a new menu under the menu
`pm` of the previous item: the new menu has index `b.heap.nmenu`, parent `pm` and the
level of the record, and holds the new item (index `b.heap.nitem`); its caller, the
item `last` that was last in the list of `pm`, gets it as submenu. -/
structure Opened (b b1 : Builder) (pm last : Nat) (r : Record) : Prop where
  prev : b1.prevmenu = some b.heap.nmenu
  root : b1.rootmenu = b.rootmenu
  nitem : b1.heap.nitem = b.heap.nitem + 1
  nmenu : b1.heap.nmenu = b.heap.nmenu + 1
  newparent : (b1.heap.menus b.heap.nmenu).parent = some pm
  newlevel : (b1.heap.menus b.heap.nmenu).level = r.level
  newcaller : (b1.heap.menus b.heap.nmenu).caller = some last
  parent : ∀ m, m ≠ b.heap.nmenu → (b1.heap.menus m).parent = (b.heap.menus m).parent
  level : ∀ m, m ≠ b.heap.nmenu → (b1.heap.menus m).level = (b.heap.menus m).level
  newlabel : (b1.heap.items b.heap.nitem).label = r.label
  newoutput : r.parsed → (b1.heap.items b.heap.nitem).output = r.output
  newsubmenu : (b1.heap.items b.heap.nitem).submenu = none
  callersubmenu : (b1.heap.items last).submenu = some b.heap.nmenu
  oldlabel : ∀ j, j ≠ b.heap.nitem → (b1.heap.items j).label = (b.heap.items j).label
  oldsubmenu : ∀ j, j ≠ b.heap.nitem → j ≠ last →
    (b1.heap.items j).submenu = (b.heap.items j).submenu

/-! ## Screen position of a menu -/

/-- The fields of `struct Pie` the core reads. -/
structure Pie where
  diameter : Int
  radius : Int
  border : Int

/-- The fields of `struct Geometry` that `setupmenupos` reads. -/
structure Geometry where
  cursx : Int
  cursy : Int
  screenw : Int
  screenh : Int

/-- The assignments of `setuppie` to `pie`: `radius = (diameter + 1) / 2` in C `int`
division.  The configured diameter and border width are parameters. -/
def setuppie (diameter_pixels border_pixels : Int) : Pie :=
  { border := border_pixels
    diameter := diameter_pixels
    radius := (diameter_pixels + 1).tdiv 2 }

/-- C `setupmenupos(geom, menu)`: the values stored in `menu->x` and `menu->y`.  The
anchor `x`, `y` is the value of the local variables after the first two
statements: the pointer position `geom->cursx`, `geom->cursy` for the root menu, and
`parent->x + caller->x`, `parent->y + caller->y` for a submenu. -/
def setupmenupos (pie : Pie) (geom : Geometry) (x y : Int) : Int × Int :=
  let menux :=
    if x < pie.radius then 0
    else if geom.screenw - x ≥ pie.radius then x - pie.radius
    else x - pie.diameter
  let menuy :=
    if y < pie.radius then 0
    else if geom.screenh - y ≥ pie.radius then y - pie.radius
    else y - pie.diameter
  (menux, menuy)

/-! ## Line parsing (C1) -/


theorem takeWhile_append_stop {α : Type} (p : α → Bool) (l : List α) (c : α) (r : List α)
    (hl : ∀ x ∈ l, p x = true) (hc : p c = false) :
    (l ++ c :: r).takeWhile p = l := by
  induction l with
  | nil => simp [List.takeWhile, hc]
  | cons a t ih =>
    have ha : p a = true := hl a (List.mem_cons_self a t)
    have := ih (fun x hx => hl x (List.mem_cons_of_mem a hx))
    simp [List.takeWhile, ha, this]

theorem takeWhile_all {α : Type} (p : α → Bool) (l : List α)
    (hl : ∀ x ∈ l, p x = true) : l.takeWhile p = l := by
  induction l with
  | nil => rfl
  | cons a t ih =>
    have ha : p a = true := hl a (List.mem_cons_self a t)
    simp only [List.takeWhile, ha]
    rw [ih (fun x hx => hl x (List.mem_cons_of_mem a hx))]

theorem dropWhile_append_stop {α : Type} (p : α → Bool) (l : List α) (c : α) (r : List α)
    (hl : ∀ x ∈ l, p x = true) (hc : p c = false) :
    (l ++ c :: r).dropWhile p = c :: r := by
  induction l with
  | nil => simp [List.dropWhile, hc]
  | cons a t ih =>
    have ha : p a = true := hl a (List.mem_cons_self a t)
    simp only [List.cons_append, List.dropWhile, ha]
    exact ih (fun x hx => hl x (List.mem_cons_of_mem a hx))

theorem fgetsAux_line (body rest : List Char) (hnl : '\n' ∉ body) :
    ∀ n, body.length < n → fgetsAux n (body ++ '\n' :: rest) = (body ++ ['\n'], rest) := by
  induction body with
  | nil =>
    intro n hn
    cases n with
    | zero => simp at hn
    | succ n => simp [fgetsAux]
  | cons a t ih =>
    intro n hn
    cases n with
    | zero => simp at hn
    | succ n =>
      have ha : a ≠ '\n' := fun h => hnl (h ▸ List.mem_cons_self a t)
      have ht : '\n' ∉ t := fun h => hnl (List.mem_cons_of_mem a h)
      have hlen : t.length < n := by simpa using hn
      simp [fgetsAux, ha, ih ht n hlen]

theorem fgets_line (size : Nat) (body rest : List Char) (hnl : '\n' ∉ body)
    (hlen : (body ++ ['\n']).length < size) :
    fgets size ((body ++ ['\n']) ++ rest) = some (body ++ ['\n'], rest) := by
  have h1 : body.length < size - 1 := by
    simp at hlen; omega
  have h2 := fgetsAux_line body rest hnl (size - 1) h1
  have h3 : (body ++ ['\n']) ++ rest = body ++ '\n' :: rest := by simp
  rw [h3]
  cases hb : body ++ '\n' :: rest with
  | nil => simp at hb
  | cons a t => rw [hb] at h2; simp [fgets, h2]

theorem strtok_token (tok : List Char) (d : Char) (rest delim : List Char)
    (hne : tok ≠ []) (htok : ∀ x ∈ tok, x ∉ delim) (hd : d ∈ delim) :
    strtok (tok ++ d :: rest) delim = (some tok, rest) := by
  cases tok with
  | nil => exact absurd rfl hne
  | cons c cs =>
    have hc : c ∉ delim := htok c (List.mem_cons_self c cs)
    have h1 : ((c :: cs) ++ d :: rest).dropWhile (fun x => delim.contains x)
        = c :: (cs ++ d :: rest) := by
      simp [List.dropWhile, hc]
    have h2 : (c :: (cs ++ d :: rest)).takeWhile (fun x => !delim.contains x) = c :: cs := by
      have := takeWhile_append_stop (fun x => !delim.contains x) (c :: cs) d rest
        (fun x hx => by simp [htok x hx]) (by simp [hd])
      simpa using this
    have h3 : (c :: (cs ++ d :: rest)).dropWhile (fun x => !delim.contains x) = d :: rest := by
      have := dropWhile_append_stop (fun x => !delim.contains x) (c :: cs) d rest
        (fun x hx => by simp [htok x hx]) (by simp [hd])
      simpa using this
    unfold strtok
    rw [h1]
    simp only [h2, h3, List.drop_succ_cons, List.drop_zero]

theorem cstr_of_no_nul (l : List Char) (h : NUL ∉ l) : cstr l = l := by
  apply takeWhile_all
  intro x hx
  have : x ≠ NUL := fun e => h (e ▸ hx)
  simpa using this

theorem strspn_tabs (k : Nat) (c : Char) (r : List Char) (hc : c ≠ '\t') :
    strspn (List.replicate k '\t' ++ c :: r) ['\t'] = k := by
  unfold strspn
  rw [takeWhile_append_stop]
  · simp
  · intro x hx
    have := List.eq_of_mem_replicate hx
    simp [this]
  · simpa using hc

theorem NUL_ne_tab : NUL ≠ '\t' := by decide

theorem NUL_ne_newline : NUL ≠ '\n' := by decide

/-- The record of a line `tabs label newline`. -/
theorem parseline_label_only (k : Nat) (L : List Char)
    (hne : L ≠ []) (htab : '\t' ∉ L) (hnl : '\n' ∉ L) (hnul : NUL ∉ L)
    (himg : L.take 4 ≠ imgMarker) :
    parseline (List.replicate k '\t' ++ L ++ ['\n'])
      = { level := k, label := some L, output := some L, file := none } := by
  obtain ⟨c, cs, rfl⟩ := List.exists_cons_of_ne_nil hne
  have hc : c ≠ '\t' := fun e => htab (e ▸ List.mem_cons_self c cs)
  have hline : NUL ∉ List.replicate k '\t' ++ (c :: cs) ++ ['\n'] := by
    intro h
    simp only [List.mem_append, List.mem_singleton] at h
    rcases h with (h | h) | h
    · exact NUL_ne_tab (List.eq_of_mem_replicate h)
    · exact hnul h
    · exact NUL_ne_newline h
  have hsp : strspn (List.replicate k '\t' ++ (c :: cs) ++ ['\n']) ['\t'] = k := by
    have := strspn_tabs k c (cs ++ ['\n']) hc
    simpa using this
  have hdrop : (List.replicate k '\t' ++ (c :: cs) ++ ['\n']).drop k = (c :: cs) ++ ['\n'] := by
    rw [List.append_assoc]
    exact List.drop_left' (List.length_replicate k '\t')
  have htok : strtok ((c :: cs) ++ ['\n']) ['\t', '\n'] = (some (c :: cs), []) := by
    apply strtok_token _ _ _ _ (by simp)
    · intro x hx
      have h1 : x ≠ '\t' := fun e => htab (e ▸ hx)
      have h2 : x ≠ '\n' := fun e => hnl (e ▸ hx)
      simp [h1, h2]
    · simp
  have himg2 : ((c :: cs).take 4 == imgMarker) = false := by simpa using himg
  unfold parseline
  simp only [cstr_of_no_nul _ hline, hsp, hdrop, htok, himg2]
  simp [strtok]

/-- The record of a line `tabs label tabs output newline`. -/
theorem parseline_label_output (k j : Nat) (L O : List Char)
    (hne : L ≠ []) (htab : '\t' ∉ L) (hnl : '\n' ∉ L) (hnul : NUL ∉ L)
    (himg : L.take 4 ≠ imgMarker)
    (hj : 0 < j) (hOne : O ≠ []) (hOtab : O.head? ≠ some '\t') (hOnl : '\n' ∉ O)
    (hOnul : NUL ∉ O) :
    parseline (List.replicate k '\t' ++ L ++ List.replicate j '\t' ++ O ++ ['\n'])
      = { level := k, label := some L, output := some O, file := none } := by
  obtain ⟨c, cs, rfl⟩ := List.exists_cons_of_ne_nil hne
  obtain ⟨o, os, rfl⟩ := List.exists_cons_of_ne_nil hOne
  obtain ⟨i, rfl⟩ : ∃ i, j = i + 1 := ⟨j - 1, by omega⟩
  have hc : c ≠ '\t' := fun e => htab (e ▸ List.mem_cons_self c cs)
  have ho : o ≠ '\t' := by simpa using hOtab
  have hline : NUL ∉ List.replicate k '\t' ++ (c :: cs) ++ List.replicate (i + 1) '\t'
      ++ (o :: os) ++ ['\n'] := by
    intro h
    simp only [List.mem_append, List.mem_singleton] at h
    rcases h with (((h | h) | h) | h) | h
    · exact NUL_ne_tab (List.eq_of_mem_replicate h)
    · exact hnul h
    · exact NUL_ne_tab (List.eq_of_mem_replicate h)
    · exact hOnul h
    · exact NUL_ne_newline h
  have hshape : List.replicate k '\t' ++ (c :: cs) ++ List.replicate (i + 1) '\t'
      ++ (o :: os) ++ ['\n']
      = List.replicate k '\t' ++ ((c :: cs) ++ '\t' ::
          ((List.replicate i '\t' ++ (o :: os)) ++ '\n' :: [])) := by
    simp [List.replicate_succ]
  have hsp : strspn (List.replicate k '\t' ++ ((c :: cs) ++ '\t' ::
          ((List.replicate i '\t' ++ (o :: os)) ++ '\n' :: []))) ['\t'] = k := by
    have := strspn_tabs k c (cs ++ '\t' :: ((List.replicate i '\t' ++ (o :: os)) ++ '\n' :: [])) hc
    simpa using this
  have hdrop : (List.replicate k '\t' ++ ((c :: cs) ++ '\t' ::
          ((List.replicate i '\t' ++ (o :: os)) ++ '\n' :: []))).drop k
      = (c :: cs) ++ '\t' :: ((List.replicate i '\t' ++ (o :: os)) ++ '\n' :: []) :=
    List.drop_left' (List.length_replicate k '\t')
  have htok : strtok ((c :: cs) ++ '\t' :: ((List.replicate i '\t' ++ (o :: os)) ++ '\n' :: []))
      ['\t', '\n'] = (some (c :: cs), (List.replicate i '\t' ++ (o :: os)) ++ '\n' :: []) := by
    apply strtok_token _ _ _ _ (by simp)
    · intro x hx
      have h1 : x ≠ '\t' := fun e => htab (e ▸ hx)
      have h2 : x ≠ '\n' := fun e => hnl (e ▸ hx)
      simp [h1, h2]
    · simp
  have htok2 : strtok ((List.replicate i '\t' ++ (o :: os)) ++ '\n' :: []) ['\n']
      = (some (List.replicate i '\t' ++ (o :: os)), []) := by
    apply strtok_token _ _ _ _ (by simp)
    · intro x hx
      have h2 : x ≠ '\n' := by
        intro e
        subst e
        rcases List.mem_append.1 hx with h | h
        · exact absurd (List.eq_of_mem_replicate h) (by decide)
        · exact hOnl h
      simp [h2]
    · simp
  have hskip : skipTabs (List.replicate i '\t' ++ (o :: os)) = o :: os := by
    unfold skipTabs
    apply dropWhile_append_stop
    · intro x hx
      simp [List.eq_of_mem_replicate hx]
    · simpa using ho
  have himg2 : ((c :: cs).take 4 == imgMarker) = false := by simpa using himg
  rw [hshape] at hline ⊢
  unfold parseline
  simp only [cstr_of_no_nul _ hline, hsp, hdrop, htok, himg2, Bool.false_eq_true, if_false, htok2, hskip]

theorem readrecords_line (size fuel : Nat) (body rest : List Char) (hnl : '\n' ∉ body)
    (hlen : (body ++ ['\n']).length < size) :
    readrecords size (fuel + 1) ((body ++ ['\n']) ++ rest)
      = (readrecords size fuel rest).map (fun rs => parseline (body ++ ['\n']) :: rs) := by
  rw [readrecords]
  simp only [fgets_line size body rest hnl hlen]

/-- C1: a line `k tabs, label L, newline` is handed to `buildmenutree` as the record
`(k, L, L)` (no icon file), and the item `allocitem` makes of it has output `L`
equal to its label; a line `k tabs, label L, one or more tabs, output O, newline` is
handed over as `(k, L, O)`.  Here `L` is a non-empty C string without tab or
newline that does not start with `IMG:`, `O` is a non-empty C string without
newline that does not start with a tab, and the line fits the read buffer. -/
theorem parsestdin_line_record (size fuel k : Nat) (L rest : List Char)
    (hne : L ≠ []) (htab : '\t' ∉ L) (hnl : '\n' ∉ L) (hnul : NUL ∉ L)
    (himg : L.take 4 ≠ imgMarker) :
    ((List.replicate k '\t' ++ L ++ ['\n']).length < size →
      readrecords size (fuel + 1) ((List.replicate k '\t' ++ L ++ ['\n']) ++ rest)
        = (readrecords size fuel rest).map
            (fun rs => { level := k, label := some L, output := some L, file := none } :: rs) ∧
      ∀ h : Heap, ∃ h1 item, allocitem h (some L) (some L) none = .ok (h1, item) ∧
        (h1.items item).label = some L ∧ (h1.items item).output = some L) ∧
    (∀ (j : Nat) (O : List Char), 0 < j → O ≠ [] → O.head? ≠ some '\t' → '\n' ∉ O → NUL ∉ O →
      (List.replicate k '\t' ++ L ++ List.replicate j '\t' ++ O ++ ['\n']).length < size →
      readrecords size (fuel + 1)
          ((List.replicate k '\t' ++ L ++ List.replicate j '\t' ++ O ++ ['\n']) ++ rest)
        = (readrecords size fuel rest).map
            (fun rs => { level := k, label := some L, output := some O, file := none } :: rs) ∧
      ∀ h : Heap, ∃ h1 item, allocitem h (some L) (some O) none = .ok (h1, item) ∧
        (h1.items item).label = some L ∧ (h1.items item).output = some O) := by
  have htabs : ∀ n, '\n' ∉ List.replicate n '\t' := fun n h =>
    absurd (List.eq_of_mem_replicate h) (by decide)
  constructor
  · intro hlen
    constructor
    · have hb : '\n' ∉ List.replicate k '\t' ++ L := by
        intro h
        rcases List.mem_append.1 h with h | h
        · exact htabs k h
        · exact hnl h
      rw [readrecords_line size fuel _ rest hb hlen,
        parseline_label_only k L hne htab hnl hnul himg]
    · intro h
      exact ⟨_, _, rfl, by simp [upd], by simp [upd]⟩
  · intro j O hj hOne hOtab hOnl hOnul hlen
    constructor
    · have hb : '\n' ∉ List.replicate k '\t' ++ L ++ List.replicate j '\t' ++ O := by
        intro h
        simp only [List.mem_append] at h
        rcases h with ((h | h) | h) | h
        · exact htabs k h
        · exact hnl h
        · exact htabs j h
        · exact hOnl h
      rw [readrecords_line size fuel _ rest hb hlen,
        parseline_label_output k j L O hne htab hnl hnul himg hj hOne hOtab hOnl hOnul]
    · intro h
      exact ⟨_, _, rfl, by simp [upd], by simp [upd]⟩

/-- The two scenarios of the specification, `"Foo\n"` and `"Foo\tbar\n"`, obtained
from `parsestdin_line_record`. -/
theorem parsestdin_line_record_witness :
    readrecords 8192 1 (['F', 'o', 'o', '\n'] ++ [])
      = some [{ level := 0, label := some ['F', 'o', 'o'], output := some ['F', 'o', 'o'],
                file := none }] ∧
    readrecords 8192 1 (['F', 'o', 'o', '\t', 'b', 'a', 'r', '\n'] ++ [])
      = some [{ level := 0, label := some ['F', 'o', 'o'], output := some ['b', 'a', 'r'],
                file := none }] :=
  ⟨(((parsestdin_line_record 8192 0 0 ['F', 'o', 'o'] [] (by decide) (by decide) (by decide)
      (by decide) (by decide)).1 (by decide)).1).trans rfl,
   (((parsestdin_line_record 8192 0 0 ['F', 'o', 'o'] [] (by decide) (by decide) (by decide)
      (by decide) (by decide)).2 1 ['b', 'a', 'r'] (by decide) (by decide) (by decide)
      (by decide) (by decide) (by decide)).1).trans rfl⟩

/-! ## `mapmenu` returns on trees that satisfy the level invariant -/

theorem levels_onto (h : Heap) (root : Nat) (hlv : LevelInv h root) :
    ∀ lvl m, m < h.nmenu → (h.menus m).level = lvl →
      ∀ k, k ≤ lvl → ∃ m1, m1 < h.nmenu ∧ (h.menus m1).level = k := by
  intro lvl
  induction lvl with
  | zero =>
    intro m hm hl k hk
    exact ⟨m, hm, by omega⟩
  | succ lvl ih =>
    intro m hm hl k hk
    by_cases hkl : k = lvl + 1
    · exact ⟨m, hm, by omega⟩
    · have hmr : m ≠ root := by
        intro e
        rw [e, hlv.rootlevel] at hl
        omega
      obtain ⟨p, hp, _, hpl⟩ := hlv.step m hm hmr
      exact ih p hp (by omega) k (by omega)

theorem level_lt_nmenu (h : Heap) (root : Nat) (hlv : LevelInv h root) (m : Nat)
    (hm : m < h.nmenu) : (h.menus m).level < h.nmenu := by
  have honto := levels_onto h root hlv (h.menus m).level m hm rfl
  have hsub : Finset.range ((h.menus m).level + 1)
      ⊆ (Finset.range h.nmenu).image (fun x => (h.menus x).level) := by
    intro k hk
    simp only [Finset.mem_range] at hk
    obtain ⟨m1, hm1, hl1⟩ := honto k (by omega)
    simp only [Finset.mem_image, Finset.mem_range]
    exact ⟨m1, hm1, hl1⟩
  have h1 := Finset.card_le_card hsub
  have h2 : ((Finset.range h.nmenu).image (fun x => (h.menus x).level)).card
      ≤ (Finset.range h.nmenu).card := Finset.card_image_le
  simp only [Finset.card_range] at h1 h2
  omega

theorem nthparent_add (menus : Nat → Menu) :
    ∀ j k p, nthparent menus (j + k) p = nthparent menus k (nthparent menus j p) := by
  intro j
  induction j with
  | zero => intro k p; simp [nthparent]
  | succ j ih =>
    intro k p
    have : j + 1 + k = (j + k) + 1 := by omega
    rw [this]
    cases p with
    | none =>
      simp only [nthparent]
      cases k <;> rfl
    | some m =>
      simp only [nthparent]
      exact ih k _

theorem nthparent_congr (menus1 menus : Nat → Menu)
    (hpar : ∀ x, (menus1 x).parent = (menus x).parent) :
    ∀ k p, nthparent menus1 k p = nthparent menus k p := by
  intro k
  induction k with
  | zero => intro p; rfl
  | succ k ih =>
    intro p
    cases p with
    | none => rfl
    | some m =>
      simp only [nthparent]
      rw [hpar, ih]

theorem climb_spec (h : Heap) (root : Nat) (hlv : LevelInv h root) (ml : Nat) :
    ∀ fuel m, m < h.nmenu → ml ≤ (h.menus m).level → (h.menus m).level - ml < fuel →
      ∃ c, c < h.nmenu ∧ climb h.menus ml fuel (some m) = some c ∧
        nthparent h.menus ((h.menus m).level - ml) (some m) = some c ∧
        (h.menus c).level = ml := by
  intro fuel
  induction fuel with
  | zero => intro m _ _ hf; omega
  | succ f ih =>
    intro m hm hml hf
    unfold climb
    by_cases hlt : ml < (h.menus m).level
    · rw [if_pos hlt]
      have hmr : m ≠ root := by
        intro e
        rw [e, hlv.rootlevel] at hlt
        omega
      obtain ⟨p, hp, hpar, hpl⟩ := hlv.step m hm hmr
      obtain ⟨c, hc, h1, h2, h3⟩ := ih p hp (by omega) (by omega)
      refine ⟨c, hc, by rw [hpar]; exact h1, ?_, h3⟩
      have : (h.menus m).level - ml = ((h.menus p).level - ml) + 1 := by omega
      rw [this]
      simp only [nthparent]
      rw [hpar]
      exact h2
    · rw [if_neg hlt]
      have : (h.menus m).level - ml = 0 := by omega
      rw [this]
      exact ⟨m, hm, rfl, rfl, by omega⟩

theorem meet_spec (h : Heap) (root : Nat) (hlv : LevelInv h root) :
    ∀ lvl fuel a b, a < h.nmenu → b < h.nmenu → (h.menus a).level = lvl →
      (h.menus b).level = lvl → lvl < fuel →
      ∃ j c, c < h.nmenu ∧ meet h.menus fuel (some a) (some b) = some (some c) ∧
        nthparent h.menus j (some a) = some c ∧ nthparent h.menus j (some b) = some c ∧
        j ≤ lvl := by
  intro lvl
  induction lvl with
  | zero =>
    intro fuel a b ha hb hla hlb hf
    have har : a = root := by
      by_contra hne
      obtain ⟨p, _, _, hpl⟩ := hlv.step a ha hne
      omega
    have hbr : b = root := by
      by_contra hne
      obtain ⟨p, _, _, hpl⟩ := hlv.step b hb hne
      omega
    rw [hbr, ← har]
    cases fuel with
    | zero => omega
    | succ f =>
      exact ⟨0, a, ha, by simp [meet], rfl, rfl, le_refl _⟩
  | succ lvl ih =>
    intro fuel a b ha hb hla hlb hf
    cases fuel with
    | zero => omega
    | succ f =>
      by_cases hab : a = b
      · subst hab
        exact ⟨0, a, ha, by simp [meet], rfl, rfl, by omega⟩
      · have har : a ≠ root := by
          intro e
          rw [e, hlv.rootlevel] at hla
          omega
        have hbr : b ≠ root := by
          intro e
          rw [e, hlv.rootlevel] at hlb
          omega
        obtain ⟨pa, hpa, hpara, hpla⟩ := hlv.step a ha har
        obtain ⟨pb, hpb, hparb, hplb⟩ := hlv.step b hb hbr
        obtain ⟨j, c, hc, h1, h2, h3, h4⟩ := ih f pa pb hpa hpb (by omega) (by omega) (by omega)
        refine ⟨j + 1, c, hc, ?_, ?_, ?_, by omega⟩
        · unfold meet
          have : ¬ (some a = some b) := fun e => hab (Option.some.inj e)
          rw [if_neg this]
          simp only [hpara, hparb]
          exact h1
        · simp only [nthparent]
          rw [hpara]
          exact h2
        · simp only [nthparent]
          rw [hparb]
          exact h3

theorem nthparent_none (menus : Nat → Menu) : ∀ k, nthparent menus k none = none := by
  intro k
  cases k <;> rfl

theorem sameexceptselected_refl (menus : Nat → Menu) : sameexceptselected menus menus :=
  fun _ => rfl

theorem unmapchain_spec :
    ∀ (k fuel : Nat) (menus : Nat → Menu) (m c : Nat),
      nthparent menus k (some m) = some c → k < fuel →
      ∃ menus1, unmapchain fuel menus (some m) (some c) = some menus1 ∧
        sameexceptselected menus1 menus := by
  intro k
  induction k with
  | zero =>
    intro fuel menus m c hk hf
    simp only [nthparent, Option.some.injEq] at hk
    subst hk
    cases fuel with
    | zero => omega
    | succ f => exact ⟨menus, by simp [unmapchain], sameexceptselected_refl menus⟩
  | succ k ih =>
    intro fuel menus m c hk hf
    cases fuel with
    | zero => omega
    | succ f =>
      by_cases hmc : m = c
      · subst hmc
        exact ⟨menus, by simp [unmapchain], sameexceptselected_refl menus⟩
      · simp only [nthparent] at hk
        cases hpar : (menus m).parent with
        | none =>
          rw [hpar, nthparent_none] at hk
          exact absurd hk (by simp)
        | some p =>
          rw [hpar] at hk
          have hcongr : ∀ x, ((upd menus m { menus m with selected := none }) x).parent
              = (menus x).parent := by
            intro x
            simp only [upd]
            split
            · rename_i hx; rw [hx]
            · rfl
          have hk2 : nthparent (upd menus m { menus m with selected := none }) k (some p)
              = some c := by
            rw [nthparent_congr _ menus hcongr]
            exact hk
          obtain ⟨menus1, h1, h2⟩ := ih f _ p c hk2 (by omega)
          refine ⟨menus1, ?_, ?_⟩
          · unfold unmapchain
            have : ¬ (some m = some c) := fun e => hmc (Option.some.inj e)
            rw [if_neg this]
            rw [← hpar] at h1
            exact h1
          · intro x
            rw [h2 x]
            simp only [upd]
            split
            · rename_i hx; rw [hx]
            · rfl

theorem mapchain_spec (menus : Nat → Menu) :
    ∀ (k fuel : Nat) (m c : Nat),
      nthparent menus k (some m) = some c → k < fuel →
      mapchain menus fuel (some m) (some c) = some () := by
  intro k
  induction k with
  | zero =>
    intro fuel m c hk hf
    simp only [nthparent, Option.some.injEq] at hk
    subst hk
    cases fuel with
    | zero => omega
    | succ f => simp [mapchain]
  | succ k ih =>
    intro fuel m c hk hf
    cases fuel with
    | zero => omega
    | succ f =>
      by_cases hmc : m = c
      · subst hmc
        simp [mapchain]
      · simp only [nthparent] at hk
        cases hpar : (menus m).parent with
        | none =>
          rw [hpar, nthparent_none] at hk
          exact absurd hk (by simp)
        | some p =>
          rw [hpar] at hk
          unfold mapchain
          have : ¬ (some m = some c) := fun e => hmc (Option.some.inj e)
          rw [if_neg this]
          have h1 := ih f p c hk (by omega)
          rw [← hpar] at h1
          exact h1

/-- On a heap that satisfies the level invariant, `mapmenu` returns for every pair
of an already mapped menu and a menu to map; it changes `selected` fields only. -/
theorem mapmenu_total (h : Heap) (root prev curr : Nat) (hlv : LevelInv h root)
    (hp : prev < h.nmenu) (hc : curr < h.nmenu) :
    ∃ menus1, mapmenu h (some prev) curr = some ({ h with menus := menus1 }, some curr) ∧
      sameexceptselected menus1 h.menus := by
  by_cases heq : prev = curr
  · subst heq
    exact ⟨h.menus, by simp [mapmenu], sameexceptselected_refl _⟩
  · have hlp := level_lt_nmenu h root hlv prev hp
    have hlc := level_lt_nmenu h root hlv curr hc
    have hne : ¬ (some prev = some curr) := fun e => heq (Option.some.inj e)
    unfold mapmenu
    rw [if_neg hne]
    simp only
    by_cases hcmp : (h.menus prev).level ≤ (h.menus curr).level
    · have hmax : max (h.menus curr).level (h.menus prev).level = (h.menus curr).level :=
        Nat.max_eq_left hcmp
      have hmin : min (h.menus curr).level (h.menus prev).level = (h.menus prev).level :=
        Nat.min_eq_right hcmp
      simp only [hmax, hmin, if_true]
      obtain ⟨c1, hc1, hcl, hnp1, hl1⟩ := climb_spec h root hlv (h.menus prev).level
        (h.nmenu + 1) curr hc hcmp (by omega)
      obtain ⟨j, c, hcn, hmeet, hnpa, hnpb, hj⟩ := meet_spec h root hlv (h.menus prev).level
        (h.nmenu + 1) c1 prev hc1 hp hl1 rfl (by omega)
      obtain ⟨menus1, hun, hsame⟩ := unmapchain_spec j (h.nmenu + 1) h.menus prev c hnpb
        (by omega)
      have hcurr : nthparent menus1 (((h.menus curr).level - (h.menus prev).level) + j)
          (some curr) = some c := by
        rw [nthparent_congr menus1 h.menus (fun x => by rw [hsame x]), nthparent_add, hnp1]
        exact hnpa
      have hmap := mapchain_spec menus1 _ (h.nmenu + 1) curr c hcurr (by omega)
      refine ⟨menus1, ?_, hsame⟩
      simp only [hcl, hmeet, hun, hmap]
    · have hcmp2 : (h.menus curr).level < (h.menus prev).level := by omega
      have hmax : max (h.menus curr).level (h.menus prev).level = (h.menus prev).level :=
        Nat.max_eq_right (by omega)
      have hmin : min (h.menus curr).level (h.menus prev).level = (h.menus curr).level :=
        Nat.min_eq_left (by omega)
      have hnemax : ¬ ((h.menus curr).level = (h.menus prev).level) := by omega
      simp only [hmax, hmin, hnemax, if_false]
      obtain ⟨c1, hc1, hcl, hnp1, hl1⟩ := climb_spec h root hlv (h.menus curr).level
        (h.nmenu + 1) prev hp (by omega) (by omega)
      obtain ⟨j, c, hcn, hmeet, hnpa, hnpb, hj⟩ := meet_spec h root hlv (h.menus curr).level
        (h.nmenu + 1) c1 curr hc1 hc hl1 rfl (by omega)
      have hprev : nthparent h.menus (((h.menus prev).level - (h.menus curr).level) + j)
          (some prev) = some c := by
        rw [nthparent_add, hnp1]
        exact hnpa
      obtain ⟨menus1, hun, hsame⟩ := unmapchain_spec _ (h.nmenu + 1) h.menus prev c hprev
        (by omega)
      have hcurr : nthparent menus1 j (some curr) = some c := by
        rw [nthparent_congr menus1 h.menus (fun x => by rw [hsame x])]
        exact hnpb
      have hmap := mapchain_spec menus1 _ (h.nmenu + 1) curr c hcurr (by omega)
      refine ⟨menus1, ?_, hsame⟩
      simp only [hcl, hmeet, hun, hmap]

/-! ## The tree builder on flat input (C3) -/

theorem strtok_none (s delim : List Char) (h : (strtok s delim).1 = none) :
    (strtok s delim).2 = [] := by
  unfold strtok at h ⊢
  split
  · rfl
  · rename_i c cs hs
    rw [hs] at h
    simp at h

/-- Every record `parseline` produces has an output exactly when it has a label. -/
theorem parseline_parsed (bytes : List Char) : (parseline bytes).parsed := by
  have key : ∀ (t2 : Option (List Char) × List Char), (t2.1 = none → t2.2 = []) →
      (t2.1).isSome = (match (strtok t2.2 ['\n']).1 with
        | none => t2.1
        | some o => some (skipTabs o)).isSome := by
    intro t2 h2
    cases h1 : t2.1 with
    | none =>
      rw [h2 h1]
      simp [strtok]
    | some l =>
      split <;> simp
  unfold Record.parsed parseline
  simp only
  apply key
  split
  · exact strtok_none _ _
  · exact strtok_none _ _

theorem allocitem_ok (h : Heap) (r : Record) (hr : r.parsed) :
    allocitem h r.label r.output r.file
      = .ok ({ h with
                items := upd h.items h.nitem
                  { label := r.label, output := r.output, file := r.file, angle1 := 0,
                    angle2 := 0, prev := none, next := none, submenu := none }
                nitem := h.nitem + 1 }, h.nitem) := by
  unfold Record.parsed at hr
  unfold allocitem
  cases hl : r.label <;> cases ho : r.output <;> simp [hl, ho] at hr ⊢

theorem lastitem_chain (items : Nat → Item) (n : Nat)
    (hchain : ∀ j, j < n → (items j).next = if j + 1 < n then some (j + 1) else none) :
    ∀ fuel i, i < n → n - i ≤ fuel → lastitem items fuel i = some (n - 1) := by
  intro fuel
  induction fuel with
  | zero => intro i hi hf; omega
  | succ f ih =>
    intro i hi hf
    unfold lastitem
    rw [hchain i hi]
    by_cases h : i + 1 < n
    · simp only [h, if_true]
      exact ih (i + 1) h (by omega)
    · simp only [h, if_false]
      congr 1
      omega

theorem itemsfrom_chain (items : Nat → Item) (n : Nat)
    (hchain : ∀ j, j < n → (items j).next = if j + 1 < n then some (j + 1) else none) :
    ∀ fuel i, i < n → n - i ≤ fuel →
      itemsfrom items fuel (some i) = some (List.range' i (n - i)) := by
  intro fuel
  induction fuel with
  | zero => intro i hi hf; omega
  | succ f ih =>
    intro i hi hf
    unfold itemsfrom
    rw [hchain i hi]
    by_cases h : i + 1 < n
    · simp only [h, if_true]
      rw [ih (i + 1) h (by omega)]
      have : n - i = (n - (i + 1)) + 1 := by omega
      rw [this, List.range'_succ]
      rfl
    · simp only [h, if_false]
      have : n - i = 1 := by omega
      rw [this]
      cases f <;> simp [itemsfrom]

theorem buildmenutree_first (r : Record) (hlev : r.level = 0) (hr : r.parsed) :
    ∃ b, buildmenutree Builder.init r = .ok b ∧ FlatInv b [r] := by
  refine ⟨?_, ?_, ?_⟩
  rotate_left
  · unfold buildmenutree
    rw [allocitem_ok _ _ hr]
    exact rfl
  · constructor <;>
      simp [bumpnitems, allocmenu, upd, Heap.empty, Builder.init, hlev, UMAX]
    intro i r1 hi
    cases i with
    | zero =>
      simp at hi
      subst hi
      simp
    | succ i => simp at hi

theorem buildmenutree_flat_step (b : Builder) (pre : List Record) (r : Record)
    (hb : FlatInv b pre) (hpre : pre ≠ []) (hlev : r.level = 0) (hr : r.parsed) :
    ∃ b1, buildmenutree b r = .ok b1 ∧ FlatInv b1 (pre ++ [r]) := by
  have hlen : 0 < pre.length := List.length_pos.2 hpre
  have hchain : ∀ j, j < pre.length →
      ((upd b.heap.items pre.length
          { label := r.label, output := r.output, file := r.file, angle1 := 0,
            angle2 := 0, prev := none, next := none, submenu := none }) j).next
        = if j + 1 < pre.length then some (j + 1) else none := by
    intro j hj
    have hjn : j ≠ pre.length := by omega
    obtain ⟨rj, hrj⟩ : ∃ rj, pre[j]? = some rj := ⟨pre[j], List.getElem?_eq_getElem hj⟩
    have := (hb.items j rj hrj).2.2.2
    simp only [upd, hjn, if_false, this]
  have hlast := lastitem_chain _ pre.length hchain (pre.length + 1) 0 (by omega) (by omega)
  refine ⟨?_, ?_, ?_⟩
  rotate_left
  · unfold buildmenutree
    rw [allocitem_ok _ _ hr]
    simp only [hb.prev, hb.level, hlev, lt_irrefl, if_false, if_true, menulast, hb.list,
      hb.nitem, hlast]
    exact rfl
  · have hne : pre.length - 1 ≠ pre.length := by omega
    constructor
    · exact hb.root
    · rfl
    · simp [bumpnitems, linkafter, hb.nmenu]
    · simp [bumpnitems, linkafter]
    · simp [bumpnitems, linkafter, upd, hb.parent]
    · simp [bumpnitems, linkafter, upd, hb.list]
    · simp [bumpnitems, linkafter, upd, hb.level]
    · simp [bumpnitems, linkafter, upd, hb.nitems, UMAX]
    · intro i ri hi
      simp only [bumpnitems, linkafter, upd]
      by_cases h1 : i = pre.length
      · subst h1
        simp at hi
        subst hi
        simp [hne.symm]
      · have hi2 : i < pre.length := by
          by_contra hc
          have : (pre ++ [r])[i]? = none := by
            apply List.getElem?_eq_none
            simp; omega
          rw [this] at hi
          exact absurd hi (by simp)
        have hi3 : pre[i]? = some ri := by
          rw [List.getElem?_append_left hi2] at hi
          exact hi
        obtain ⟨h2, h3, h4, h5⟩ := hb.items i ri hi3
        by_cases h6 : i = pre.length - 1
        · subst h6
          have h8 : pre.length - 1 + 1 < pre.length + 1 := by omega
          have h9 : pre.length - 1 + 1 = pre.length := by omega
          simp [hne, h2, h3, h4, h8, h9]
        · simp [h1, h6, h2, h3, h4, h5]
          by_cases h7 : i + 1 < pre.length
          · have h8 : i + 1 < pre.length + 1 := by omega
            simp [h7, h8]
            omega
          · omega

theorem buildall_flat (rs : List Record) :
    ∀ (b : Builder) (pre : List Record), FlatInv b pre → pre ≠ [] →
      (∀ r ∈ rs, r.level = 0) → (∀ r ∈ rs, r.parsed) →
      ∃ b1, buildall b rs = .ok b1 ∧ FlatInv b1 (pre ++ rs) := by
  induction rs with
  | nil =>
    intro b pre hb _ _ _
    exact ⟨b, rfl, by simpa using hb⟩
  | cons r rs ih =>
    intro b pre hb hpre hlev hr
    obtain ⟨b1, h1, hb1⟩ := buildmenutree_flat_step b pre r hb hpre
      (hlev r (List.mem_cons_self r rs)) (hr r (List.mem_cons_self r rs))
    obtain ⟨b2, h2, hb2⟩ := ih b1 (pre ++ [r]) hb1 (by simp)
      (fun x hx => hlev x (List.mem_cons_of_mem r hx))
      (fun x hx => hr x (List.mem_cons_of_mem r hx))
    refine ⟨b2, ?_, by simpa using hb2⟩
    simp only [buildall, h1, h2]

/-- C3: `buildmenutree` called on `N >= 1` records, all at level 0, from the initial
state returns a root menu without parent whose `nitems` is `N` and whose item list
has exactly `N` (distinct) items, the `i`-th carrying the label and output of the
`i`-th record and owning no submenu.  The records are as `parsestdin` makes them
(`Record.parsed`) and `N` is within the range of the `unsigned` counter. -/
theorem buildmenutree_flat_roundtrip (recs : List Record) (hne : recs ≠ [])
    (hlev : ∀ r ∈ recs, r.level = 0) (hr : ∀ r ∈ recs, r.parsed)
    (hN : recs.length < UMAX) :
    ∃ b root l, buildall Builder.init recs = .ok b ∧ b.rootmenu = some root ∧
      (b.heap.menus root).parent = none ∧ (b.heap.menus root).nitems = recs.length ∧
      b.heap.menuitems root = some l ∧ l.length = recs.length ∧ l.Nodup ∧
      ∀ (i : Nat) (r : Record), recs[i]? = some r →
        ∃ it, l[i]? = some it ∧ (b.heap.items it).label = r.label ∧
          (b.heap.items it).output = r.output ∧ (b.heap.items it).submenu = none := by
  obtain ⟨r0, rs, rfl⟩ := List.exists_cons_of_ne_nil hne
  obtain ⟨b0, h0, hb0⟩ := buildmenutree_first r0 (hlev r0 (List.mem_cons_self r0 rs))
    (hr r0 (List.mem_cons_self r0 rs))
  obtain ⟨b, h1, hb⟩ := buildall_flat rs b0 [r0] hb0 (by simp)
    (fun x hx => hlev x (List.mem_cons_of_mem r0 hx))
    (fun x hx => hr x (List.mem_cons_of_mem r0 hx))
  have hb2 : FlatInv b (r0 :: rs) := by simpa using hb
  have hchain : ∀ j, j < (r0 :: rs).length →
      (b.heap.items j).next = if j + 1 < (r0 :: rs).length then some (j + 1) else none := by
    intro j hj
    exact (hb2.items j _ (List.getElem?_eq_getElem hj)).2.2.2
  have hl := itemsfrom_chain b.heap.items (r0 :: rs).length hchain (r0 :: rs).length 0
    (by simp) (by simp)
  refine ⟨b, 0, List.range' 0 (r0 :: rs).length, ?_, hb2.root, hb2.parent, ?_, ?_, by simp,
    List.nodup_range' _ _, ?_⟩
  · simp only [buildall, h0, h1]
  · rw [hb2.nitems]
    exact Nat.mod_eq_of_lt hN
  · unfold Heap.menuitems
    rw [hb2.list, hb2.nitem]
    simpa using hl
  · intro i r hi
    have hi2 : i < (r0 :: rs).length := by
      by_contra hc
      rw [List.getElem?_eq_none (by omega)] at hi
      exact absurd hi (by simp)
    obtain ⟨h2, h3, h4, _⟩ := hb2.items i r hi
    refine ⟨i, ?_, h2, h3, h4⟩
    rw [List.getElem?_eq_getElem (by simpa using hi2)]
    simp

/-- The round trip on three records, the middle one a separator. -/
theorem buildmenutree_flat_roundtrip_witness :
    ∃ b root l,
      buildall Builder.init
        [{ level := 0, label := some ['A'], output := some ['A'], file := none },
         { level := 0, label := none, output := none, file := none },
         { level := 0, label := some ['B'], output := some ['x'], file := none }] = .ok b ∧
      b.rootmenu = some root ∧
      (b.heap.menus root).parent = none ∧ (b.heap.menus root).nitems = 3 ∧
      b.heap.menuitems root = some l ∧ l.length = 3 ∧ l.Nodup ∧
      ∀ (i : Nat) (r : Record),
        [({ level := 0, label := some ['A'], output := some ['A'], file := none } : Record),
         { level := 0, label := none, output := none, file := none },
         { level := 0, label := some ['B'], output := some ['x'], file := none }][i]? = some r →
        ∃ it, l[i]? = some it ∧ (b.heap.items it).label = r.label ∧
          (b.heap.items it).output = r.output ∧ (b.heap.items it).submenu = none :=
  buildmenutree_flat_roundtrip
    [{ level := 0, label := some ['A'], output := some ['A'], file := none },
     { level := 0, label := none, output := none, file := none },
     { level := 0, label := some ['B'], output := some ['x'], file := none }]
    (by decide) (by decide) (by decide) (by decide)

/-! ## Levels of the built tree (C4) -/

/-- C4, as stated, fails: the input `"\tFoo\n"` gives a root menu at level 1, and
the input `"A\n\t\tB\n"` gives a submenu at level 2 whose parent is at level 0. -/
theorem buildmenutree_level_counterexample :
    (∃ b root, parsestdin 8192 ['\t', 'F', 'o', 'o', '\n'] = .ok b ∧
      b.rootmenu = some root ∧ (b.heap.menus root).level = 1) ∧
    (∃ b m p, parsestdin 8192 ['A', '\n', '\t', '\t', 'B', '\n'] = .ok b ∧
      m < b.heap.nmenu ∧ (b.heap.menus m).parent = some p ∧
      (b.heap.menus m).level = 2 ∧ (b.heap.menus p).level = 0) :=
  ⟨⟨_, 0, rfl, rfl, rfl⟩, ⟨_, 1, 0, rfl, by decide, rfl, rfl, rfl⟩⟩

theorem allocitem_menus (h h1 : Heap) (l o f : Option (List Char)) (i : Nat)
    (ha : allocitem h l o f = .ok (h1, i)) :
    h1.menus = h.menus ∧ h1.nmenu = h.nmenu := by
  unfold allocitem at ha
  split at ha
  · simp at ha
  · simp only [Except.ok.injEq, Prod.mk.injEq] at ha
    obtain ⟨rfl, _⟩ := ha
    exact ⟨rfl, rfl⟩

theorem findmenu_level (menus : Nat → Menu) (nmenu root plevel lv : Nat)
    (hroot : (menus root).level = 0)
    (hstep : ∀ m, m < nmenu → m ≠ root →
      ∃ p, p < nmenu ∧ (menus m).parent = some p ∧ (menus m).level = (menus p).level + 1) :
    ∀ fuel m i menu, m < nmenu → i ≤ plevel → (menus m).level + i = plevel + lv →
      findmenu menus plevel fuel (some m) i = some (some menu) →
      menu < nmenu ∧ (menus menu).level = lv := by
  intro fuel
  induction fuel with
  | zero => intro m i menu _ _ _ h; simp [findmenu] at h
  | succ f ih =>
    intro m i menu hm hile hlev h
    unfold findmenu at h
    by_cases hi : i = plevel
    · simp only [hi, if_true, Option.some.injEq] at h
      subst h
      exact ⟨hm, by omega⟩
    · simp only [hi, if_false] at h
      by_cases hmr : m = root
      · subst hmr
        rw [hroot] at hlev
        omega
      · obtain ⟨p, hp, hpar, hpl⟩ := hstep m hm hmr
        rw [hpar] at h
        exact ih p (i + 1) menu hp (by omega) (by omega) h

theorem LevelInv_of_fields (h h1 : Heap) (root : Nat) (hinv : LevelInv h root)
    (hn : h1.nmenu = h.nmenu)
    (hpar : ∀ m, (h1.menus m).parent = (h.menus m).parent)
    (hlev : ∀ m, (h1.menus m).level = (h.menus m).level) :
    LevelInv h1 root := by
  constructor
  · rw [hlev]; exact hinv.rootlevel
  · intro m hm hmr
    obtain ⟨p, hp, h2, h3⟩ := hinv.step m (hn ▸ hm) hmr
    exact ⟨p, hn ▸ hp, by rw [hpar, h2], by rw [hlev, hlev, h3]⟩

theorem bumpnitems_parent (h : Heap) (m x : Nat) :
    ((bumpnitems h m).menus x).parent = (h.menus x).parent := by
  simp only [bumpnitems, upd]
  split
  · rename_i e; rw [e]
  · rfl

theorem buildmenutree_level_step (b b1 : Builder) (root pm lvl : Nat) (r : Record)
    (hb : BuildInv b root pm lvl) (hr : r.level ≤ lvl + 1)
    (h : buildmenutree b r = .ok b1) :
    ∃ pm1, BuildInv b1 root pm1 r.level := by
  unfold buildmenutree at h
  cases ha : allocitem b.heap r.label r.output r.file with
  | error e => simp [ha] at h
  | ok a =>
    obtain ⟨h1, curritem⟩ := a
    obtain ⟨hm, hn⟩ := allocitem_menus _ _ _ _ _ _ ha
    simp only [ha, hb.hprev, hm, hb.pmlevel] at h
    have hframe : ∀ (hh : Heap), hh.nmenu = b.heap.nmenu →
        (∀ m, (hh.menus m).parent = (b.heap.menus m).parent) →
        (∀ m, (hh.menus m).level = (b.heap.menus m).level) → LevelInv hh root :=
      fun hh h1 h2 h3 => LevelInv_of_fields b.heap hh root hb.inv h1 h2 h3
    by_cases hlt : r.level < lvl
    · simp only [hlt, if_true] at h
      cases hf : findmenu b.heap.menus lvl (lvl + 1) (some pm) r.level with
      | none => simp [hf] at h
      | some res =>
        cases res with
        | none => simp [hf] at h
        | some menu =>
          obtain ⟨hml, hmlev⟩ := findmenu_level b.heap.menus b.heap.nmenu root lvl r.level
            hb.inv.rootlevel hb.inv.step (lvl + 1) pm r.level menu hb.pmlt (by omega)
            (by rw [hb.pmlevel]) hf
          simp only [hf] at h
          cases hl : menulast h1 menu with
          | error e => simp [hl] at h
          | ok item =>
            simp only [hl, Except.ok.injEq] at h
            subst h
            refine ⟨menu, ⟨hb.hroot, rfl, ?_, ?_, ?_, ?_, ?_⟩⟩
            · simpa [bumpnitems, linkafter, hn] using hb.rootlt
            · simpa [bumpnitems, linkafter, hn] using hml
            · simp [bumpnitems, linkafter, upd, hm, hmlev]
            · rw [bumpnitems_parent]
              simpa [linkafter, hm] using hb.rootparent
            · apply hframe
              · simp [bumpnitems, linkafter, hn]
              · intro m; simp only [bumpnitems, linkafter, upd, hm]; split <;> simp_all
              · intro m; simp only [bumpnitems, linkafter, upd, hm]; split <;> simp_all
    · simp only [hlt, if_false] at h
      by_cases heq : r.level = lvl
      · simp only [heq, if_true] at h
        cases hl : menulast h1 pm with
        | error e => simp [hl] at h
        | ok item =>
          simp only [hl, Except.ok.injEq] at h
          subst h
          refine ⟨pm, ⟨hb.hroot, rfl, ?_, ?_, ?_, ?_, ?_⟩⟩
          · simpa [bumpnitems, linkafter, hn] using hb.rootlt
          · simpa [bumpnitems, linkafter, hn] using hb.pmlt
          · simp [bumpnitems, linkafter, upd, hm, hb.pmlevel, heq]
          · rw [bumpnitems_parent]
            simpa [linkafter, hm] using hb.rootparent
          · apply hframe
            · simp [bumpnitems, linkafter, hn]
            · intro m; simp only [bumpnitems, linkafter, upd, hm]; split <;> simp_all
            · intro m; simp only [bumpnitems, linkafter, upd, hm]; split <;> simp_all
      · simp only [heq, if_false] at h
        have hlv : r.level = lvl + 1 := by omega
        cases hl : menulast (allocmenu h1 (some pm) (some curritem) r.level).1 pm with
        | error e => simp [hl] at h
        | ok item =>
          simp only [hl, Except.ok.injEq] at h
          subst h
          have hrne : root ≠ b.heap.nmenu := Nat.ne_of_lt hb.rootlt
          have hpne : pm ≠ b.heap.nmenu := Nat.ne_of_lt hb.pmlt
          refine ⟨b.heap.nmenu, ⟨hb.hroot, ?_, ?_, ?_, ?_, ?_, ?_, ?_⟩⟩
          · simp [allocmenu, hn]
          · simp only [bumpnitems, allocmenu, hn]
            exact Nat.lt_succ_of_lt hb.rootlt
          · simp [bumpnitems, allocmenu, hn]
          · simp [bumpnitems, allocmenu, upd, hn]
          · rw [bumpnitems_parent]
            simp only [allocmenu, upd, hn, hm]
            simp [hrne, hb.rootparent]
          · simp only [bumpnitems, allocmenu, upd, hn, hm]
            simp [hrne, hb.inv.rootlevel]
          · intro m hml hmr
            simp only [bumpnitems, allocmenu, hn] at hml
            simp only [bumpnitems, allocmenu, upd, hn, hm]
            by_cases hmn : m = b.heap.nmenu
            · refine ⟨pm, Nat.lt_succ_of_lt hb.pmlt, ?_, ?_⟩
              · simp [hmn]
              · simp [hmn, hpne, hb.pmlevel, hlv]
            · have hm2 : m < b.heap.nmenu := by omega
              obtain ⟨p, hp, h2, h3⟩ := hb.inv.step m hm2 hmr
              have hpn : p ≠ b.heap.nmenu := Nat.ne_of_lt hp
              refine ⟨p, Nat.lt_succ_of_lt hp, ?_, ?_⟩
              · simp [hmn, h2]
              · simp [hmn, hpn, h3]

theorem buildmenutree_level_first (b1 : Builder) (r : Record) (hr : r.level = 0)
    (h : buildmenutree Builder.init r = .ok b1) : BuildInv b1 0 0 0 := by
  unfold buildmenutree at h
  cases ha : allocitem Builder.init.heap r.label r.output r.file with
  | error e => simp [ha] at h
  | ok a =>
    obtain ⟨h1, curritem⟩ := a
    obtain ⟨hm, hn⟩ := allocitem_menus _ _ _ _ _ _ ha
    rw [ha] at h
    simp only [Builder.init, Except.ok.injEq] at h
    subst h
    have hn0 : h1.nmenu = 0 := by rw [hn]; rfl
    refine ⟨?_, ?_, ?_, ?_, ?_, ?_, ?_, ?_⟩
    · simp [allocmenu, hn0]
    · simp [allocmenu, hn0]
    · simp [bumpnitems, allocmenu, hn0]
    · simp [bumpnitems, allocmenu, hn0]
    · simp [bumpnitems, allocmenu, upd, hn0, hr]
    · simp [bumpnitems, allocmenu, upd, hn0]
    · simp [bumpnitems, allocmenu, upd, hn0, hr]
    · intro m hml hmr
      simp only [bumpnitems, allocmenu, hn0] at hml
      omega

theorem buildall_level (rs : List Record) :
    ∀ (b b1 : Builder) (root pm lvl : Nat), BuildInv b root pm lvl →
      indented lvl rs = true → buildall b rs = .ok b1 →
      ∃ pm1 lvl1, BuildInv b1 root pm1 lvl1 := by
  induction rs with
  | nil =>
    intro b b1 root pm lvl hb _ h
    simp only [buildall, Except.ok.injEq] at h
    subst h
    exact ⟨pm, lvl, hb⟩
  | cons r rs ih =>
    intro b b1 root pm lvl hb hind h
    simp only [indented, Bool.and_eq_true, decide_eq_true_eq] at hind
    unfold buildall at h
    cases hs : buildmenutree b r with
    | error e => simp [hs] at h
    | ok b2 =>
      simp only [hs] at h
      obtain ⟨pm2, hb2⟩ := buildmenutree_level_step b b2 root pm lvl r hb hind.1 hs
      exact ih b2 b1 root pm2 r.level hb2 hind.2 h

theorem buildall_wellindented (recs : List Record) (b : Builder) (root : Nat)
    (hw : wellindented recs = true) (hb : buildall Builder.init recs = .ok b)
    (hroot : b.rootmenu = some root) : ∃ pm lvl, BuildInv b root pm lvl := by
  cases recs with
  | nil =>
    simp only [buildall, Except.ok.injEq] at hb
    subst hb
    simp [Builder.init] at hroot
  | cons r rs =>
    simp only [wellindented, Bool.and_eq_true, decide_eq_true_eq] at hw
    unfold buildall at hb
    cases hs : buildmenutree Builder.init r with
    | error e => simp [hs] at hb
    | ok b2 =>
      simp only [hs] at hb
      have hb2 := buildmenutree_level_first b2 r hw.1 hs
      obtain ⟨pm1, lvl1, hb1⟩ := buildall_level rs b2 b 0 0 0 hb2 hw.2 hb
      have : root = 0 := by
        have := hb1.hroot
        rw [hroot] at this
        exact Option.some.inj this
      subst this
      exact ⟨pm1, lvl1, hb1⟩

/-- C4, amended: when the first record is at level 0 and every record is indented
at most one level deeper than the one before it, then in every tree that
`buildmenutree` builds without failing the root menu is at level 0 and every other
menu has a parent menu and is exactly one level below it. -/
theorem buildmenutree_level_invariant (recs : List Record) (b : Builder) (root : Nat)
    (hw : wellindented recs = true) (hb : buildall Builder.init recs = .ok b)
    (hroot : b.rootmenu = some root) : LevelInv b.heap root := by
  obtain ⟨pm, lvl, hinv⟩ := buildall_wellindented recs b root hw hb hroot
  exact hinv.inv

/-- The level invariant on the tree of `"Foo\n\tBar\n\t\tBaz\nQux\n"`. -/
theorem buildmenutree_level_invariant_witness :
    LevelInv (built nestedrecords).heap 0 :=
  buildmenutree_level_invariant nestedrecords (built nestedrecords) 0 (by decide) rfl rfl

/-! ## Invariants of the states of the event loop -/

theorem allocitem_ItemsInv (h h1 : Heap) (l o f : Option (List Char)) (i : Nat)
    (ha : allocitem h l o f = .ok (h1, i)) (hinv : ItemsInv h) :
    ItemsInv h1 ∧ h1.nmenu = h.nmenu := by
  unfold allocitem at ha
  split at ha
  · simp at ha
  · rename_i hne
    simp only [Except.ok.injEq, Prod.mk.injEq] at ha
    obtain ⟨rfl, _⟩ := ha
    refine ⟨⟨?_, ?_⟩, rfl⟩
    · intro j s hj
      simp only [upd] at hj
      split at hj
      · simp at hj
      · exact hinv.sublt j s hj
    · intro j hj
      simp only [upd] at hj ⊢
      split
      · rename_i hjn
        simp only [hjn, if_true] at hj
        cases hl : l with
        | none => exact absurd hl hj
        | some x =>
          cases ho : o with
          | none => exact absurd ho (fun e => hne x hl e)
          | some y => simp
      · rename_i hjn
        simp only [hjn, if_false] at hj
        exact hinv.outputs j hj

theorem linkafter_fields (h : Heap) (a b : Nat) (i : Nat) :
    ((linkafter h a b).items i).submenu = (h.items i).submenu ∧
    ((linkafter h a b).items i).label = (h.items i).label ∧
    ((linkafter h a b).items i).output = (h.items i).output := by
  unfold linkafter upd
  simp only
  refine ⟨?_, ?_, ?_⟩ <;> split_ifs <;> subst_vars <;> rfl

theorem linkafter_ItemsInv (h : Heap) (a b : Nat) (hinv : ItemsInv h) :
    ItemsInv (linkafter h a b) := by
  constructor
  · intro i s hi
    rw [(linkafter_fields h a b i).1] at hi
    exact hinv.sublt i s hi
  · intro i hi
    rw [(linkafter_fields h a b i).2.1] at hi
    rw [(linkafter_fields h a b i).2.2]
    exact hinv.outputs i hi

theorem bumpnitems_ItemsInv (h : Heap) (m : Nat) (hinv : ItemsInv h) :
    ItemsInv (bumpnitems h m) :=
  ⟨hinv.sublt, hinv.outputs⟩

theorem buildmenutree_ItemsInv (b b1 : Builder) (r : Record) (hinv : ItemsInv b.heap)
    (h : buildmenutree b r = .ok b1) : ItemsInv b1.heap := by
  unfold buildmenutree at h
  cases ha : allocitem b.heap r.label r.output r.file with
  | error e => simp [ha] at h
  | ok a =>
    obtain ⟨h1, curritem⟩ := a
    obtain ⟨hi1, hn⟩ := allocitem_ItemsInv _ _ _ _ _ _ ha hinv
    simp only [ha] at h
    split at h
    · simp only [Except.ok.injEq] at h
      subst h
      constructor
      · intro i s hi
        simp only [bumpnitems, allocmenu, upd] at hi ⊢
        have : (h1.items i).submenu = some s := by
          split_ifs at hi <;> subst_vars <;> exact hi
        exact Nat.lt_succ_of_lt (hi1.sublt i s this)
      · intro i hi
        simp only [bumpnitems, allocmenu, upd] at hi ⊢
        have hl : (h1.items i).label ≠ none := by
          split_ifs at hi <;> subst_vars <;> exact hi
        have := hi1.outputs i hl
        split_ifs <;> subst_vars <;> exact this
    · split at h
      · split at h
        · simp at h
        · simp at h
        · split at h
          · simp at h
          · simp only [Except.ok.injEq] at h
            subst h
            exact bumpnitems_ItemsInv _ _ (linkafter_ItemsInv _ _ _ hi1)
      · split at h
        · split at h
          · simp at h
          · simp only [Except.ok.injEq] at h
            subst h
            exact bumpnitems_ItemsInv _ _ (linkafter_ItemsInv _ _ _ hi1)
        · split at h
          · simp at h
          · simp only [Except.ok.injEq] at h
            subst h
            rename_i item _
            constructor
            · intro i s hi
              simp only [bumpnitems, allocmenu, upd] at hi ⊢
              by_cases hs : s = h1.nmenu
              · omega
              · have : (h1.items i).submenu = some s := by
                  split_ifs at hi <;> subst_vars <;> first | exact hi | simp_all
                exact Nat.lt_succ_of_lt (hi1.sublt i s this)
            · intro i hi
              simp only [bumpnitems, allocmenu, upd] at hi ⊢
              have hl : (h1.items i).label ≠ none := by
                split_ifs at hi <;> subst_vars <;> exact hi
              have := hi1.outputs i hl
              split_ifs <;> subst_vars <;> exact this

theorem ItemsInv_empty : ItemsInv Heap.empty :=
  ⟨fun _ _ h => by simp [Heap.empty] at h, fun _ h => absurd rfl h⟩

theorem buildall_ItemsInv (rs : List Record) :
    ∀ (b b1 : Builder), ItemsInv b.heap → buildall b rs = .ok b1 → ItemsInv b1.heap := by
  induction rs with
  | nil =>
    intro b b1 hinv h
    simp only [buildall, Except.ok.injEq] at h
    subst h
    exact hinv
  | cons r rs ih =>
    intro b b1 hinv h
    unfold buildall at h
    cases hs : buildmenutree b r with
    | error e => simp [hs] at h
    | ok b2 =>
      simp only [hs] at h
      exact ih b2 b1 (buildmenutree_ItemsInv b b2 r hinv hs) h

theorem sameshape_refl (h : Heap) : sameshape h h :=
  ⟨rfl, fun _ => rfl, fun _ => rfl, fun _ => rfl, fun _ => rfl, fun _ => rfl⟩

theorem sameshape_trans (h2 h1 h : Heap) (h21 : sameshape h2 h1) (h10 : sameshape h1 h) :
    sameshape h2 h :=
  ⟨h21.nmenu.trans h10.nmenu,
   fun x => (h21.parent x).trans (h10.parent x),
   fun x => (h21.level x).trans (h10.level x),
   fun i => (h21.submenu i).trans (h10.submenu i),
   fun i => (h21.label i).trans (h10.label i),
   fun i => (h21.output i).trans (h10.output i)⟩

theorem setupitemsloop_frame (nitems : Nat) (hs : Int) :
    ∀ (fuel : Nat) (items : Nat → Item) (p : Option Nat) (n : Nat) (angle : Int)
      (items1 : Nat → Item),
      setupitemsloop nitems hs fuel items p n angle = some items1 →
      ∀ i, (items1 i).submenu = (items i).submenu ∧ (items1 i).label = (items i).label ∧
        (items1 i).output = (items i).output := by
  intro fuel
  induction fuel with
  | zero =>
    intro items p n angle items1 h i
    cases p with
    | none =>
      simp only [setupitemsloop, Option.some.injEq] at h
      subst h
      exact ⟨rfl, rfl, rfl⟩
    | some x => simp [setupitemsloop] at h
  | succ f ih =>
    intro items p n angle items1 h i
    cases p with
    | none =>
      simp only [setupitemsloop, Option.some.injEq] at h
      subst h
      exact ⟨rfl, rfl, rfl⟩
    | some x =>
      simp only [setupitemsloop] at h
      obtain ⟨h1, h2, h3⟩ := ih _ _ _ _ _ h i
      rw [h1, h2, h3]
      unfold upd
      refine ⟨?_, ?_, ?_⟩ <;> split_ifs <;> subst_vars <;> rfl

theorem setupitems_sameshape (h h1 : Heap) (m : Nat) (hs : setupitems h m = some h1) :
    sameshape h1 h := by
  unfold setupitems at hs
  simp only at hs
  split at hs
  · simp at hs
  · simp only [Option.map_eq_some'] at hs
    obtain ⟨items1, hloop, rfl⟩ := hs
    have hf := setupitemsloop_frame _ _ _ _ _ _ _ _ hloop
    refine ⟨rfl, ?_, ?_, fun i => (hf i).1, fun i => (hf i).2.1, fun i => (hf i).2.2⟩
    · intro x
      simp only [upd]
      split_ifs <;> subst_vars <;> rfl
    · intro x
      simp only [upd]
      split_ifs <;> subst_vars <;> rfl

theorem setupmenu_sameshape :
    ∀ (fuel : Nat) (h h1 : Heap) (m : Nat), setupmenu fuel h m = some h1 → sameshape h1 h := by
  intro fuel
  induction fuel with
  | zero => intro h h1 m hs; simp [setupmenu] at hs
  | succ f ih =>
    intro h h1 m hs
    unfold setupmenu at hs
    cases hsi : setupitems h m with
    | none => simp [hsi] at hs
    | some h2 =>
      simp only [hsi] at hs
      cases hl : itemsfrom h2.items h2.nitem (h2.menus m).list with
      | none => simp [hl] at hs
      | some l =>
        simp only [hl] at hs
        have hfold : ∀ (l : List Nat) (acc : Heap) (res : Heap),
            l.foldl
              (fun acc i =>
                match acc with
                | none => none
                | some hh =>
                  match (hh.items i).submenu with
                  | none => some hh
                  | some s => setupmenu f hh s)
              (some acc) = some res → sameshape res acc := by
          intro l
          induction l with
          | nil =>
            intro acc res hr
            simp only [List.foldl, Option.some.injEq] at hr
            subst hr
            exact sameshape_refl _
          | cons x t iht =>
            intro acc res hr
            simp only [List.foldl] at hr
            cases hsub : (acc.items x).submenu with
            | none =>
              simp only [hsub] at hr
              exact iht acc res hr
            | some s =>
              simp only [hsub] at hr
              cases hrec : setupmenu f acc s with
              | none =>
                rw [hrec] at hr
                have hnone : ∀ (t : List Nat),
                    t.foldl
                      (fun acc i =>
                        match acc with
                        | none => none
                        | some hh =>
                          match (hh.items i).submenu with
                          | none => some hh
                          | some s => setupmenu f hh s)
                      (none : Option Heap) = none := by
                  intro t
                  induction t with
                  | nil => rfl
                  | cons y u ihu => simpa [List.foldl] using ihu
                rw [hnone t] at hr
                exact absurd hr (by simp)
              | some acc1 =>
                rw [hrec] at hr
                exact sameshape_trans _ _ _ (iht acc1 res hr) (ih acc acc1 s hrec)
        exact sameshape_trans _ _ _ (hfold l h2 h1 hs) (setupitems_sameshape h h2 m hsi)

theorem LevelInv_sameshape (h1 h : Heap) (root : Nat) (hs : sameshape h1 h)
    (hinv : LevelInv h root) : LevelInv h1 root :=
  LevelInv_of_fields h h1 root hinv hs.nmenu hs.parent hs.level

theorem ItemsInv_sameshape (h1 h : Heap) (hs : sameshape h1 h) (hinv : ItemsInv h) :
    ItemsInv h1 := by
  constructor
  · intro i s hi
    rw [hs.submenu] at hi
    rw [hs.nmenu]
    exact hinv.sublt i s hi
  · intro i hi
    rw [hs.label] at hi
    rw [hs.output]
    exact hinv.outputs i hi

/-- The invariant carries over to a state whose heap holds the same tree. -/
theorem NavInv_sameshape (st st1 : RunState) (hinv : NavInv st)
    (hs : sameshape st1.heap st.heap) (hroot : st1.rootmenu = st.rootmenu)
    (hcur : st1.currmenu < st.heap.nmenu)
    (hmap : ∀ p, st1.mapped = some p → p < st.heap.nmenu) : NavInv st1 := by
  refine ⟨?_, ?_, ?_, ?_, ?_, ?_⟩
  · rw [hroot]
    exact LevelInv_sameshape _ _ _ hs hinv.levels
  · rw [hroot, hs.nmenu]
    exact hinv.rootlt
  · rw [hroot, hs.parent]
    exact hinv.rootparent
  · exact ItemsInv_sameshape _ _ hs hinv.items
  · rw [hs.nmenu]
    exact hcur
  · intro p hp
    rw [hs.nmenu]
    exact hmap p hp

/-- The state in which `run` enters the event loop satisfies the invariant when the
input is well indented: `h` is the heap after `parsestdin` and `setupmenu`. -/
theorem NavInv_runinit (recs : List Record) (b : Builder) (root : Nat) (h : Heap)
    (hw : wellindented recs = true) (hb : buildall Builder.init recs = .ok b)
    (hroot : b.rootmenu = some root) (hs : sameshape h b.heap) :
    NavInv (runinit h root) := by
  obtain ⟨pm, lvl, hinv⟩ := buildall_wellindented recs b root hw hb hroot
  have hitems := buildall_ItemsInv recs Builder.init b ItemsInv_empty hb
  refine ⟨?_, ?_, ?_, ?_, ?_, ?_⟩
  · exact LevelInv_sameshape _ _ _ hs hinv.inv
  · simp only [runinit]
    rw [hs.nmenu]
    exact hinv.rootlt
  · simp only [runinit]
    rw [hs.parent]
    exact hinv.rootparent
  · exact ItemsInv_sameshape _ _ hs hitems
  · simp only [runinit]
    rw [hs.nmenu]
    exact hinv.rootlt
  · intro p hp
    simp only [runinit, Option.some.injEq] at hp
    subst hp
    simp only [runinit]
    rw [hs.nmenu]
    exact hinv.rootlt

theorem getmenu_lt (menus : Nat → Menu) (nmenu root : Nat)
    (hrootpar : (menus root).parent = none)
    (hstep : ∀ m, m < nmenu → m ≠ root → ∃ p, p < nmenu ∧ (menus m).parent = some p ∧
      (menus m).level = (menus p).level + 1) (win : Nat) :
    ∀ fuel m r, m < nmenu → getmenu menus fuel (some m) win = some (some r) → r < nmenu := by
  intro fuel
  induction fuel with
  | zero => intro m r _ h; simp [getmenu] at h
  | succ f ih =>
    intro m r hm h
    unfold getmenu at h
    split_ifs at h with hw
    · simp only [Option.some.injEq] at h
      subst h
      exact hm
    · by_cases hmr : m = root
      · rw [hmr, hrootpar] at h
        cases f <;> simp [getmenu] at h
      · obtain ⟨p, hp, hpar, _⟩ := hstep m hm hmr
        rw [hpar] at h
        exact ih p r hp h

theorem mapmenu_sameshape (h h1 : Heap) (root curr : Nat) (mapped mp : Option Nat)
    (hlv : LevelInv h root) (hmapped : ∀ p, mapped = some p → p < h.nmenu)
    (hc : curr < h.nmenu) (hm : mapmenu h mapped curr = some (h1, mp)) :
    sameshape h1 h ∧ mp = some curr := by
  cases hmp : mapped with
  | none =>
    rw [hmp] at hm
    simp only [mapmenu, if_false, Option.some.injEq, Prod.mk.injEq] at hm
    rw [if_neg (by simp)] at hm
    simp only [Option.some.injEq, Prod.mk.injEq] at hm
    obtain ⟨rfl, rfl⟩ := hm
    exact ⟨sameshape_refl _, rfl⟩
  | some p =>
    obtain ⟨menus1, h2, h3⟩ := mapmenu_total h root p curr hlv (hmapped p hmp) hc
    rw [hmp, h2] at hm
    simp only [Option.some.injEq, Prod.mk.injEq] at hm
    obtain ⟨rfl, rfl⟩ := hm
    refine ⟨⟨rfl, ?_, ?_, fun _ => rfl, fun _ => rfl, fun _ => rfl⟩, rfl⟩
    · intro x
      simp only
      rw [h3 x]
    · intro x
      simp only
      rw [h3 x]

theorem withselected_sameshape (h : Heap) (m : Nat) (sel : Option Nat) :
    sameshape (withselected h m sel) h := by
  refine ⟨rfl, ?_, ?_, fun _ => rfl, fun _ => rfl, fun _ => rfl⟩
  · intro x
    simp only [withselected, upd]
    split_ifs <;> subst_vars <;> rfl
  · intro x
    simp only [withselected, upd]
    split_ifs <;> subst_vars <;> rfl

theorem selectitem_NavInv (st st1 : RunState) (item : Nat) (hinv : NavInv st)
    (h : selectitem st item = some (.running st1)) : NavInv st1 := by
  unfold selectitem at h
  split_ifs at h with hlab
  · simp only [Option.some.injEq, Outcome.running.injEq] at h
    subst h
    exact hinv
  · cases hsub : (st.heap.items item).submenu with
    | none =>
      rw [hsub] at h
      simp only at h
      split at h <;> simp at h
    | some s =>
      rw [hsub] at h
      simp only at h
      have hs := hinv.items.sublt item s hsub
      cases hm : mapmenu st.heap st.mapped s with
      | none => simp [hm] at h
      | some res =>
        obtain ⟨h1, mp⟩ := res
        obtain ⟨hshape, hmp⟩ := mapmenu_sameshape st.heap h1 st.rootmenu s st.mapped mp
          hinv.levels hinv.mappedlt hs hm
        simp only [hm, Option.some.injEq, Outcome.running.injEq] at h
        subst h
        apply NavInv_sameshape st _ hinv
        · exact sameshape_trans _ _ _ (withselected_sameshape h1 s _) hshape
        · rfl
        · exact hs
        · intro p hp
          simp only at hp
          rw [hmp] at hp
          rw [← Option.some.inj hp]
          exact hs

theorem keyaction_NavInv (st st1 : RunState) (ksym : Key) (hinv : NavInv st)
    (h : keyaction st ksym = some (.running st1)) : NavInv st1 := by
  simp only [keyaction] at h
  split_ifs at h
  · cases hc : itemcycle st.heap st.currmenu ITEMPREV with
    | none => simp [hc] at h
    | some item =>
      simp only [hc, Option.some.injEq, Outcome.running.injEq] at h
      subst h
      exact NavInv_sameshape st _ hinv (withselected_sameshape st.heap _ _) rfl
        hinv.currlt hinv.mappedlt
  · cases hc : itemcycle st.heap st.currmenu ITEMNEXT with
    | none => simp [hc] at h
    | some item =>
      simp only [hc, Option.some.injEq, Outcome.running.injEq] at h
      subst h
      exact NavInv_sameshape st _ hinv (withselected_sameshape st.heap _ _) rfl
        hinv.currlt hinv.mappedlt
  · cases hsel : (st.heap.menus st.currmenu).selected with
    | none => simp [hsel] at h
    | some i =>
      simp only [hsel] at h
      exact selectitem_NavInv st st1 i hinv h
  · cases hpar : (st.heap.menus st.currmenu).parent with
    | none => simp [hpar] at h
    | some p =>
      have hne : st.currmenu ≠ st.rootmenu := by
        intro e
        rw [e, hinv.rootparent] at hpar
        exact absurd hpar (by simp)
      obtain ⟨p1, hp1, hpar1, _⟩ := hinv.levels.step st.currmenu hinv.currlt hne
      have hp : p < st.heap.nmenu := by
        rw [hpar] at hpar1
        rw [Option.some.inj hpar1]
        exact hp1
      simp only [hpar] at h
      cases hm : mapmenu st.heap st.mapped p with
      | none => simp [hm] at h
      | some res =>
        obtain ⟨hh, mp⟩ := res
        obtain ⟨hshape, hmp⟩ := mapmenu_sameshape st.heap hh st.rootmenu p st.mapped mp
          hinv.levels hinv.mappedlt hp hm
        simp only [hm, Option.some.injEq, Outcome.running.injEq] at h
        subst h
        refine NavInv_sameshape st _ hinv
          (sameshape_trans _ _ _ (withselected_sameshape hh p _) hshape) rfl hp ?_
        intro q hq
        simp only at hq
        rw [hmp] at hq
        rw [← Option.some.inj hq]
        exact hp
  · simp only [Option.some.injEq, Outcome.running.injEq] at h
    subst h
    exact hinv

/-- One iteration of the event loop keeps the invariant. -/
theorem runstep_NavInv (ang : Int → Int → Int) (st st1 : RunState) (ev : Event)
    (hinv : NavInv st) (h : runstep ang st ev = some (.running st1)) : NavInv st1 := by
  have hgm : ∀ win r, getmenu st.heap.menus (st.heap.nmenu + 1) (some st.currmenu) win
      = some (some r) → r < st.heap.nmenu :=
    fun win r hr => getmenu_lt st.heap.menus st.heap.nmenu st.rootmenu hinv.rootparent
      hinv.levels.step win _ _ r hinv.currlt hr
  cases ev with
  | expose count =>
    simp only [runstep, Option.some.injEq, Outcome.running.injEq] at h
    subst h
    exact hinv
  | other =>
    simp only [runstep, Option.some.injEq, Outcome.running.injEq] at h
    subst h
    exact hinv
  | leaveNotify win =>
    simp only [runstep] at h
    cases hg : getmenu st.heap.menus (st.heap.nmenu + 1) (some st.currmenu) win with
    | none => simp [hg] at h
    | some r =>
      cases r with
      | none =>
        simp only [hg, Option.some.injEq, Outcome.running.injEq] at h
        subst h
        exact hinv
      | some menu =>
        simp only [hg] at h
        split_ifs at h with hc
        · cases hpar : (st.heap.menus st.currmenu).parent with
          | none => simp [hpar] at h
          | some p =>
            have hne : st.currmenu ≠ st.rootmenu := fun e => hc.1 (hc.2.trans e)
            obtain ⟨p1, hp1, hpar1, _⟩ := hinv.levels.step st.currmenu hinv.currlt hne
            have hp : p < st.heap.nmenu := by
              rw [hpar] at hpar1
              rw [Option.some.inj hpar1]
              exact hp1
            simp only [hpar] at h
            cases hm : mapmenu st.heap st.mapped p with
            | none => simp [hm] at h
            | some res =>
              obtain ⟨h1, mp⟩ := res
              obtain ⟨hshape, hmp⟩ := mapmenu_sameshape st.heap h1 st.rootmenu p st.mapped mp
                hinv.levels hinv.mappedlt hp hm
              simp only [hm, Option.some.injEq, Outcome.running.injEq] at h
              subst h
              apply NavInv_sameshape st _ hinv
              · exact sameshape_trans _ _ _ (withselected_sameshape h1 p none) hshape
              · rfl
              · exact hp
              · intro q hq
                simp only at hq
                rw [hmp] at hq
                rw [← Option.some.inj hq]
                exact hp
        · simp only [Option.some.injEq, Outcome.running.injEq] at h
          subst h
          exact NavInv_sameshape st _ hinv (withselected_sameshape st.heap st.currmenu none) rfl
            hinv.currlt hinv.mappedlt
  | motionNotify win x y =>
    simp only [runstep] at h
    cases hg : getmenu st.heap.menus (st.heap.nmenu + 1) (some st.currmenu) win with
    | none => simp [hg] at h
    | some menu =>
      simp only [hg] at h
      cases hi : getitem ang st.heap menu x y with
      | none => simp [hi] at h
      | some item =>
        simp only [hi] at h
        split at h
        · split_ifs at h
          · simp only [Option.some.injEq, Outcome.running.injEq] at h
            subst h
            exact hinv
          · simp only [Option.some.injEq, Outcome.running.injEq] at h
            subst h
            exact NavInv_sameshape st _ hinv (withselected_sameshape st.heap _ _) rfl
              hinv.currlt hinv.mappedlt
        · simp only [Option.some.injEq, Outcome.running.injEq] at h
          subst h
          exact hinv
  | buttonRelease win x y =>
    simp only [runstep] at h
    cases hg : getmenu st.heap.menus (st.heap.nmenu + 1) (some st.currmenu) win with
    | none => simp [hg] at h
    | some menu =>
      simp only [hg] at h
      cases hi : getitem ang st.heap menu x y with
      | none => simp [hi] at h
      | some item =>
        simp only [hi] at h
        split at h
        · exact selectitem_NavInv st st1 _ hinv h
        · simp only [Option.some.injEq, Outcome.running.injEq] at h
          subst h
          exact hinv
  | buttonPress win =>
    simp only [runstep] at h
    split at h
    · simp at h
    · simp at h
    · simp only [Option.some.injEq, Outcome.running.injEq] at h
      subst h
      exact hinv
  | keyPress ksym shift =>
    simp only [runstep] at h
    split_ifs at h
    · simp at h
    · exact keyaction_NavInv st st1 _ hinv h
    · exact keyaction_NavInv st st1 _ hinv h
  | configureNotify win x y =>
    simp only [runstep] at h
    split at h
    · simp at h
    · simp only [Option.some.injEq, Outcome.running.injEq] at h
      subst h
      exact hinv
  | clientMessage win =>
    simp only [runstep] at h
    cases hg : getmenu st.heap.menus (st.heap.nmenu + 1) (some st.currmenu) win with
    | none => simp [hg] at h
    | some r =>
      cases r with
      | none => simp [hg] at h
      | some menu =>
        simp only [hg] at h
        cases hpar : (st.heap.menus menu).parent with
        | none => simp [hpar] at h
        | some p =>
          have hml := hgm win menu hg
          have hne : menu ≠ st.rootmenu := by
            intro e
            rw [e, hinv.rootparent] at hpar
            exact absurd hpar (by simp)
          obtain ⟨p1, hp1, hpar1, _⟩ := hinv.levels.step menu hml hne
          have hp : p < st.heap.nmenu := by
            rw [hpar] at hpar1
            rw [Option.some.inj hpar1]
            exact hp1
          simp only [hpar] at h
          cases hm : mapmenu st.heap st.mapped p with
          | none => simp [hm] at h
          | some res =>
            obtain ⟨h1, mp⟩ := res
            obtain ⟨hshape, hmp⟩ := mapmenu_sameshape st.heap h1 st.rootmenu p st.mapped mp
              hinv.levels hinv.mappedlt hp hm
            simp only [hm, Option.some.injEq, Outcome.running.injEq] at h
            subst h
            refine NavInv_sameshape st _ hinv hshape rfl hp ?_
            intro q hq
            simp only at hq
            rw [hmp] at hq
            rw [← Option.some.inj hq]
            exact hp

theorem runevents_NavInv (ang : Int → Int → Int) (evs : List Event) :
    ∀ (st st1 : RunState), NavInv st → runevents ang st evs = some (.running st1) →
      NavInv st1 := by
  induction evs with
  | nil =>
    intro st st1 hinv h
    simp only [runevents, Option.some.injEq, Outcome.running.injEq] at h
    subst h
    exact hinv
  | cons ev evs ih =>
    intro st st1 hinv h
    unfold runevents at h
    cases hs : runstep ang st ev with
    | none => simp [hs] at h
    | some o =>
      cases o with
      | finished printed => simp [hs] at h
      | running st2 =>
        simp only [hs] at h
        exact ih st2 st1 (runstep_NavInv ang st st2 ev hinv hs) h

theorem afterevents_NavInv (ang : Int → Int → Int) (st : RunState) (evs : List Event)
    (hinv : NavInv st) : NavInv (afterevents ang st evs) := by
  unfold afterevents
  cases hr : runevents ang st evs with
  | none => exact hinv
  | some o =>
    cases o with
    | finished printed => exact hinv
    | running st1 => exact runevents_NavInv ang evs st st1 hinv hr

/-- Every state the event loop reaches on the laid-out tree of well-indented input
satisfies the invariant: here the state in which the loop starts. -/
theorem NavInv_laidout (recs : List Record) (b : Builder)
    (hw : wellindented recs = true) (hb : buildall Builder.init recs = .ok b)
    (hroot : b.rootmenu = some 0) : NavInv (runinit (laidout recs) 0) := by
  have hbuilt : built recs = b := by
    unfold built
    rw [hb]
  apply NavInv_runinit recs b 0 (laidout recs) hw hb hroot
  unfold laidout
  rw [hbuilt]
  cases hs : setupmenu (b.heap.nmenu + 1) b.heap 0 with
  | none => exact sameshape_refl _
  | some h => exact setupmenu_sameshape _ _ _ _ hs

/-! ## The event loop: button release (C2) -/

/-- C2, as stated, fails.  In the tree of `"A\n\tB\nC\n\t\tD\n"` (menu 1 at level 1
under `A`, menu 2 at level 2 under `C`, both children of the root menu) a release
over `A` makes menu 1 the current menu.  A second release on the root window, which
is on the ancestor chain of menu 1, at a point whose angle (11520, i.e. 180 degrees)
lies in the slice of `C`, resolves to `C`, which has a label and owns menu 2; the
step has no resulting state: in `mapmenu` the first loop climbs from menu 2 to the
root menu, and the lock-step loop then leaves the root menu through its `NULL`
parent, whatever the fuel.  In the tree of `"\n\tBar\n"` the separator owns a
submenu (menu 1); a release over it leaves the state unchanged, the root menu
current. -/
theorem runstep_buttonrelease_counterexample :
    (∃ st, runevents (fun x _ => x) (runinit (laidout crossrecords) 0)
        [.buttonRelease 0 0 0] = some (.running st) ∧
      st.currmenu = 1 ∧ st.mapped = some 1 ∧
      getmenu st.heap.menus (st.heap.nmenu + 1) (some st.currmenu) 0 = some (some 0) ∧
      getitem (fun x _ => x) st.heap (some 0) 11520 0 = some (some 2) ∧
      (st.heap.items 2).label = some ['C'] ∧ (st.heap.items 2).submenu = some 2 ∧
      runstep (fun x _ => x) st (.buttonRelease 0 11520 0) = none ∧
      climb st.heap.menus 1 (st.heap.nmenu + 1) (some 2) = some 0 ∧
      ∀ fuel, meet st.heap.menus fuel (some 0) (some 1) = none) ∧
    (getmenu (runinit (laidout sepsubrecords) 0).heap.menus
        ((runinit (laidout sepsubrecords) 0).heap.nmenu + 1)
        (some (runinit (laidout sepsubrecords) 0).currmenu) 0 = some (some 0) ∧
      getitem (fun _ _ => 0) (runinit (laidout sepsubrecords) 0).heap (some 0) 0 0
        = some (some 0) ∧
      ((runinit (laidout sepsubrecords) 0).heap.items 0).label = none ∧
      ((runinit (laidout sepsubrecords) 0).heap.items 0).submenu = some 1 ∧
      runstep (fun _ _ => 0) (runinit (laidout sepsubrecords) 0) (.buttonRelease 0 0 0)
        = some (.running (runinit (laidout sepsubrecords) 0)) ∧
      (runinit (laidout sepsubrecords) 0).currmenu = 0) := by
  refine ⟨⟨_, rfl, rfl, rfl, rfl, rfl, rfl, rfl, rfl, rfl, ?_⟩, rfl, rfl, rfl, rfl, rfl, rfl⟩
  intro fuel
  cases fuel with
  | zero => rfl
  | succ f =>
    cases f with
    | zero => rfl
    | succ g => rfl

/-- C2, amended: a button release whose window resolves to a menu `M` of the ancestor
chain of the current menu and whose point resolves to an item `I`, in a state of the
event loop on a well-formed tree (`NavInv`: the tree satisfies the level invariant of
the data model).  The cases are those of the code, in its order.  If `I` is a
separator the state is unchanged and `run` goes on, also when the separator owns a
submenu.  Otherwise, if `I` owns a submenu `S`, `run` goes on, printing nothing, with
`S` as current menu and `S.selected` set to the first item of `S`; apart from
`selected` fields (cleared by `mapmenu` on the menus it unmaps) the heap is
unchanged.  Otherwise `I` has a label and no submenu, and `run` returns having
printed exactly the output of `I`. -/
theorem runstep_buttonrelease (ang : Int → Int → Int) (st : RunState) (win : Nat)
    (x y : Int) (M I : Nat) (hinv : NavInv st)
    (hM : getmenu st.heap.menus (st.heap.nmenu + 1) (some st.currmenu) win = some (some M))
    (hI : getitem ang st.heap (some M) x y = some (some I)) :
    ((st.heap.items I).label = none →
      runstep ang st (.buttonRelease win x y) = some (.running st)) ∧
    (∀ S, (st.heap.items I).label ≠ none → (st.heap.items I).submenu = some S →
      ∃ st1, runstep ang st (.buttonRelease win x y) = some (.running st1) ∧
        st1.currmenu = S ∧ st1.mapped = some S ∧
        (st1.heap.menus S).selected = (st1.heap.menus S).list ∧
        (st1.heap.menus S).list = (st.heap.menus S).list ∧
        st1.heap.items = st.heap.items ∧
        sameexceptselected st1.heap.menus st.heap.menus) ∧
    ((st.heap.items I).label ≠ none → (st.heap.items I).submenu = none →
      ∃ o, (st.heap.items I).output = some o ∧
        runstep ang st (.buttonRelease win x y) = some (.finished (some o))) := by
  refine ⟨?_, ?_, ?_⟩
  · intro hsep
    simp only [runstep, hM, hI, selectitem, hsep, if_true]
  · intro S hlab hsub
    have hS : S < st.heap.nmenu := hinv.items.sublt I S hsub
    have hmm : ∃ menus1 mp, mapmenu st.heap st.mapped S
        = some ({ st.heap with menus := menus1 }, mp) ∧ mp = some S ∧
          sameexceptselected menus1 st.heap.menus := by
      cases hmp : st.mapped with
      | none =>
        exact ⟨st.heap.menus, some S, by simp [mapmenu], rfl, sameexceptselected_refl _⟩
      | some p =>
        obtain ⟨menus1, h1, h2⟩ := mapmenu_total st.heap st.rootmenu p S hinv.levels
          (hinv.mappedlt p hmp) hS
        exact ⟨menus1, some S, h1, rfl, h2⟩
    obtain ⟨menus1, mp, hmap, hmp, hsame⟩ := hmm
    subst hmp
    refine ⟨?_, ?_, ?_⟩
    rotate_left
    · simp only [runstep, hM, hI, selectitem, hlab, if_false, hsub, hmap]
      exact rfl
    · refine ⟨rfl, rfl, ?_, ?_, rfl, ?_⟩
      · simp [upd]
      · simp only [upd, if_true]
        rw [hsame S]
      · intro z
        simp only [upd]
        split
        · rename_i hz
          rw [hz, hsame S]
        · rw [hsame z]
  · intro hlab hsub
    cases hout : (st.heap.items I).output with
    | none => exact absurd hout (hinv.items.outputs I hlab)
    | some o =>
      refine ⟨o, rfl, ?_⟩
      simp only [runstep, hM, hI, selectitem, hlab, if_false, hsub, hout]

/-- The scenario `"Foo\n\tBar\n"`: releasing the button over `Foo` makes its
submenu the current menu, with `Bar` selected, and `run` goes on; releasing it over
`Bar` then ends `run` with the output `Bar`. -/
theorem runstep_buttonrelease_witness :
    (∃ st1, runstep (fun _ _ => 0) (runinit (laidout foobarrecords) 0) (.buttonRelease 0 0 0)
        = some (.running st1) ∧
      st1.currmenu = 1 ∧ st1.mapped = some 1 ∧
      (st1.heap.menus 1).selected = (st1.heap.menus 1).list ∧
      (st1.heap.menus 1).list = ((runinit (laidout foobarrecords) 0).heap.menus 1).list ∧
      st1.heap.items = (runinit (laidout foobarrecords) 0).heap.items ∧
      sameexceptselected st1.heap.menus (runinit (laidout foobarrecords) 0).heap.menus) ∧
    runevents (fun _ _ => 0) (runinit (laidout foobarrecords) 0)
      [.buttonRelease 0 0 0, .buttonRelease 1 0 0] = some (.finished (some ['B', 'a', 'r'])) :=
  ⟨(runstep_buttonrelease (fun _ _ => 0) (runinit (laidout foobarrecords) 0) 0 0 0 0 0
      (NavInv_laidout foobarrecords (built foobarrecords) (by decide) rfl rfl)
      rfl rfl).2.1 1 (by decide) rfl, rfl⟩

/-! ## The slices laid out by `setupitems` (C5, C6, C7) -/

/-- C5, as stated, fails: for the menu of seven items built from seven level-0
records, `setupitems` gives every item the span `2 * 1645`, and the spans add up to
`23030`, not to `360 * 64 = 23040`. -/
theorem setupitems_sum_counterexample :
    ∃ h l, setupitems (built sevenrecords).heap 0 = some h ∧
      (built sevenrecords).heap.menuitems 0 = some l ∧ l.length = 7 ∧
      (h.menus 0).nitems = 7 ∧
      (l.map (fun i => (h.items i).angle2)).sum = 23030 ∧
      (l.map (fun i => (h.items i).angle2)).sum ≠ 360 * 64 :=
  ⟨_, _, rfl, rfl, rfl, rfl, rfl, by decide⟩

theorem itemsfrom_ischain (items : Nat → Item) :
    ∀ fuel p l, itemsfrom items fuel p = some l → ischain items p l ∧ l.length ≤ fuel := by
  intro fuel
  induction fuel with
  | zero =>
    intro p l h
    cases p with
    | none =>
      simp only [itemsfrom, Option.some.injEq] at h
      subst h
      exact ⟨rfl, by simp⟩
    | some i => simp [itemsfrom] at h
  | succ f ih =>
    intro p l h
    cases p with
    | none =>
      simp only [itemsfrom, Option.some.injEq] at h
      subst h
      exact ⟨rfl, by simp⟩
    | some i =>
      simp only [itemsfrom, Option.map_eq_some'] at h
      obtain ⟨t, ht, rfl⟩ := h
      obtain ⟨h1, h2⟩ := ih _ _ ht
      exact ⟨⟨rfl, h1⟩, by simpa using h2⟩

theorem ischain_congr (items items1 : Nat → Item)
    (hnext : ∀ j, (items1 j).next = (items j).next) :
    ∀ l p, ischain items p l → ischain items1 p l := by
  intro l
  induction l with
  | nil => intro p h; exact h
  | cons i t ih =>
    intro p h
    exact ⟨h.1, by rw [hnext]; exact ih _ h.2⟩

theorem ischain_unique (items : Nat → Item) :
    ∀ l1 l2 p, ischain items p l1 → ischain items p l2 → l1 = l2 := by
  intro l1
  induction l1 with
  | nil =>
    intro l2 p h1 h2
    cases l2 with
    | nil => rfl
    | cons j t =>
      have h3 : p = none := h1
      have h4 : p = some j := h2.1
      rw [h3] at h4
      exact absurd h4 (by simp)
  | cons i t ih =>
    intro l2 p h1 h2
    cases l2 with
    | nil =>
      have h3 : p = none := h2
      have h4 : p = some i := h1.1
      rw [h3] at h4
      exact absurd h4 (by simp)
    | cons j u =>
      have h3 : p = some i := h1.1
      have h4 : p = some j := h2.1
      rw [h3] at h4
      have hij : i = j := Option.some.inj h4
      subst hij
      rw [ih u _ h1.2 h2.2]

theorem ischain_suffix (items : Nat → Item) :
    ∀ a p i c, ischain items p (a ++ i :: c) → ischain items (some i) (i :: c) := by
  intro a
  induction a with
  | nil =>
    intro p i c h
    exact ⟨rfl, h.2⟩
  | cons x a ih =>
    intro p i c h
    exact ih _ i c h.2

theorem ischain_nodup (items : Nat → Item) :
    ∀ l p, ischain items p l → l.Nodup := by
  intro l
  induction l with
  | nil => intro p _; exact List.nodup_nil
  | cons i t ih =>
    intro p h
    refine List.nodup_cons.2 ⟨?_, ih _ h.2⟩
    intro hit
    obtain ⟨a, c, hac⟩ := List.append_of_mem hit
    have h1 : ischain items (some i) (i :: c) := by
      have := h.2
      rw [hac] at this
      exact ischain_suffix items a _ i c this
    have h2 : ischain items (some i) (i :: t) := ⟨rfl, h.2⟩
    have h3 := ischain_unique items _ _ _ h1 h2
    have h4 : c.length = t.length := by
      have := congrArg List.length h3
      simpa using this
    rw [hac] at h4
    simp at h4
    omega

theorem setupitemsloop_spec (nitems : Nat) (hs : Int) :
    ∀ (l : List Nat) (fuel : Nat) (items : Nat → Item) (p : Option Nat) (k : Nat),
      ischain items p l → l.Nodup → l.length ≤ fuel → k + l.length < UMAX →
      ∃ items1, setupitemsloop nitems hs fuel items p k (bisector nitems k) = some items1 ∧
        (∀ j, j ∉ l → items1 j = items j) ∧
        (∀ idx i, l[idx]? = some i →
          items1 i = { items i with
            angle1 := if bisector nitems (k + idx) - hs < 0
              then bisector nitems (k + idx) - hs + 360 * 64
              else bisector nitems (k + idx) - hs
            angle2 := hs * 2 }) := by
  intro l
  induction l with
  | nil =>
    intro fuel items p k hc _ _ _
    have hp : p = none := hc
    subst hp
    refine ⟨items, ?_, fun _ _ => rfl, ?_⟩
    · cases fuel <;> rfl
    · intro idx i h
      simp at h
  | cons i t ih =>
    intro fuel items p k hc hnd hlen hk
    have hp : p = some i := hc.1
    subst hp
    obtain ⟨hit, hndt⟩ := List.nodup_cons.1 hnd
    cases fuel with
    | zero => simp at hlen
    | succ f =>
      have hk1 : (k + 1) % UMAX = k + 1 := Nat.mod_eq_of_lt (by simp at hk; omega)
      have hch : ischain
          (upd items i { items i with
            angle1 := if bisector nitems k - hs < 0 then bisector nitems k - hs + 360 * 64
              else bisector nitems k - hs
            angle2 := hs * 2 }) (items i).next t := by
        apply ischain_congr items _ _ t _ hc.2
        intro j
        simp only [upd]
        split
        · rename_i hj; rw [hj]
        · rfl
      obtain ⟨items1, h1, h2, h3⟩ := ih f _ _ (k + 1) hch hndt (by simpa using hlen)
        (by simp at hk; omega)
      refine ⟨items1, ?_, ?_, ?_⟩
      · unfold setupitemsloop
        simp only [hk1]
        have hn : ((upd items i { items i with
            angle1 := if bisector nitems k - hs < 0 then bisector nitems k - hs + 360 * 64
              else bisector nitems k - hs
            angle2 := hs * 2 }) i).next = (items i).next := by simp [upd]
        rw [hn]
        exact h1
      · intro j hj
        have hji : j ≠ i := fun e => hj (e ▸ List.mem_cons_self i t)
        rw [h2 j (fun hm => hj (List.mem_cons_of_mem i hm))]
        simp [upd, hji]
      · intro idx j hj
        cases idx with
        | zero =>
          simp only [List.getElem?_cons_zero, Option.some.injEq] at hj
          subst hj
          rw [h2 _ hit]
          simp [upd]
        | succ idx =>
          simp only [List.getElem?_cons_succ] at hj
          have hjt : j ∈ t := List.getElem?_mem hj
          have hji : j ≠ i := fun e => hit (e ▸ hjt)
          rw [h3 idx j hj]
          have : k + 1 + idx = k + (idx + 1) := by omega
          simp [upd, hji, this]

theorem toint_small (v : Nat) (hv : v < 2 ^ 31) : toint v = (v : Int) := by
  unfold toint
  rw [if_pos hv]

theorem bisector_zero (n : Nat) : bisector n 0 = 0 := by
  simp [bisector, toint]

/-- What `setupitems` does to a menu whose item list is `l`, of `n` items. -/
theorem setupitems_spec (h : Heap) (m : Nat) (l : List Nat) (n : Nat)
    (hl : h.menuitems m = some l) (hlen : l.length = n) (hn : (h.menus m).nitems = n)
    (h1 : 1 ≤ n) (h2 : n < 2 ^ 31) :
    ∃ h1 : Heap, setupitems h m = some h1 ∧ h1.nitem = h.nitem ∧
      (h1.menus m).halfslice = ((360 * 64 / (2 * n) : Nat) : Int) ∧
      (h1.menus m).list = (h.menus m).list ∧
      (∀ j, j ∉ l → h1.items j = h.items j) ∧
      (∀ idx i, l[idx]? = some i →
        h1.items i = { h.items i with
          angle1 := if bisector n idx - ((360 * 64 / (2 * n) : Nat) : Int) < 0
            then bisector n idx - ((360 * 64 / (2 * n) : Nat) : Int) + 360 * 64
            else bisector n idx - ((360 * 64 / (2 * n) : Nat) : Int)
          angle2 := ((360 * 64 / (2 * n) : Nat) : Int) * 2 }) := by
  obtain ⟨hch, hfuel⟩ := itemsfrom_ischain _ _ _ _ hl
  have hnd := ischain_nodup _ _ _ hch
  have hd : (n * 2) % UMAX = 2 * n := by
    rw [Nat.mod_eq_of_lt (by unfold UMAX; omega)]
    omega
  have hd0 : 2 * n ≠ 0 := by omega
  have hhs : toint (360 * 64 / (2 * n)) = ((360 * 64 / (2 * n) : Nat) : Int) := by
    apply toint_small
    have : 360 * 64 / (2 * n) ≤ 360 * 64 := Nat.div_le_self _ _
    omega
  have hsz : l.length < UMAX := by
    rw [hlen]; unfold UMAX; omega
  obtain ⟨items1, hi1, hi2, hi3⟩ := setupitemsloop_spec n
    ((360 * 64 / (2 * n) : Nat) : Int) l h.nitem h.items (h.menus m).list 0 hch hnd hfuel
    (by omega)
  rw [bisector_zero] at hi1
  refine ⟨{ h with
      menus := upd h.menus m { h.menus m with halfslice := ((360 * 64 / (2 * n) : Nat) : Int) }
      items := items1 }, ?_, rfl, ?_, ?_, hi2, ?_⟩
  · unfold setupitems
    simp only [hn, hd, hd0, if_false, hhs, hi1, Option.map_some']
  · simp [upd]
  · simp [upd]
  · intro idx i hidx
    have := hi3 idx i hidx
    simp only [Nat.zero_add] at this
    exact this

theorem sum_map_const (l : List Nat) (f : Nat → Int) (c : Int) (hf : ∀ i ∈ l, f i = c) :
    (l.map f).sum = (l.length : Int) * c := by
  induction l with
  | nil => simp
  | cons a t ih =>
    simp only [List.map_cons, List.sum_cons, List.length_cons]
    rw [hf a (List.mem_cons_self a t), ih (fun i hi => hf i (List.mem_cons_of_mem a hi))]
    push_cast
    ring

/-- C5, amended: for a menu whose item list has `n` items, `1 <= n < 2^31`, and
whose `nitems` is `n`, `setupitems` returns and gives every item the same span
`angle2 = 2 * (23040 / (2 * n))`; the spans add up to `23040 - 23040 mod (2 * n)`,
which is the full circle `360 * 64 = 23040` exactly when `2 * n` divides `23040`. -/
theorem setupitems_sum (h : Heap) (m : Nat) (l : List Nat) (n : Nat)
    (hl : h.menuitems m = some l) (hlen : l.length = n) (hn : (h.menus m).nitems = n)
    (h1 : 1 ≤ n) (h2 : n < 2 ^ 31) :
    ∃ h1 : Heap, setupitems h m = some h1 ∧
      (∀ i ∈ l, (h1.items i).angle2 = ((2 * (360 * 64 / (2 * n)) : Nat) : Int)) ∧
      (l.map (fun i => (h1.items i).angle2)).sum
        = ((360 * 64 - 360 * 64 % (2 * n) : Nat) : Int) ∧
      ((l.map (fun i => (h1.items i).angle2)).sum = 360 * 64 ↔ 2 * n ∣ 360 * 64) := by
  obtain ⟨hh, hs, _, _, _, _, hitems⟩ := setupitems_spec h m l n hl hlen hn h1 h2
  have hang : ∀ i ∈ l, (hh.items i).angle2 = ((2 * (360 * 64 / (2 * n)) : Nat) : Int) := by
    intro i hi
    obtain ⟨idx, hidx⟩ := List.mem_iff_getElem?.1 hi
    rw [hitems idx i hidx]
    push_cast
    ring
  have hdm := Nat.div_add_mod (360 * 64) (2 * n)
  have hmod : 360 * 64 % (2 * n) ≤ 360 * 64 := Nat.mod_le _ _
  have hsum : (l.map (fun i => (hh.items i).angle2)).sum
      = ((360 * 64 - 360 * 64 % (2 * n) : Nat) : Int) := by
    rw [sum_map_const l _ _ hang, hlen]
    have : n * (2 * (360 * 64 / (2 * n))) = 360 * 64 - 360 * 64 % (2 * n) := by
      have : n * (2 * (360 * 64 / (2 * n))) = 2 * n * (360 * 64 / (2 * n)) := by ring
      omega
    exact_mod_cast this
  refine ⟨hh, hs, hang, hsum, ?_⟩
  rw [hsum, Nat.dvd_iff_mod_eq_zero]
  constructor
  · intro he
    have he2 : 360 * 64 - 360 * 64 % (2 * n) = 360 * 64 := by exact_mod_cast he
    omega
  · intro he
    rw [he]
    norm_num

/-- The spans of the four items of a flat menu: `2 * 2880` each, `23040` in all. -/
theorem setupitems_sum_witness :
    ∃ h1 : Heap, setupitems (built (sevenrecords.take 4)).heap 0 = some h1 ∧
      (∀ i ∈ [0, 1, 2, 3], (h1.items i).angle2 = ((2 * (360 * 64 / (2 * 4)) : Nat) : Int)) ∧
      ([0, 1, 2, 3].map (fun i => (h1.items i).angle2)).sum
        = ((360 * 64 - 360 * 64 % (2 * 4) : Nat) : Int) ∧
      (([0, 1, 2, 3].map (fun i => (h1.items i).angle2)).sum = 360 * 64 ↔
        2 * 4 ∣ 360 * 64) :=
  setupitems_sum (built (sevenrecords.take 4)).heap 0 [0, 1, 2, 3] 4 rfl rfl rfl
    (by decide) (by decide)

theorem halfslice_pos (n : Nat) (h1 : 1 ≤ n) (h2 : n ≤ 11520) : 1 ≤ 360 * 64 / (2 * n) :=
  Nat.div_pos (by omega) (by omega)

theorem two_halfslice_le (n : Nat) : 2 * (360 * 64 / (2 * n)) ≤ 360 * 64 / n := by
  rw [Nat.mul_comm 2 n, ← Nat.div_div_eq_div_mul]
  exact Nat.mul_div_le _ _

theorem bisector_gap (n i j : Nat) (h1 : 1 ≤ n) (hji : j < i) :
    360 * 64 * j / n + 360 * 64 / n ≤ 360 * 64 * i / n := by
  rw [Nat.le_div_iff_mul_le (by omega)]
  have ha : 360 * 64 * j / n * n ≤ 360 * 64 * j := Nat.div_mul_le_self _ _
  have hb : 360 * 64 / n * n ≤ 360 * 64 := Nat.div_mul_le_self _ _
  have hc : 360 * 64 * j + 360 * 64 ≤ 360 * 64 * i := by omega
  calc (360 * 64 * j / n + 360 * 64 / n) * n
      = 360 * 64 * j / n * n + 360 * 64 / n * n := by ring
    _ ≤ 360 * 64 * j + 360 * 64 := Nat.add_le_add ha hb
    _ ≤ 360 * 64 * i := hc

theorem bisector_full (n : Nat) (h1 : 1 ≤ n) : 360 * 64 * n / n = 360 * 64 :=
  Nat.mul_div_cancel _ (by omega)

theorem bisector_eq (n k : Nat) (h1 : 1 ≤ n) (h2 : n ≤ 11520) (hk : k ≤ n) :
    bisector n k = ((360 * 64 * k / n : Nat) : Int) := by
  unfold bisector
  have hlt : 360 * 64 * k < UMAX := by unfold UMAX; omega
  rw [Nat.mod_eq_of_lt hlt]
  apply toint_small
  have h3 : 360 * 64 * k / n ≤ 360 * 64 * n / n := Nat.div_le_div_right (by omega)
  rw [bisector_full n h1] at h3
  omega

/-- The slices after `setupitems` for a menu of `n <= 11520` items: the item with
index `k` starts at `23040 * k / n - halfslice`, wrapped for the first item, and
spans `2 * halfslice`; the list links are untouched. -/
theorem setupitems_slices (h : Heap) (m : Nat) (l : List Nat) (n : Nat)
    (hl : h.menuitems m = some l) (hlen : l.length = n) (hn : (h.menus m).nitems = n)
    (h1 : 1 ≤ n) (h2 : n ≤ 11520) :
    ∃ h1 : Heap, setupitems h m = some h1 ∧ h1.nitem = h.nitem ∧
      (h1.menus m).halfslice = ((360 * 64 / (2 * n) : Nat) : Int) ∧
      (h1.menus m).list = (h.menus m).list ∧
      ischain h1.items (h.menus m).list l ∧
      (∀ idx i, l[idx]? = some i →
        (h1.items i).angle1 =
          (if idx = 0 then 360 * 64 - ((360 * 64 / (2 * n) : Nat) : Int)
           else ((360 * 64 * idx / n : Nat) : Int) - ((360 * 64 / (2 * n) : Nat) : Int)) ∧
        (h1.items i).angle2 = 2 * ((360 * 64 / (2 * n) : Nat) : Int)) := by
  obtain ⟨hh, hs, hni, hhs, hlist, hout, hitems⟩ :=
    setupitems_spec h m l n hl hlen hn h1 (by omega)
  obtain ⟨hch, _⟩ := itemsfrom_ischain _ _ _ _ hl
  refine ⟨hh, hs, hni, hhs, hlist, ?_, ?_⟩
  · apply ischain_congr h.items hh.items _ l _ hch
    intro j
    by_cases hj : j ∈ l
    · obtain ⟨idx, hidx⟩ := List.mem_iff_getElem?.1 hj
      rw [hitems idx j hidx]
    · rw [hout j hj]
  · intro idx i hidx
    have hidxlt : idx < n := by
      rw [← hlen]
      exact (List.getElem?_eq_some.1 hidx).1
    rw [hitems idx i hidx]
    have hH := halfslice_pos n h1 h2
    constructor
    · simp only
      rw [bisector_eq n idx h1 h2 (by omega)]
      by_cases h0 : idx = 0
      · subst h0
        simp only [Nat.mul_zero, Nat.zero_div, if_true]
        have : ((0 : Nat) : Int) - ((360 * 64 / (2 * n) : Nat) : Int) < 0 := by omega
        rw [if_pos this]
        omega
      · simp only [h0, if_false]
        have hg := bisector_gap n idx 0 h1 (by omega)
        have ht := two_halfslice_le n
        simp only [Nat.mul_zero, Nat.zero_div, Nat.zero_add] at hg
        have : ¬ (((360 * 64 * idx / n : Nat) : Int) - ((360 * 64 / (2 * n) : Nat) : Int) < 0) := by
          omega
        rw [if_neg this]
    · simp only
      ring

theorem getitemscan_some (items : Nat → Item) (a : Int) :
    ∀ (l : List Nat) (fuel : Nat) (p : Option Nat), ischain items p l → l.length ≤ fuel →
      (∃ i ∈ l, inslice (items i) a) →
      ∃ j ∈ l, getitemscan items fuel p a = some (some j) ∧ inslice (items j) a := by
  intro l
  induction l with
  | nil =>
    intro fuel p _ _ hex
    obtain ⟨i, hi, _⟩ := hex
    simp at hi
  | cons x t ih =>
    intro fuel p hc hlen hex
    have hp : p = some x := hc.1
    subst hp
    cases fuel with
    | zero => simp at hlen
    | succ f =>
      unfold getitemscan
      by_cases hx : inslice (items x) a
      · refine ⟨x, List.mem_cons_self x t, ?_, hx⟩
        have hx2 := hx
        unfold inslice at hx2
        rw [if_pos hx2]
      · have hx2 := hx
        unfold inslice at hx2
        rw [if_neg hx2]
        obtain ⟨i, hi, hin⟩ := hex
        have hit : i ∈ t := by
          rcases List.mem_cons.1 hi with h | h
          · subst h; exact absurd hin hx
          · exact h
        obtain ⟨j, hj, hres, hjin⟩ := ih f _ hc.2 (by simpa using hlen) ⟨i, hit, hin⟩
        exact ⟨j, List.mem_cons_of_mem x hj, hres, hjin⟩

theorem getitemscan_first (items : Nat → Item) (a : Int) :
    ∀ (l : List Nat) (fuel : Nat) (p : Option Nat) (idx i : Nat), ischain items p l →
      l.length ≤ fuel → l[idx]? = some i → inslice (items i) a →
      (∀ jdx j, jdx < idx → l[jdx]? = some j → ¬ inslice (items j) a) →
      getitemscan items fuel p a = some (some i) := by
  intro l
  induction l with
  | nil =>
    intro fuel p idx i _ _ hidx
    simp at hidx
  | cons x t ih =>
    intro fuel p idx i hc hlen hidx hin hbefore
    have hp : p = some x := hc.1
    subst hp
    cases fuel with
    | zero => simp at hlen
    | succ f =>
      unfold getitemscan
      cases idx with
      | zero =>
        simp only [List.getElem?_cons_zero, Option.some.injEq] at hidx
        subst hidx
        have hx2 := hin
        unfold inslice at hx2
        rw [if_pos hx2]
      | succ idx =>
        have hx : ¬ inslice (items x) a := hbefore 0 x (by omega) (by simp)
        unfold inslice at hx
        rw [if_neg hx]
        simp only [List.getElem?_cons_succ] at hidx
        exact ih f _ idx i hc.2 (by simpa using hlen) hidx hin
          (fun jdx j hj hjj => hbefore (jdx + 1) j (by omega) (by simpa using hjj))

/-- C6, as stated, fails: in the menu of seven items the angle `1645` lies in no
slice, not even modulo `23040`, and the angle lookup of `getitem` returns `NULL`
for it. -/
theorem getitem_gap_counterexample :
    ∃ h l, setupitems (built sevenrecords).heap 0 = some h ∧
      (built sevenrecords).heap.menuitems 0 = some l ∧ l.length = 7 ∧
      (∀ i ∈ l, ¬ inslice (h.items i) 1645 ∧ ¬ inslice (h.items i) (1645 + 360 * 64)) ∧
      getitemangle h 0 1645 = some none :=
  ⟨_, _, rfl, rfl, rfl, by decide, rfl⟩

/-- C6, amended: for a menu of `n >= 1` items such that `2 * n` divides
`360 * 64 = 23040`, after `setupitems` every angle `a` with `0 <= a < 23040` lies in
the slice `[angle1, angle1 + angle2)` of some item of the menu, taken modulo
`23040`, and the angle lookup of `getitem` returns an item of the menu, never
`NULL`. -/
theorem getitem_total_of_dvd (h : Heap) (m : Nat) (l : List Nat) (n : Nat)
    (hl : h.menuitems m = some l) (hlen : l.length = n) (hn : (h.menus m).nitems = n)
    (h1 : 1 ≤ n) (hdvd : 2 * n ∣ 360 * 64) :
    ∃ h1 : Heap, setupitems h m = some h1 ∧
      ∀ a : Int, 0 ≤ a → a < 360 * 64 →
        (∃ i ∈ l, inslice (h1.items i) a ∨ inslice (h1.items i) (a + 360 * 64)) ∧
        (∃ i ∈ l, getitemangle h1 m a = some (some i)) := by
  have h2 : n ≤ 11520 := by
    have := Nat.le_of_dvd (by norm_num) hdvd
    omega
  obtain ⟨hh, hs, hni, hhs, hlist, hch, hsl⟩ := setupitems_slices h m l n hl hlen hn h1 h2
  obtain ⟨_, hfuel⟩ := itemsfrom_ischain _ _ _ _ hl
  refine ⟨hh, hs, ?_⟩
  have hH := halfslice_pos n h1 h2
  have hN : 2 * n * (360 * 64 / (2 * n)) = 360 * 64 := Nat.mul_div_cancel' hdvd
  generalize hHdef : 360 * 64 / (2 * n) = H at *
  have hA : ∀ idx, 360 * 64 * idx / n = 2 * H * idx := by
    intro idx
    have : 360 * 64 * idx = n * (2 * H * idx) := by
      rw [← hN]; ring
    rw [this]
    exact Nat.mul_div_cancel_left _ (by omega)
  obtain ⟨x, t, rfl⟩ : ∃ x t, l = x :: t := by
    cases l with
    | nil => simp at hlen; omega
    | cons x t => exact ⟨x, t, rfl⟩
  have hx := hsl 0 x (by simp)
  simp only [if_true] at hx
  intro a ha0 haN
  obtain ⟨a, rfl⟩ := Int.eq_ofNat_of_zero_le ha0
  by_cases haH : a < H
  · constructor
    · refine ⟨x, List.mem_cons_self x t, Or.inr ?_⟩
      unfold inslice
      rw [hx.1, hx.2]
      omega
    · refine ⟨x, List.mem_cons_self x t, ?_⟩
      unfold getitemangle
      rw [hhs, hlist, hch.1]
      have : ((a : Nat) : Int) < ((H : Nat) : Int) := by omega
      rw [if_pos this]
  · have hk1 : (a + H) / (2 * H) * (2 * H) ≤ a + H := Nat.div_mul_le_self _ _
    have hk2 : a + H < 2 * H * ((a + H) / (2 * H) + 1) := Nat.lt_mul_div_succ _ (by omega)
    have hkpos : 1 ≤ (a + H) / (2 * H) := Nat.div_pos (by omega) (by omega)
    generalize hkdef : (a + H) / (2 * H) = k at *
    have hkn : k ≤ n := by
      by_contra hc
      have h3 : (n + 1) * (2 * H) ≤ k * (2 * H) := Nat.mul_le_mul_right _ (by omega)
      have h4 : (n + 1) * (2 * H) = 2 * n * H + 2 * H := by ring
      have h5 : (a : Int) < 360 * 64 := haN
      omega
    have hk3 : 2 * H * (k + 1) = k * (2 * H) + 2 * H := by ring
    have hex : ∃ i ∈ x :: t, inslice (hh.items i) (a : Int) := by
      by_cases hkn2 : k < n
      · have hkl : k < (x :: t).length := by rw [hlen]; exact hkn2
        refine ⟨(x :: t)[k], List.getElem_mem _, ?_⟩
        have hk := hsl k _ (List.getElem?_eq_getElem hkl)
        have hk0 : k ≠ 0 := by omega
        simp only [hk0, if_false] at hk
        unfold inslice
        rw [hk.1, hk.2, hA k]
        have h6 : 2 * H * k = k * (2 * H) := by ring
        rw [h6]
        generalize k * (2 * H) = P at *
        omega
      · have hkeq : k = n := by omega
        subst hkeq
        refine ⟨x, List.mem_cons_self x t, ?_⟩
        unfold inslice
        rw [hx.1, hx.2]
        have h6 : k * (2 * H) = 2 * k * H := by ring
        rw [h6, hN] at hk1
        omega
    constructor
    · obtain ⟨i, hi, hin⟩ := hex
      exact ⟨i, hi, Or.inl hin⟩
    · unfold getitemangle
      rw [hhs, hlist]
      have : ¬ ((a : Nat) : Int) < ((H : Nat) : Int) := by omega
      rw [if_neg this, hni]
      obtain ⟨j, hj, hres, _⟩ := getitemscan_some hh.items a (x :: t) h.nitem _ hch hfuel hex
      exact ⟨j, hj, hres⟩

/-- A menu of four items: the angle `20000` lies in a slice and is resolved. -/
theorem getitem_total_of_dvd_witness :
    ∃ h1 : Heap, setupitems (built (sevenrecords.take 4)).heap 0 = some h1 ∧
      (∃ i ∈ [0, 1, 2, 3],
        inslice (h1.items i) 20000 ∨ inslice (h1.items i) (20000 + 360 * 64)) ∧
      (∃ i ∈ [0, 1, 2, 3], getitemangle h1 0 20000 = some (some i)) :=
  match getitem_total_of_dvd (built (sevenrecords.take 4)).heap 0 [0, 1, 2, 3] 4 rfl rfl rfl
      (by decide) (by decide) with
  | ⟨h1, hs, hall⟩ => ⟨h1, hs, hall 20000 (by decide) (by decide)⟩

/-- C7: for a menu of `n` items, `1 <= n <= 11520` (in particular for `n` in
`{1, 2, 3, 7, 360}`), laid out by `setupitems`, the angle lookup of `getitem` at the
bisector angle `(360 * 64 * i) / n` of the item with index `i < n` returns that very
item. -/
theorem getitem_bisector (h : Heap) (m : Nat) (l : List Nat) (n : Nat)
    (hl : h.menuitems m = some l) (hlen : l.length = n) (hn : (h.menus m).nitems = n)
    (h1 : 1 ≤ n) (h2 : n ≤ 11520) :
    ∃ h1 : Heap, setupitems h m = some h1 ∧
      ∀ idx i, l[idx]? = some i →
        getitemangle h1 m ((360 * 64 * idx / n : Nat) : Int) = some (some i) := by
  obtain ⟨hh, hs, hni, hhs, hlist, hch, hsl⟩ := setupitems_slices h m l n hl hlen hn h1 h2
  obtain ⟨_, hfuel⟩ := itemsfrom_ischain _ _ _ _ hl
  refine ⟨hh, hs, ?_⟩
  have hH := halfslice_pos n h1 h2
  have ht := two_halfslice_le n
  intro idx i hidx
  have hidxlt : idx < n := by
    rw [← hlen]
    exact (List.getElem?_eq_some.1 hidx).1
  unfold getitemangle
  rw [hhs, hlist, hni]
  by_cases h0 : idx = 0
  · subst h0
    simp only [Nat.mul_zero, Nat.zero_div]
    have : ((0 : Nat) : Int) < ((360 * 64 / (2 * n) : Nat) : Int) := by omega
    rw [if_pos this]
    cases l with
    | nil => simp at hidx
    | cons x t =>
      simp only [List.getElem?_cons_zero, Option.some.injEq] at hidx
      subst hidx
      rw [hch.1]
  · have hg0 := bisector_gap n idx 0 h1 (by omega)
    simp only [Nat.mul_zero, Nat.zero_div, Nat.zero_add] at hg0
    have hgn := bisector_gap n n idx h1 hidxlt
    rw [bisector_full n h1] at hgn
    have : ¬ (((360 * 64 * idx / n : Nat) : Int) < ((360 * 64 / (2 * n) : Nat) : Int)) := by
      omega
    rw [if_neg this]
    apply getitemscan_first hh.items _ l h.nitem _ idx i hch hfuel hidx
    · have hk := hsl idx i hidx
      simp only [h0, if_false] at hk
      unfold inslice
      rw [hk.1, hk.2]
      omega
    · intro jdx j hj hjj
      have hk := hsl jdx j hjj
      unfold inslice
      rw [hk.1, hk.2]
      by_cases hj0 : jdx = 0
      · simp only [hj0, if_true]
        omega
      · simp only [hj0, if_false]
        have hg := bisector_gap n idx jdx h1 hj
        omega

/-- The seven items of a flat menu: each bisector angle resolves to its item. -/
theorem getitem_bisector_witness :
    ∃ h1 : Heap, setupitems (built sevenrecords).heap 0 = some h1 ∧
      ∀ idx i, [0, 1, 2, 3, 4, 5, 6][idx]? = some i →
        getitemangle h1 0 ((360 * 64 * idx / 7 : Nat) : Int) = some (some i) :=
  getitem_bisector (built sevenrecords).heap 0 [0, 1, 2, 3, 4, 5, 6] 7 rfl rfl rfl
    (by decide) (by decide)

/-! ## Keyboard cycling (C8) -/

/-- C8 fails on the code: in the menu `[separator, A]` with `A` selected,
`itemcycle` with `ITEMNEXT` runs off the end of the list and wraps to the head,
which is the separator; in the menu `[A, separator]` with `A` selected, `ITEMPREV`
wraps to the tail, again the separator.  In both menus the first non-separator item
in cyclic order is `A` itself.  Pressing Tab twice in the first menu reaches the
state and leaves the separator selected. -/
theorem itemcycle_wraps_to_separator :
    (itemcycle (withselected (laidout sepfirstrecords) 0 (some 1)) 0 ITEMNEXT = some (some 0) ∧
      ((laidout sepfirstrecords).items 0).label = none ∧
      ((laidout sepfirstrecords).items 1).label = some ['A'] ∧
      (laidout sepfirstrecords).menuitems 0 = some [0, 1]) ∧
    (itemcycle (withselected (laidout seplastrecords) 0 (some 0)) 0 ITEMPREV = some (some 1) ∧
      ((laidout seplastrecords).items 1).label = none ∧
      ((laidout seplastrecords).items 0).label = some ['A'] ∧
      (laidout seplastrecords).menuitems 0 = some [0, 1]) ∧
    (∃ st1 st2,
      runevents (fun _ _ => 0) (runinit (laidout sepfirstrecords) 0) [.keyPress .tab false]
        = some (.running st1) ∧
      (st1.heap.menus 0).selected = some 1 ∧
      runstep (fun _ _ => 0) st1 (.keyPress .tab false) = some (.running st2) ∧
      (st2.heap.menus 0).selected = some 0) :=
  ⟨⟨rfl, rfl, rfl, rfl⟩, ⟨rfl, rfl, rfl, rfl⟩, ⟨_, _, rfl, rfl, rfl, rfl⟩⟩

/-! ## The event loop: pointer motion (C9) -/

/-- C9, as stated, fails: in the menu `[A, B]` the pointer moves onto `A`, the Tab
key then moves the selection on to `B`, and a further motion event over `A`, whose
window resolves to the root menu and whose point resolves to `A`, leaves `B`
selected, because `A` is still the item of the previous motion event. -/
theorem runstep_motion_counterexample :
    ∃ st st1,
      runevents (fun _ _ => 0) (runinit (laidout tworecords) 0)
        [.motionNotify 0 0 0, .keyPress .tab false] = some (.running st) ∧
      getmenu st.heap.menus (st.heap.nmenu + 1) (some st.currmenu) 0 = some (some 0) ∧
      getitem (fun _ _ => 0) st.heap (some 0) 0 0 = some (some 0) ∧
      runstep (fun _ _ => 0) st (.motionNotify 0 0 0) = some (.running st1) ∧
      (st1.heap.menus 0).selected = some 1 ∧ (st1.heap.menus 0).selected ≠ some 0 :=
  ⟨_, _, rfl, rfl, rfl, rfl, rfl, by decide⟩

/-- C9, amended: a motion event whose window resolves to a menu `M` of the ancestor
chain of the current menu and whose point resolves to an item `I`.  If `I` is not
the item of the previous motion event (`previtem`), the step makes `I` the selected
item of `M` and the new `previtem`, and changes nothing else; if it is, the step
changes nothing, so `M.selected` is `I` afterwards exactly if it was before. -/
theorem runstep_motion (ang : Int → Int → Int) (st : RunState) (win : Nat)
    (x y : Int) (M I : Nat)
    (hM : getmenu st.heap.menus (st.heap.nmenu + 1) (some st.currmenu) win = some (some M))
    (hI : getitem ang st.heap (some M) x y = some (some I)) :
    (st.previtem ≠ some I →
      ∃ st1, runstep ang st (.motionNotify win x y) = some (.running st1) ∧
        (st1.heap.menus M).selected = some I ∧ st1.previtem = some I ∧
        st1.currmenu = st.currmenu ∧ st1.mapped = st.mapped ∧
        st1.heap.items = st.heap.items ∧
        sameexceptselected st1.heap.menus st.heap.menus ∧
        ∀ m, m ≠ M → st1.heap.menus m = st.heap.menus m) ∧
    (st.previtem = some I →
      runstep ang st (.motionNotify win x y) = some (.running st)) := by
  constructor
  · intro hne
    refine ⟨?_, ?_, ?_⟩
    rotate_left
    · simp only [runstep, hM, hI, hne, if_false]
      exact rfl
    · refine ⟨by simp [upd], rfl, rfl, rfl, rfl, ?_, ?_⟩
      · intro z
        simp only [upd]
        split
        · rename_i hz; rw [hz]
        · rfl
      · intro m hm
        simp [upd, hm]
  · intro he
    simp only [runstep, hM, hI, he, if_true]

/-- The first motion event over `A` in the menu `[A, B]` selects `A`. -/
theorem runstep_motion_witness :
    ∃ st1, runstep (fun _ _ => 0) (runinit (laidout tworecords) 0) (.motionNotify 0 0 0)
        = some (.running st1) ∧
      (st1.heap.menus 0).selected = some 0 ∧ st1.previtem = some 0 ∧
      st1.currmenu = (runinit (laidout tworecords) 0).currmenu ∧
      st1.mapped = (runinit (laidout tworecords) 0).mapped ∧
      st1.heap.items = (runinit (laidout tworecords) 0).heap.items ∧
      sameexceptselected st1.heap.menus (runinit (laidout tworecords) 0).heap.menus ∧
      ∀ m, m ≠ 0 → st1.heap.menus m = (runinit (laidout tworecords) 0).heap.menus m :=
  (runstep_motion (fun _ _ => 0) (runinit (laidout tworecords) 0) 0 0 0 0 0 rfl rfl).1
    (by decide)

/-! ## The menus `mapmenu` unmaps -/

theorem nthparent_levelinv (h : Heap) (root : Nat) (hlv : LevelInv h root)
    (hrp : (h.menus root).parent = none) :
    ∀ k m x, m < h.nmenu → nthparent h.menus k (some m) = some x →
      x < h.nmenu ∧ (h.menus x).level + k = (h.menus m).level := by
  intro k
  induction k with
  | zero =>
    intro m x hm hx
    simp only [nthparent, Option.some.injEq] at hx
    subst hx
    exact ⟨hm, rfl⟩
  | succ k ih =>
    intro m x hm hx
    simp only [nthparent] at hx
    by_cases hmr : m = root
    · rw [hmr, hrp, nthparent_none] at hx
      exact absurd hx (by simp)
    · obtain ⟨p, hp, hpar, hpl⟩ := hlv.step m hm hmr
      rw [hpar] at hx
      obtain ⟨h1, h2⟩ := ih p x hp hx
      exact ⟨h1, by omega⟩

/-- The lock-step loop of `mapmenu` stops at the first pair of equal ancestors. -/
theorem meet_min (h : Heap) (root : Nat) (hlv : LevelInv h root) :
    ∀ lvl fuel a b, a < h.nmenu → b < h.nmenu → (h.menus a).level = lvl →
      (h.menus b).level = lvl → lvl < fuel →
      ∃ j c, c < h.nmenu ∧ meet h.menus fuel (some a) (some b) = some (some c) ∧
        nthparent h.menus j (some a) = some c ∧ nthparent h.menus j (some b) = some c ∧
        j ≤ lvl ∧
        ∀ i x, nthparent h.menus i (some a) = some x →
          nthparent h.menus i (some b) = some x → j ≤ i := by
  intro lvl
  induction lvl with
  | zero =>
    intro fuel a b ha hb hla hlb hf
    have har : a = root := by
      by_contra hne
      obtain ⟨p, _, _, hpl⟩ := hlv.step a ha hne
      omega
    have hbr : b = root := by
      by_contra hne
      obtain ⟨p, _, _, hpl⟩ := hlv.step b hb hne
      omega
    rw [hbr, ← har]
    cases fuel with
    | zero => omega
    | succ f =>
      exact ⟨0, a, ha, by simp [meet], rfl, rfl, le_refl _, fun i _ _ _ => Nat.zero_le i⟩
  | succ lvl ih =>
    intro fuel a b ha hb hla hlb hf
    cases fuel with
    | zero => omega
    | succ f =>
      by_cases hab : a = b
      · subst hab
        exact ⟨0, a, ha, by simp [meet], rfl, rfl, by omega, fun i _ _ _ => Nat.zero_le i⟩
      · have har : a ≠ root := by
          intro e
          rw [e, hlv.rootlevel] at hla
          omega
        have hbr : b ≠ root := by
          intro e
          rw [e, hlv.rootlevel] at hlb
          omega
        obtain ⟨pa, hpa, hpara, hpla⟩ := hlv.step a ha har
        obtain ⟨pb, hpb, hparb, hplb⟩ := hlv.step b hb hbr
        obtain ⟨j, c, hc, h1, h2, h3, h4, h5⟩ :=
          ih f pa pb hpa hpb (by omega) (by omega) (by omega)
        refine ⟨j + 1, c, hc, ?_, ?_, ?_, by omega, ?_⟩
        · unfold meet
          have : ¬ (some a = some b) := fun e => hab (Option.some.inj e)
          rw [if_neg this]
          simp only [hpara, hparb]
          exact h1
        · simp only [nthparent]
          rw [hpara]
          exact h2
        · simp only [nthparent]
          rw [hparb]
          exact h3
        · intro i x hia hib
          cases i with
          | zero =>
            simp only [nthparent, Option.some.injEq] at hia hib
            exact absurd (hia.trans hib.symm) hab
          | succ i =>
            simp only [nthparent] at hia hib
            rw [hpara] at hia
            rw [hparb] at hib
            have := h5 i x hia hib
            omega

/-- The unmapping loop of `mapmenu` clears `selected` in exactly the menus it passes
before it reaches `c`, and changes nothing else. -/
theorem unmapchain_exact :
    ∀ (k fuel : Nat) (menus : Nat → Menu) (m c : Nat),
      nthparent menus k (some m) = some c →
      (∀ j, j < k → nthparent menus j (some m) ≠ some c) → k < fuel →
      ∃ menus1, unmapchain fuel menus (some m) (some c) = some menus1 ∧
        (∀ x j, j < k → nthparent menus j (some m) = some x →
          menus1 x = { menus x with selected := none }) ∧
        (∀ x, (∀ j, j < k → nthparent menus j (some m) ≠ some x) → menus1 x = menus x) := by
  intro k
  induction k with
  | zero =>
    intro fuel menus m c hk _ hf
    simp only [nthparent, Option.some.injEq] at hk
    subst hk
    cases fuel with
    | zero => omega
    | succ f =>
      refine ⟨menus, by simp [unmapchain], ?_, fun _ _ => rfl⟩
      intro x j hj
      omega
  | succ k ih =>
    intro fuel menus m c hk hmin hf
    cases fuel with
    | zero => omega
    | succ f =>
      have hmc : m ≠ c := by
        intro e
        exact hmin 0 (by omega) (by rw [e]; rfl)
      simp only [nthparent] at hk
      cases hpar : (menus m).parent with
      | none =>
        rw [hpar, nthparent_none] at hk
        exact absurd hk (by simp)
      | some p =>
        rw [hpar] at hk
        have hcongr : ∀ x, ((upd menus m { menus m with selected := none }) x).parent
            = (menus x).parent := by
          intro x
          simp only [upd]
          split
          · rename_i hx; rw [hx]
          · rfl
        have hstep : ∀ j, nthparent (upd menus m { menus m with selected := none }) j (some p)
            = nthparent menus (j + 1) (some m) := by
          intro j
          rw [nthparent_congr _ menus hcongr]
          simp only [nthparent]
          rw [hpar]
        have hk2 : nthparent (upd menus m { menus m with selected := none }) k (some p)
            = some c := by
          rw [nthparent_congr _ menus hcongr]
          exact hk
        have hmin2 : ∀ j, j < k →
            nthparent (upd menus m { menus m with selected := none }) j (some p) ≠ some c := by
          intro j hj
          rw [hstep]
          exact hmin (j + 1) (by omega)
        obtain ⟨menus1, h1, hp1, hp2⟩ := ih f _ p c hk2 hmin2 (by omega)
        have hclr : ∀ x, ({ (upd menus m { menus m with selected := none }) x with
            selected := none } : Menu) = { menus x with selected := none } := by
          intro x
          simp only [upd]
          split
          · rename_i hx; rw [hx]
          · rfl
        refine ⟨menus1, ?_, ?_, ?_⟩
        · unfold unmapchain
          have : ¬ (some m = some c) := fun e => hmc (Option.some.inj e)
          rw [if_neg this]
          rw [← hpar] at h1
          exact h1
        · intro x j hj hx
          by_cases hin : ∃ i, i < k ∧
              nthparent (upd menus m { menus m with selected := none }) i (some p) = some x
          · obtain ⟨i, hi, hix⟩ := hin
            rw [hp1 x i hi hix]
            exact hclr x
          · have hall : ∀ i, i < k →
                nthparent (upd menus m { menus m with selected := none }) i (some p)
                  ≠ some x := fun i hi hix => hin ⟨i, hi, hix⟩
            rw [hp2 x hall]
            cases j with
            | zero =>
              simp only [nthparent, Option.some.injEq] at hx
              subst hx
              simp [upd]
            | succ j =>
              exact absurd (by rw [hstep]; exact hx) (hall j (by omega))
        · intro x hnot
          have hxm : x ≠ m := by
            intro e
            exact hnot 0 (by omega) (by rw [e]; rfl)
          have hall : ∀ i, i < k →
              nthparent (upd menus m { menus m with selected := none }) i (some p)
                ≠ some x := by
            intro i hi
            rw [hstep]
            exact hnot (i + 1) (by omega)
          rw [hp2 x hall]
          simp [upd, hxm]

/-- The menu `c` at which the lock-step loop stops is the deepest common ancestor of
`prev` and `curr`: the loop starts from the ancestors `a` of `prev` and `b` of `curr`
at the smaller of the two levels. -/
theorem common_le (h : Heap) (root : Nat) (hlv : LevelInv h root)
    (hrp : (h.menus root).parent = none) (prev curr a b c dp dc j : Nat)
    (hp : prev < h.nmenu) (hc : curr < h.nmenu) (hz : dp = 0 ∨ dc = 0)
    (hpa : nthparent h.menus dp (some prev) = some a)
    (hcb : nthparent h.menus dc (some curr) = some b)
    (hlev : (h.menus a).level = (h.menus b).level)
    (hja : nthparent h.menus j (some a) = some c)
    (hmin : ∀ i x, nthparent h.menus i (some a) = some x →
      nthparent h.menus i (some b) = some x → j ≤ i) :
    ∀ x, (∃ k, nthparent h.menus k (some prev) = some x) →
      (∃ k, nthparent h.menus k (some curr) = some x) →
      (h.menus x).level ≤ (h.menus c).level := by
  intro x hx1 hx2
  obtain ⟨i1, hi1⟩ := hx1
  obtain ⟨i2, hi2⟩ := hx2
  obtain ⟨_, hl1⟩ := nthparent_levelinv h root hlv hrp i1 prev x hp hi1
  obtain ⟨_, hl2⟩ := nthparent_levelinv h root hlv hrp i2 curr x hc hi2
  obtain ⟨ha, hla⟩ := nthparent_levelinv h root hlv hrp dp prev a hp hpa
  obtain ⟨_, hlb⟩ := nthparent_levelinv h root hlv hrp dc curr b hc hcb
  obtain ⟨_, hlc⟩ := nthparent_levelinv h root hlv hrp j a c ha hja
  have h1 : dp ≤ i1 := by omega
  have h2 : dc ≤ i2 := by omega
  have e1 : nthparent h.menus (i1 - dp) (some a) = some x := by
    have := nthparent_add h.menus dp (i1 - dp) (some prev)
    rw [hpa] at this
    rw [← this]
    have e : dp + (i1 - dp) = i1 := by omega
    rw [e]
    exact hi1
  have e2 : nthparent h.menus (i1 - dp) (some b) = some x := by
    have := nthparent_add h.menus dc (i2 - dc) (some curr)
    rw [hcb] at this
    have e : i1 - dp = i2 - dc := by omega
    rw [e, ← this]
    have e3 : dc + (i2 - dc) = i2 := by omega
    rw [e3]
    exact hi2
  have := hmin (i1 - dp) x e1 e2
  omega

/-- The menus passed on the way from `prev` to the deepest common ancestor `c` of
`prev` and `curr` are the ancestors of `prev` (itself included) that are not
ancestors of `curr`. -/
theorem unmapped_iff (h : Heap) (root : Nat) (hlv : LevelInv h root)
    (hrp : (h.menus root).parent = none) (prev curr c np nc : Nat)
    (hp : prev < h.nmenu)
    (hnp : nthparent h.menus np (some prev) = some c)
    (hnc : nthparent h.menus nc (some curr) = some c)
    (hdeep : ∀ x, (∃ k, nthparent h.menus k (some prev) = some x) →
      (∃ k, nthparent h.menus k (some curr) = some x) →
      (h.menus x).level ≤ (h.menus c).level) :
    (∀ j, j < np → nthparent h.menus j (some prev) ≠ some c) ∧
    ∀ x, (∃ j, j < np ∧ nthparent h.menus j (some prev) = some x) ↔
      ((∃ k, nthparent h.menus k (some prev) = some x) ∧
        ¬ ∃ k, nthparent h.menus k (some curr) = some x) := by
  obtain ⟨_, hlc⟩ := nthparent_levelinv h root hlv hrp np prev c hp hnp
  constructor
  · intro j hj hjc
    obtain ⟨_, hl⟩ := nthparent_levelinv h root hlv hrp j prev c hp hjc
    omega
  · intro x
    constructor
    · rintro ⟨j, hj, hjx⟩
      refine ⟨⟨j, hjx⟩, ?_⟩
      intro hcx
      obtain ⟨_, hl⟩ := nthparent_levelinv h root hlv hrp j prev x hp hjx
      have := hdeep x ⟨j, hjx⟩ hcx
      omega
    · rintro ⟨⟨k, hk⟩, hnot⟩
      refine ⟨k, ?_, hk⟩
      by_contra hge
      apply hnot
      refine ⟨nc + (k - np), ?_⟩
      rw [nthparent_add, hnc]
      have := nthparent_add h.menus np (k - np) (some prev)
      rw [hnp] at this
      rw [← this]
      have e : np + (k - np) = k := by omega
      rw [e]
      exact hk

/-- On a heap that satisfies the level invariant, `mapmenu` returns; it clears
`selected` in the menus it unmaps, which are the ancestors of the previously mapped
menu `prev` (itself included) that are not ancestors of the new menu `curr`
(itself included), and changes nothing else. -/
theorem mapmenu_unmaps (h : Heap) (root prev curr : Nat) (hlv : LevelInv h root)
    (hrp : (h.menus root).parent = none) (hp : prev < h.nmenu) (hc : curr < h.nmenu) :
    ∃ menus1, mapmenu h (some prev) curr = some ({ h with menus := menus1 }, some curr) ∧
      (∀ x, (∃ k, nthparent h.menus k (some prev) = some x) →
        (¬ ∃ k, nthparent h.menus k (some curr) = some x) →
        menus1 x = { h.menus x with selected := none }) ∧
      (∀ x, ¬ ((∃ k, nthparent h.menus k (some prev) = some x) ∧
          ¬ ∃ k, nthparent h.menus k (some curr) = some x) →
        menus1 x = h.menus x) := by
  by_cases heq : prev = curr
  · subst heq
    refine ⟨h.menus, by simp [mapmenu], ?_, fun _ _ => rfl⟩
    intro x h1 h2
    exact absurd h1 h2
  · have hlp := level_lt_nmenu h root hlv prev hp
    have hlc := level_lt_nmenu h root hlv curr hc
    have hne : ¬ (some prev = some curr) := fun e => heq (Option.some.inj e)
    have hfinish : ∀ (c np nc : Nat), np < h.nmenu + 1 → nc < h.nmenu + 1 →
        nthparent h.menus np (some prev) = some c →
        nthparent h.menus nc (some curr) = some c →
        (∀ x, (∃ k, nthparent h.menus k (some prev) = some x) →
          (∃ k, nthparent h.menus k (some curr) = some x) →
          (h.menus x).level ≤ (h.menus c).level) →
        ∃ menus1, unmapchain (h.nmenu + 1) h.menus (some prev) (some c) = some menus1 ∧
          mapchain menus1 (h.nmenu + 1) (some curr) (some c) = some () ∧
          (∀ x, (∃ k, nthparent h.menus k (some prev) = some x) →
            (¬ ∃ k, nthparent h.menus k (some curr) = some x) →
            menus1 x = { h.menus x with selected := none }) ∧
          (∀ x, ¬ ((∃ k, nthparent h.menus k (some prev) = some x) ∧
              ¬ ∃ k, nthparent h.menus k (some curr) = some x) →
            menus1 x = h.menus x) := by
      intro c np nc hnpf hncf hnp hnc hdeep
      obtain ⟨hmin, hiff⟩ := unmapped_iff h root hlv hrp prev curr c np nc hp hnp hnc hdeep
      obtain ⟨menus1, hun, hp1, hp2⟩ :=
        unmapchain_exact np (h.nmenu + 1) h.menus prev c hnp hmin hnpf
      have hpar : ∀ x, (menus1 x).parent = (h.menus x).parent := by
        intro x
        by_cases hx : ∃ j, j < np ∧ nthparent h.menus j (some prev) = some x
        · obtain ⟨j, hj, hjx⟩ := hx
          rw [hp1 x j hj hjx]
        · rw [hp2 x (fun j hj hjx => hx ⟨j, hj, hjx⟩)]
      have hcurr : nthparent menus1 nc (some curr) = some c := by
        rw [nthparent_congr menus1 h.menus hpar]
        exact hnc
      refine ⟨menus1, hun, mapchain_spec menus1 nc (h.nmenu + 1) curr c hcurr hncf, ?_, ?_⟩
      · intro x h1 h2
        obtain ⟨j, hj, hjx⟩ := (hiff x).2 ⟨h1, h2⟩
        exact hp1 x j hj hjx
      · intro x hnot
        apply hp2
        intro j hj hjx
        exact hnot ((hiff x).1 ⟨j, hj, hjx⟩)
    unfold mapmenu
    rw [if_neg hne]
    simp only
    by_cases hcmp : (h.menus prev).level ≤ (h.menus curr).level
    · have hmax : max (h.menus curr).level (h.menus prev).level = (h.menus curr).level :=
        Nat.max_eq_left hcmp
      have hmin : min (h.menus curr).level (h.menus prev).level = (h.menus prev).level :=
        Nat.min_eq_right hcmp
      simp only [hmax, hmin, if_true]
      obtain ⟨c1, hc1, hcl, hnp1, hl1⟩ := climb_spec h root hlv (h.menus prev).level
        (h.nmenu + 1) curr hc hcmp (by omega)
      obtain ⟨j, c, hcn, hmeet, hnpa, hnpb, hj, hjmin⟩ := meet_min h root hlv
        (h.menus prev).level (h.nmenu + 1) c1 prev hc1 hp hl1 rfl (by omega)
      have hdeep := common_le h root hlv hrp curr prev c1 prev c
        ((h.menus curr).level - (h.menus prev).level) 0 j hc hp (Or.inr rfl) hnp1 rfl hl1
        hnpa hjmin
      have hcurr : nthparent h.menus (((h.menus curr).level - (h.menus prev).level) + j)
          (some curr) = some c := by
        rw [nthparent_add, hnp1]
        exact hnpa
      obtain ⟨menus1, hun, hmap, h1, h2⟩ := hfinish c j _ (by omega) (by omega) hnpb hcurr
        (fun x hx1 hx2 => hdeep x hx2 hx1)
      refine ⟨menus1, ?_, h1, h2⟩
      simp only [hcl, hmeet, hun, hmap]
    · have hcmp2 : (h.menus curr).level < (h.menus prev).level := by omega
      have hmax : max (h.menus curr).level (h.menus prev).level = (h.menus prev).level :=
        Nat.max_eq_right (by omega)
      have hmin : min (h.menus curr).level (h.menus prev).level = (h.menus curr).level :=
        Nat.min_eq_left (by omega)
      have hnemax : ¬ ((h.menus curr).level = (h.menus prev).level) := by omega
      simp only [hmax, hmin, hnemax, if_false]
      obtain ⟨c1, hc1, hcl, hnp1, hl1⟩ := climb_spec h root hlv (h.menus curr).level
        (h.nmenu + 1) prev hp (by omega) (by omega)
      obtain ⟨j, c, hcn, hmeet, hnpa, hnpb, hj, hjmin⟩ := meet_min h root hlv
        (h.menus curr).level (h.nmenu + 1) c1 curr hc1 hc hl1 rfl (by omega)
      have hdeep := common_le h root hlv hrp prev curr c1 curr c
        ((h.menus prev).level - (h.menus curr).level) 0 j hp hc (Or.inr rfl) hnp1 rfl hl1
        hnpa hjmin
      have hprev : nthparent h.menus (((h.menus prev).level - (h.menus curr).level) + j)
          (some prev) = some c := by
        rw [nthparent_add, hnp1]
        exact hnpa
      obtain ⟨menus1, hun, hmap, h1, h2⟩ := hfinish c _ j (by omega) (by omega) hprev hnpb
        hdeep
      refine ⟨menus1, ?_, h1, h2⟩
      simp only [hcl, hmeet, hun, hmap]

/-! ## The event loop: window close and pointer leave (C10) -/

/-- C10, as stated, fails: in the tree of `"Foo\n\tBar\n"`, after the pointer moved
onto `Foo` and the button was released there, the submenu (window 1, not the root)
is the current menu.  A window-close event on window 1 returns to the root menu
and leaves `Foo` selected there; a pointer-leave event on window 1 returns to the
root menu and clears the selection (and `previtem`).  The resulting states differ. -/
theorem runstep_close_leave_counterexample :
    ∃ st sc sl,
      runevents (fun _ _ => 0) (runinit (laidout foobarrecords) 0)
        [.motionNotify 0 0 0, .buttonRelease 0 0 0] = some (.running st) ∧
      getmenu st.heap.menus (st.heap.nmenu + 1) (some st.currmenu) 1 = some (some 1) ∧
      1 ≠ st.rootmenu ∧ (st.heap.menus 1).parent = some 0 ∧
      runstep (fun _ _ => 0) st (.clientMessage 1) = some (.running sc) ∧
      runstep (fun _ _ => 0) st (.leaveNotify 1) = some (.running sl) ∧
      sc.currmenu = 0 ∧ sl.currmenu = 0 ∧
      (sc.heap.menus 0).selected = some 0 ∧ (sl.heap.menus 0).selected = none ∧
      sc.previtem = some 0 ∧ sl.previtem = none :=
  ⟨_, _, _, rfl, rfl, by decide, rfl, rfl, rfl, rfl, rfl, rfl, rfl, rfl, rfl⟩

/-- C10, amended: in a state of the event loop on a well-formed tree (`NavInv`), let
the window `W` resolve to a menu `M` of the ancestor chain of the current menu.  If
`M` has no parent (the root menu), the window-close event ends `run` with no output.
If `M` has a parent `P`, the window-close event makes `P` the current menu and `run`
goes on; it keeps `previtem` and the items, and changes only the `selected` fields
of the menus `mapmenu` unmaps: in every ancestor of the previously mapped menu
(itself included) that is not an ancestor of `P` (itself included) `selected` is
cleared, and every other menu, `P` with its `selected` among them, is unchanged.
When moreover `M` is the current menu, the pointer-leave event on `W` leads to the
same state as the window-close event except that it also clears `P.selected` and
`previtem`. -/
theorem runstep_close_vs_leave (ang : Int → Int → Int) (st : RunState) (win M : Nat)
    (hinv : NavInv st)
    (hM : getmenu st.heap.menus (st.heap.nmenu + 1) (some st.currmenu) win = some (some M)) :
    ((st.heap.menus M).parent = none →
      runstep ang st (.clientMessage win) = some (.finished none)) ∧
    (∀ P, (st.heap.menus M).parent = some P →
      ∃ sc, runstep ang st (.clientMessage win) = some (.running sc) ∧
        sc.currmenu = P ∧ sc.mapped = some P ∧ sc.previtem = st.previtem ∧
        sc.heap.items = st.heap.items ∧
        sameexceptselected sc.heap.menus st.heap.menus ∧
        (∀ x, (∃ k, nthparent st.heap.menus k st.mapped = some x) →
          (¬ ∃ k, nthparent st.heap.menus k (some P) = some x) →
          sc.heap.menus x = { st.heap.menus x with selected := none }) ∧
        (∀ x, ¬ ((∃ k, nthparent st.heap.menus k st.mapped = some x) ∧
            ¬ ∃ k, nthparent st.heap.menus k (some P) = some x) →
          sc.heap.menus x = st.heap.menus x) ∧
        sc.heap.menus P = st.heap.menus P ∧
        (M = st.currmenu →
          runstep ang st (.leaveNotify win)
            = some (.running { sc with heap := withselected sc.heap P none, previtem := none }))) := by
  constructor
  · intro hpar
    simp only [runstep, hM, hpar]
  · intro P hpar
    have hMlt : M < st.heap.nmenu :=
      getmenu_lt st.heap.menus st.heap.nmenu st.rootmenu hinv.rootparent hinv.levels.step win
        _ _ M hinv.currlt hM
    have hMr : M ≠ st.rootmenu := by
      intro e
      rw [e, hinv.rootparent] at hpar
      exact absurd hpar (by simp)
    have hP : P < st.heap.nmenu := by
      obtain ⟨p1, hp1, hpar1, _⟩ := hinv.levels.step M hMlt hMr
      rw [hpar] at hpar1
      rw [Option.some.inj hpar1]
      exact hp1
    have hmm : ∃ menus1 mp, mapmenu st.heap st.mapped P
        = some ({ st.heap with menus := menus1 }, mp) ∧ mp = some P ∧
          (∀ x, (∃ k, nthparent st.heap.menus k st.mapped = some x) →
            (¬ ∃ k, nthparent st.heap.menus k (some P) = some x) →
            menus1 x = { st.heap.menus x with selected := none }) ∧
          (∀ x, ¬ ((∃ k, nthparent st.heap.menus k st.mapped = some x) ∧
              ¬ ∃ k, nthparent st.heap.menus k (some P) = some x) →
            menus1 x = st.heap.menus x) := by
      cases hmp : st.mapped with
      | none =>
        refine ⟨st.heap.menus, some P, by simp [mapmenu], rfl, ?_, fun _ _ => rfl⟩
        intro x hx _
        obtain ⟨k, hk⟩ := hx
        rw [nthparent_none] at hk
        exact absurd hk (by simp)
      | some p =>
        obtain ⟨menus1, h1, h2, h3⟩ := mapmenu_unmaps st.heap st.rootmenu p P hinv.levels
          hinv.rootparent (hinv.mappedlt p hmp) hP
        exact ⟨menus1, some P, h1, rfl, h2, h3⟩
    obtain ⟨menus1, mp, hmap, hmp, hclr, hkeep⟩ := hmm
    subst hmp
    have hsame : sameexceptselected menus1 st.heap.menus := by
      intro x
      by_cases hx : (∃ k, nthparent st.heap.menus k st.mapped = some x) ∧
          ¬ ∃ k, nthparent st.heap.menus k (some P) = some x
      · rw [hclr x hx.1 hx.2]
      · rw [hkeep x hx]
    refine ⟨?_, ?_, ?_⟩
    rotate_left
    · simp only [runstep, hM, hpar, hmap]
      exact rfl
    · refine ⟨rfl, rfl, rfl, rfl, hsame, hclr, hkeep, ?_, ?_⟩
      · exact hkeep P (fun hx => hx.2 ⟨0, rfl⟩)
      · intro hMc
        subst hMc
        have hcond : st.currmenu ≠ st.rootmenu ∧ True := ⟨hMr, trivial⟩
        simp only [runstep, hM]
        rw [if_pos hcond]
        rw [hpar]
        simp only [hmap]
        rfl

/-- Window-close and pointer-leave on the submenu window of `"Foo\n\tBar\n"`: the
window-close event clears `selected` in the submenu (menu 1) and keeps the root
menu (menu 0) as it is, `Foo` selected. -/
theorem runstep_close_vs_leave_witness :
    ∃ sc, runstep (fun _ _ => 0) insubmenu (.clientMessage 1) = some (.running sc) ∧
      sc.currmenu = 0 ∧ sc.mapped = some 0 ∧ sc.previtem = insubmenu.previtem ∧
      sc.heap.items = insubmenu.heap.items ∧
      sameexceptselected sc.heap.menus insubmenu.heap.menus ∧
      (∀ x, (∃ k, nthparent insubmenu.heap.menus k insubmenu.mapped = some x) →
        (¬ ∃ k, nthparent insubmenu.heap.menus k (some 0) = some x) →
        sc.heap.menus x = { insubmenu.heap.menus x with selected := none }) ∧
      (∀ x, ¬ ((∃ k, nthparent insubmenu.heap.menus k insubmenu.mapped = some x) ∧
          ¬ ∃ k, nthparent insubmenu.heap.menus k (some 0) = some x) →
        sc.heap.menus x = insubmenu.heap.menus x) ∧
      sc.heap.menus 0 = insubmenu.heap.menus 0 ∧
      (1 = insubmenu.currmenu →
        runstep (fun _ _ => 0) insubmenu (.leaveNotify 1)
          = some (.running { sc with heap := withselected sc.heap 0 none, previtem := none })) :=
  (runstep_close_vs_leave (fun _ _ => 0) insubmenu 1 1
    (afterevents_NavInv _ _ _
      (NavInv_laidout foobarrecords (built foobarrecords) (by decide) rfl rfl)) rfl).2 0 rfl

/-! ## The builder on arbitrary input: menus and item lists -/

theorem findmenu_eq (menus : Nat → Menu) (plevel : Nat) :
    ∀ fuel p i, i ≤ plevel → plevel - i < fuel →
      findmenu menus plevel fuel p i = some (nthparent menus (plevel - i) p) := by
  intro fuel
  induction fuel with
  | zero => intro p i _ hf; omega
  | succ f ih =>
    intro p i hi hf
    cases p with
    | none =>
      simp only [findmenu, nthparent_none]
    | some m =>
      unfold findmenu
      by_cases he : i = plevel
      · subst he
        simp [nthparent]
      · rw [if_neg he, ih _ (i + 1) (by omega) (by omega)]
        have : plevel - i = (plevel - (i + 1)) + 1 := by omega
        rw [this]
        rfl

theorem allocitem_shape (h h1 : Heap) (l o f : Option (List Char)) (c : Nat)
    (ha : allocitem h l o f = .ok (h1, c)) :
    ∃ it : Item, c = h.nitem ∧
      h1 = { h with items := upd h.items h.nitem it, nitem := h.nitem + 1 } ∧
      it.next = none ∧ it.submenu = none ∧ it.label = l ∧
      (l.isSome = o.isSome → it.output = o) := by
  unfold allocitem at ha
  split at ha
  · simp at ha
  · simp only [Except.ok.injEq, Prod.mk.injEq] at ha
    obtain ⟨rfl, rfl⟩ := ha
    refine ⟨_, rfl, rfl, rfl, rfl, rfl, ?_⟩
    intro hp
    cases l <;> cases o <;> simp_all

theorem ischain_congr_on (items items1 : Nat → Item) :
    ∀ l p, (∀ j ∈ l, (items1 j).next = (items j).next) → ischain items p l →
      ischain items1 p l := by
  intro l
  induction l with
  | nil => intro p _ h; exact h
  | cons i t ih =>
    intro p hn h
    refine ⟨h.1, ?_⟩
    rw [hn i (List.mem_cons_self i t)]
    exact ih _ (fun j hj => hn j (List.mem_cons_of_mem i hj)) h.2

theorem ischain_snoc (items items1 : Nat → Item) (c : Nat) :
    ∀ l p, l ≠ [] → ischain items p l →
      (∀ j ∈ l, some j ≠ l.getLast? → (items1 j).next = (items j).next) →
      (∀ j, some j = l.getLast? → (items1 j).next = some c) →
      (items1 c).next = none → l.Nodup →
      ischain items1 p (l ++ [c]) := by
  intro l
  induction l with
  | nil => intro p h; exact absurd rfl h
  | cons i t ih =>
    intro p _ h hmid hlast hc hnd
    obtain ⟨hit, hndt⟩ := List.nodup_cons.1 hnd
    cases t with
    | nil =>
      have h2 : (items i).next = none := h.2
      refine ⟨h.1, ?_, ?_⟩
      · exact hlast i (by simp)
      · exact hc
    | cons x u =>
      refine ⟨h.1, ?_⟩
      have hne : some i ≠ (i :: x :: u).getLast? := by
        intro e
        have : i ∈ x :: u := by
          rw [List.getLast?_cons_cons] at e
          exact List.mem_of_getLast?_eq_some e.symm
        exact hit this
      rw [hmid i (List.mem_cons_self _ _) hne]
      have hl : (i :: x :: u).getLast? = (x :: u).getLast? := List.getLast?_cons_cons
      apply ih _ (by simp) h.2
      · intro j hj hjl
        exact hmid j (List.mem_cons_of_mem i hj) (by rw [hl]; exact hjl)
      · intro j hj
        exact hlast j (by rw [hl]; exact hj)
      · exact hc
      · exact hndt

theorem lastitem_of_chain (items : Nat → Item) :
    ∀ l fuel i, ischain items (some i) l → l.length ≤ fuel →
      (lastitem items fuel i).map some = some l.getLast? := by
  intro l
  induction l with
  | nil =>
    intro fuel i h
    exact absurd h (by simp [ischain])
  | cons x t ih =>
    intro fuel i h hf
    have hix : i = x := Option.some.inj h.1
    subst hix
    cases fuel with
    | zero => simp at hf
    | succ f =>
      unfold lastitem
      cases t with
      | nil =>
        have h2 : (items i).next = none := h.2
        rw [h2]
        simp
      | cons y u =>
        have h2 : (items i).next = some y := h.2.1
        rw [h2]
        have := ih f y (by rw [← h2]; exact h.2) (by simpa using hf)
        rw [List.getLast?_cons_cons]
        exact this

theorem ischain_itemsfrom (items : Nat → Item) :
    ∀ l fuel p, ischain items p l → l.length ≤ fuel → itemsfrom items fuel p = some l := by
  intro l
  induction l with
  | nil =>
    intro fuel p h _
    have hp : p = none := h
    subst hp
    cases fuel <;> rfl
  | cons i t ih =>
    intro fuel p h hf
    have hp : p = some i := h.1
    subst hp
    cases fuel with
    | zero => simp at hf
    | succ f =>
      simp only [itemsfrom]
      rw [ih f _ h.2 (by simpa using hf)]
      rfl

theorem nodup_length_le (l : List Nat) (n : Nat) (hnd : l.Nodup) (hb : ∀ i ∈ l, i < n) :
    l.length ≤ n := by
  have h1 : l.toFinset ⊆ Finset.range n := by
    intro i hi
    simp only [List.mem_toFinset] at hi
    simpa using hb i hi
  have h2 := Finset.card_le_card h1
  rw [List.toFinset_card_of_nodup hnd, Finset.card_range] at h2
  exact h2

theorem ListsInv_length (h : Heap) (L : Nat → List Nat) (hinv : ListsInv h L) (m : Nat)
    (hm : m < h.nmenu) : (L m).length ≤ h.nitem :=
  nodup_length_le _ _ (ischain_nodup _ _ _ (hinv.chain m hm)) (hinv.bound m hm)

theorem ListsInv_menuitems (h : Heap) (L : Nat → List Nat) (hinv : ListsInv h L) (m : Nat)
    (hm : m < h.nmenu) : h.menuitems m = some (L m) :=
  ischain_itemsfrom _ _ _ _ (hinv.chain m hm) (ListsInv_length h L hinv m hm)

theorem menulast_chain (h : Heap) (m : Nat) (l : List Nat)
    (hc : ischain h.items (h.menus m).list l) (hne : l ≠ []) (hlen : l.length ≤ h.nitem) :
    ∃ last, menulast h m = .ok last ∧ l.getLast? = some last := by
  obtain ⟨x, t, rfl⟩ := List.exists_cons_of_ne_nil hne
  have hlist : (h.menus m).list = some x := hc.1
  have hl := lastitem_of_chain h.items (x :: t) h.nitem x (by rw [← hlist]; exact hc) hlen
  cases hli : lastitem h.items h.nitem x with
  | none => rw [hli] at hl; simp at hl
  | some last =>
    rw [hli] at hl
    simp only [Option.map_some', Option.some.injEq] at hl
    refine ⟨last, ?_, hl.symm⟩
    unfold menulast
    rw [hlist]
    simp only [hli]

theorem linkafter_next (h : Heap) (last c j : Nat) (hne : c ≠ last) :
    ((linkafter h last c).items j).next
      = if j = last then some c else (h.items j).next := by
  unfold linkafter upd
  simp only
  split_ifs <;> subst_vars <;> first | rfl | exact absurd rfl hne

/-- Appending the freshly allocated item to the list of menu `a`: what the
branches of `buildmenutree` that continue a menu do to the item lists. -/
theorem append_ListsInv (h : Heap) (L : Nat → List Nat) (hinv : ListsInv h L) (a : Nat)
    (ha : a < h.nmenu) (it : Item) (hnext : it.next = none) :
    ∃ last, menulast { h with items := upd h.items h.nitem it, nitem := h.nitem + 1 } a
        = .ok last ∧ (L a).getLast? = some last ∧
      ListsInv
        (bumpnitems
          (linkafter { h with items := upd h.items h.nitem it, nitem := h.nitem + 1 } last
            h.nitem) a)
        (upd L a (L a ++ [h.nitem])) := by
  have hfresh : ∀ m, m < h.nmenu → h.nitem ∉ L m := by
    intro m hm hc
    exact absurd (hinv.bound m hm _ hc) (by omega)
  have hch1 : ∀ m, m < h.nmenu →
      ischain (upd h.items h.nitem it) (h.menus m).list (L m) := by
    intro m hm
    apply ischain_congr_on h.items _ _ _ _ (hinv.chain m hm)
    intro j hj
    have : j ≠ h.nitem := fun e => hfresh m hm (e ▸ hj)
    simp [upd, this]
  obtain ⟨last, hlast, hgl⟩ := menulast_chain
    { h with items := upd h.items h.nitem it, nitem := h.nitem + 1 } a (L a)
    (hch1 a ha) (hinv.nonempty a ha) (Nat.le_succ_of_le (ListsInv_length h L hinv a ha))
  refine ⟨last, hlast, hgl, ?_⟩
  have hlastmem : last ∈ L a := List.mem_of_getLast?_eq_some hgl
  have hlastlt : last < h.nitem := hinv.bound a ha last hlastmem
  have hne : h.nitem ≠ last := by omega
  have hnextf : ∀ j, ((bumpnitems
      (linkafter { h with items := upd h.items h.nitem it, nitem := h.nitem + 1 } last
        h.nitem) a).items j).next
      = if j = last then some h.nitem else if j = h.nitem then none else (h.items j).next := by
    intro j
    have := linkafter_next { h with items := upd h.items h.nitem it, nitem := h.nitem + 1 }
      last h.nitem j hne
    simp only [bumpnitems]
    rw [this]
    simp only [upd]
    split_ifs <;> first | rfl | exact hnext
  have hlistf : ∀ m, ((bumpnitems
      (linkafter { h with items := upd h.items h.nitem it, nitem := h.nitem + 1 } last
        h.nitem) a).menus m).list = (h.menus m).list := by
    intro m
    simp only [bumpnitems, linkafter, upd]
    split_ifs <;> subst_vars <;> rfl
  constructor
  · intro m hm
    have hm1 : m < h.nmenu := hm
    rw [hlistf]
    by_cases hma : m = a
    · subst hma
      simp only [upd, if_true]
      apply ischain_snoc h.items _ h.nitem (L m) _ (hinv.nonempty m hm1) (hinv.chain m hm1)
      · intro j hj hjl
        rw [hnextf]
        have h1 : j ≠ last := fun e => hjl (by rw [e, hgl])
        have h2 : j ≠ h.nitem := fun e => hfresh m hm1 (e ▸ hj)
        simp [h1, h2]
      · intro j hj
        rw [hgl] at hj
        rw [hnextf, Option.some.inj hj]
        simp
      · rw [hnextf]
        simp [hne]
      · exact ischain_nodup _ _ _ (hinv.chain m hm1)
    · simp only [upd, hma, if_false]
      apply ischain_congr_on h.items _ _ _ _ (hinv.chain m hm1)
      intro j hj
      rw [hnextf]
      have h1 : j ≠ last := by
        intro e
        exact hma (hinv.disjoint m a hm1 ha j hj (e ▸ hlastmem))
      have h2 : j ≠ h.nitem := fun e => hfresh m hm1 (e ▸ hj)
      simp [h1, h2]
  · intro m hm
    simp only [upd]
    split_ifs
    · simp
    · exact hinv.nonempty m hm
  · intro m hm i hi
    have hm1 : m < h.nmenu := hm
    simp only [upd] at hi
    simp only [bumpnitems, linkafter]
    split_ifs at hi
    · rcases List.mem_append.1 hi with h1 | h1
      · exact Nat.lt_succ_of_lt (hinv.bound a ha i h1)
      · simp at h1; omega
    · exact Nat.lt_succ_of_lt (hinv.bound m hm1 i hi)
  · intro m1 m2 hm1 hm2 i hi1 hi2
    have hm1' : m1 < h.nmenu := hm1
    have hm2' : m2 < h.nmenu := hm2
    simp only [upd] at hi1 hi2
    by_cases h1 : m1 = a <;> by_cases h2 : m2 = a
    · rw [h1, h2]
    · simp only [h1, h2, if_true, if_false] at hi1 hi2
      rcases List.mem_append.1 hi1 with h3 | h3
      · exact absurd (hinv.disjoint a m2 ha hm2' i h3 hi2) (fun e => h2 e.symm)
      · simp at h3
        exact absurd (h3 ▸ hi2) (hfresh m2 hm2')
    · simp only [h1, h2, if_true, if_false] at hi1 hi2
      rcases List.mem_append.1 hi2 with h3 | h3
      · exact absurd (hinv.disjoint m1 a hm1' ha i hi1 h3) h1
      · simp at h3
        exact absurd (h3 ▸ hi1) (hfresh m1 hm1')
    · simp only [h1, h2, if_false] at hi1 hi2
      exact hinv.disjoint m1 m2 hm1' hm2' i hi1 hi2
  · intro m hm
    have hm1 : m < h.nmenu := hm
    simp only [bumpnitems, linkafter, upd]
    split_ifs with h1
    · subst h1
      simp only [List.length_append, List.length_singleton]
      rw [hinv.count m hm1]
      unfold UMAX
      omega
    · exact hinv.count m hm1

theorem nthparent_lt (b : Builder) (root pm : Nat) (hinv : StrictInv b root pm) :
    ∀ k m a, m < b.heap.nmenu → nthparent b.heap.menus k (some m) = some a →
      a < b.heap.nmenu := by
  intro k
  induction k with
  | zero =>
    intro m a hm h
    simp only [nthparent, Option.some.injEq] at h
    subst h
    exact hm
  | succ k ih =>
    intro m a hm h
    simp only [nthparent] at h
    by_cases hmr : m = root
    · rw [hmr, hinv.rootparent, nthparent_none] at h
      exact absurd h (by simp)
    · obtain ⟨p, hp, hpar, _⟩ := hinv.step m hm hmr
      rw [hpar] at h
      exact ih p a hp h

theorem StrictInv_frame (b b1 : Builder) (root pm a : Nat) (hinv : StrictInv b root pm)
    (hroot : b1.rootmenu = b.rootmenu) (hprev : b1.prevmenu = some a)
    (hn : b1.heap.nmenu = b.heap.nmenu) (ha : a < b.heap.nmenu)
    (hpar : ∀ m, (b1.heap.menus m).parent = (b.heap.menus m).parent)
    (hlev : ∀ m, (b1.heap.menus m).level = (b.heap.menus m).level) :
    StrictInv b1 root a := by
  refine ⟨hroot.trans hinv.hroot, hprev, hn ▸ hinv.rootlt, hn ▸ ha, ?_, ?_⟩
  · rw [hpar]
    exact hinv.rootparent
  · intro m hm hmr
    obtain ⟨p, hp, h1, h2⟩ := hinv.step m (hn ▸ hm) hmr
    exact ⟨p, hn ▸ hp, by rw [hpar, h1], by rw [hlev, hlev]; exact h2⟩

/-- The shared part of the two branches of `buildmenutree` that continue an
existing menu `a`: the result once the last item of `a` has been found. -/
theorem buildmenutree_append (b : Builder) (root pm : Nat) (L : Nat → List Nat)
    (hinv : GenInv b root pm L) (r : Record) (it : Item) (a : Nat) (ha : a < b.heap.nmenu)
    (hnext : it.next = none) (hsub : it.submenu = none) (hlab : it.label = r.label)
    (hout : r.parsed → it.output = r.output) :
    ∃ last, menulast { b.heap with items := upd b.heap.items b.heap.nitem it,
                                    nitem := b.heap.nitem + 1 } a = .ok last ∧
      (L a).getLast? = some last ∧
      GenInv
        { heap := bumpnitems
            (linkafter { b.heap with items := upd b.heap.items b.heap.nitem it,
                                     nitem := b.heap.nitem + 1 } last b.heap.nitem) a
          prevmenu := some a, rootmenu := b.rootmenu }
        root a (upd L a (L a ++ [b.heap.nitem])) ∧
      Appended b
        { heap := bumpnitems
            (linkafter { b.heap with items := upd b.heap.items b.heap.nitem it,
                                     nitem := b.heap.nitem + 1 } last b.heap.nitem) a
          prevmenu := some a, rootmenu := b.rootmenu }
        a r := by
  obtain ⟨last, hlast, hgl, hlists⟩ := append_ListsInv b.heap L hinv.lists a ha it hnext
  have hlastlt : last < b.heap.nitem :=
    hinv.lists.bound a ha last (List.mem_of_getLast?_eq_some hgl)
  have hne : last ≠ b.heap.nitem := by omega
  have hpar : ∀ m, ((bumpnitems
      (linkafter { b.heap with items := upd b.heap.items b.heap.nitem it,
                               nitem := b.heap.nitem + 1 } last b.heap.nitem) a).menus m).parent
      = (b.heap.menus m).parent := by
    intro m
    rw [bumpnitems_parent]
    rfl
  have hlev : ∀ m, ((bumpnitems
      (linkafter { b.heap with items := upd b.heap.items b.heap.nitem it,
                               nitem := b.heap.nitem + 1 } last b.heap.nitem) a).menus m).level
      = (b.heap.menus m).level := by
    intro m
    simp only [bumpnitems, linkafter, upd]
    split_ifs <;> subst_vars <;> rfl
  have hfields := linkafter_fields
    { b.heap with items := upd b.heap.items b.heap.nitem it, nitem := b.heap.nitem + 1 }
    last b.heap.nitem
  refine ⟨last, hlast, hgl, ⟨?_, hlists, ?_⟩, ?_⟩
  · exact StrictInv_frame b _ root pm a hinv.menus rfl rfl rfl ha hpar hlev
  · simp only [upd, if_true, bumpnitems, linkafter]
    rw [List.getLast?_concat]
    simp
  · refine ⟨rfl, rfl, rfl, rfl, hpar, hlev, ?_, ?_, ?_, ?_, ?_⟩
    · simp only [bumpnitems]
      rw [(hfields _).2.1]
      simp [upd, hlab]
    · intro hp
      simp only [bumpnitems]
      rw [(hfields _).2.2]
      simp [upd, hout hp]
    · simp only [bumpnitems]
      rw [(hfields _).1]
      simp [upd, hsub]
    · intro j hj
      simp only [bumpnitems]
      rw [(hfields _).2.1]
      simp [upd, hj]
    · intro j hj
      simp only [bumpnitems]
      rw [(hfields _).1]
      simp [upd, hj]

/-- The branch `level > prevmenu->level` of `buildmenutree`: a new menu is opened
under the menu of the previous item. -/
theorem buildmenutree_gt (b : Builder) (root pm : Nat) (L : Nat → List Nat)
    (hinv : GenInv b root pm L) (r : Record) (h1 : Heap) (c : Nat)
    (ha : allocitem b.heap r.label r.output r.file = .ok (h1, c))
    (hgt : (b.heap.menus pm).level < r.level) :
    ∃ b1 last, buildmenutree b r = .ok b1 ∧ (L pm).getLast? = some last ∧
      GenInv b1 root b.heap.nmenu (upd L b.heap.nmenu [b.heap.nitem]) ∧
      Opened b b1 pm last r := by
  obtain ⟨it, hc, hh1, hnext, hsub, hlab, hout⟩ := allocitem_shape _ _ _ _ _ _ ha
  subst hc
  subst hh1
  have hpm : pm < b.heap.nmenu := hinv.menus.pmlt
  have hfresh : ∀ m, m < b.heap.nmenu → b.heap.nitem ∉ L m := by
    intro m hm hc
    exact absurd (hinv.lists.bound m hm _ hc) (by omega)
  have hch1 : ∀ m, m < b.heap.nmenu →
      ischain (upd b.heap.items b.heap.nitem it) (b.heap.menus m).list (L m) := by
    intro m hm
    apply ischain_congr_on b.heap.items _ _ _ _ (hinv.lists.chain m hm)
    intro j hj
    have : j ≠ b.heap.nitem := fun e => hfresh m hm (e ▸ hj)
    simp [upd, this]
  have hpmne : pm ≠ b.heap.nmenu := by omega
  obtain ⟨last, hlast, hgl⟩ := menulast_chain
    (allocmenu { b.heap with items := upd b.heap.items b.heap.nitem it,
                             nitem := b.heap.nitem + 1 }
      (some pm) (some b.heap.nitem) r.level).1 pm (L pm)
    (by
      have h0 := hch1 pm hpm
      simp only [allocmenu, upd, hpmne, if_false]
      exact h0)
    (hinv.lists.nonempty pm hpm)
    (Nat.le_succ_of_le (ListsInv_length b.heap L hinv.lists pm hpm))
  have hlastmem : last ∈ L pm := List.mem_of_getLast?_eq_some hgl
  have hlastlt : last < b.heap.nitem := hinv.lists.bound pm hpm last hlastmem
  have hne : last ≠ b.heap.nitem := by omega
  refine ⟨?_, last, ?_, hgl, ?_, ?_⟩
  rotate_left
  · unfold buildmenutree
    rw [ha]
    simp only [hinv.menus.hprev]
    rw [if_neg (by omega), if_neg (by omega)]
    simp only [hlast]
    exact rfl
  · refine ⟨⟨?_, rfl, ?_, ?_, ?_, ?_⟩, ⟨?_, ?_, ?_, ?_, ?_⟩, ?_⟩
    · exact hinv.menus.hroot
    · exact Nat.lt_succ_of_lt hinv.menus.rootlt
    · exact Nat.lt_succ_self _
    · have hr : root ≠ b.heap.nmenu := Nat.ne_of_lt hinv.menus.rootlt
      simp only [bumpnitems, allocmenu, upd, hr, if_false]
      exact hinv.menus.rootparent
    · intro m hm hmr
      have hm1 : m < b.heap.nmenu + 1 := hm
      by_cases hmn : m = b.heap.nmenu
      · subst hmn
        refine ⟨pm, Nat.lt_succ_of_lt hpm, ?_, ?_⟩
        · simp [bumpnitems, allocmenu, upd]
        · simp only [bumpnitems, allocmenu, upd, hpmne, if_true, if_false]
          exact hgt
      · have hm2 : m < b.heap.nmenu := by omega
        obtain ⟨p, hp, hpar, hlev⟩ := hinv.menus.step m hm2 hmr
        have hpn : p ≠ b.heap.nmenu := by omega
        refine ⟨p, Nat.lt_succ_of_lt hp, ?_, ?_⟩
        · simp only [bumpnitems, allocmenu, upd, hmn, if_false]
          exact hpar
        · simp only [bumpnitems, allocmenu, upd, hmn, hpn, if_false]
          exact hlev
    · intro m hm
      have hm1 : m < b.heap.nmenu + 1 := hm
      by_cases hmn : m = b.heap.nmenu
      · subst hmn
        simp only [bumpnitems, allocmenu, upd, if_true]
        refine ⟨rfl, ?_⟩
        simp [ischain, upd, hne.symm, hnext]
      · have hm2 : m < b.heap.nmenu := by omega
        simp only [bumpnitems, allocmenu, upd, hmn, if_false]
        apply ischain_congr_on b.heap.items _ _ _ _ (hinv.lists.chain m hm2)
        intro j hj
        have h2 : j ≠ b.heap.nitem := fun e => hfresh m hm2 (e ▸ hj)
        show Item.next (upd _ _ _ j) = _
        simp only [upd]
        split_ifs <;> subst_vars <;> first | rfl | exact absurd rfl h2
    · intro m hm
      have hm1 : m < b.heap.nmenu + 1 := hm
      simp only [upd]
      split_ifs
      · simp
      · exact hinv.lists.nonempty m (by omega)
    · intro m hm i hi
      have hm1 : m < b.heap.nmenu + 1 := hm
      simp only [upd] at hi
      simp only [bumpnitems, allocmenu]
      split_ifs at hi with hmn
      · simp at hi; omega
      · exact Nat.lt_succ_of_lt (hinv.lists.bound m (by omega) i hi)
    · intro m1 m2 hm1 hm2 i hi1 hi2
      have hm1' : m1 < b.heap.nmenu + 1 := hm1
      have hm2' : m2 < b.heap.nmenu + 1 := hm2
      simp only [upd] at hi1 hi2
      by_cases h1 : m1 = b.heap.nmenu <;> by_cases h2 : m2 = b.heap.nmenu
      · rw [h1, h2]
      · simp only [h1, h2, if_true, if_false] at hi1 hi2
        simp at hi1
        exact absurd (hi1 ▸ hi2) (hfresh m2 (by omega))
      · simp only [h1, h2, if_true, if_false] at hi1 hi2
        simp at hi2
        exact absurd (hi2 ▸ hi1) (hfresh m1 (by omega))
      · simp only [h1, h2, if_false] at hi1 hi2
        exact hinv.lists.disjoint m1 m2 (by omega) (by omega) i hi1 hi2
    · intro m hm
      have hm1 : m < b.heap.nmenu + 1 := hm
      by_cases hmn : m = b.heap.nmenu
      · subst hmn
        simp only [bumpnitems, allocmenu, upd, if_true]
        simp [UMAX]
      · simp only [bumpnitems, allocmenu, upd, hmn, if_false]
        exact hinv.lists.count m (by omega)
    · simp [upd, bumpnitems, allocmenu]
  · refine ⟨rfl, rfl, rfl, rfl, ?_, ?_, ?_, ?_, ?_, ?_, ?_, ?_, ?_, ?_, ?_⟩
    · simp [bumpnitems, allocmenu, upd]
    · simp [bumpnitems, allocmenu, upd]
    · simp [bumpnitems, allocmenu, upd]
    · intro m hm
      simp [bumpnitems, allocmenu, upd, hm]
    · intro m hm
      simp [bumpnitems, allocmenu, upd, hm]
    · simp [bumpnitems, allocmenu, upd, hne.symm, hlab]
    · intro hp
      simp [bumpnitems, allocmenu, upd, hne.symm, hout hp]
    · simp [bumpnitems, allocmenu, upd, hne.symm, hsub]
    · simp [bumpnitems, allocmenu, upd, hne]
    · intro j hj
      simp only [bumpnitems, allocmenu, upd, hj, if_false]
      split_ifs <;> subst_vars <;> rfl
    · intro j hj hjl
      simp [bumpnitems, allocmenu, upd, hj, hjl]

/-- The branch `level == prevmenu->level` of `buildmenutree`: the item is appended to
the menu of the previous item. -/
theorem buildmenutree_eq (b : Builder) (root pm : Nat) (L : Nat → List Nat)
    (hinv : GenInv b root pm L) (r : Record) (h1 : Heap) (c : Nat)
    (ha : allocitem b.heap r.label r.output r.file = .ok (h1, c))
    (heq : r.level = (b.heap.menus pm).level) :
    ∃ b1, buildmenutree b r = .ok b1 ∧
      GenInv b1 root pm (upd L pm (L pm ++ [b.heap.nitem])) ∧ Appended b b1 pm r := by
  obtain ⟨it, hc, hh1, hnext, hsub, hlab, hout⟩ := allocitem_shape _ _ _ _ _ _ ha
  subst hc
  subst hh1
  obtain ⟨last, hlast, _, hgen, happ⟩ :=
    buildmenutree_append b root pm L hinv r it pm hinv.menus.pmlt hnext hsub hlab hout
  refine ⟨_, ?_, hgen, happ⟩
  unfold buildmenutree
  rw [ha]
  simp only [hinv.menus.hprev]
  rw [if_neg (by omega), if_pos heq]
  simp only [hlast]

/-- The branch `level < prevmenu->level` of `buildmenutree`: the loop over the parent
links makes `prevmenu->level - level` hops from the menu of the previous item; the
call fails when they lead to `NULL`, and appends the item to the menu reached
otherwise. -/
theorem buildmenutree_lt (b : Builder) (root pm : Nat) (L : Nat → List Nat)
    (hinv : GenInv b root pm L) (r : Record) (h1 : Heap) (c : Nat)
    (ha : allocitem b.heap r.label r.output r.file = .ok (h1, c))
    (hlt : r.level < (b.heap.menus pm).level) :
    (nthparent b.heap.menus ((b.heap.menus pm).level - r.level) (some pm) = none →
      buildmenutree b r = .error .reachedNullMenu) ∧
    (∀ a, nthparent b.heap.menus ((b.heap.menus pm).level - r.level) (some pm) = some a →
      a < b.heap.nmenu ∧ ∃ b1, buildmenutree b r = .ok b1 ∧
        GenInv b1 root a (upd L a (L a ++ [b.heap.nitem])) ∧ Appended b b1 a r) := by
  obtain ⟨it, hc, hh1, hnext, hsub, hlab, hout⟩ := allocitem_shape _ _ _ _ _ _ ha
  subst hc
  subst hh1
  have hfind := findmenu_eq b.heap.menus (b.heap.menus pm).level
    ((b.heap.menus pm).level + 1) (some pm) r.level (by omega) (by omega)
  constructor
  · intro hnone
    unfold buildmenutree
    rw [ha]
    simp only [hinv.menus.hprev]
    rw [if_pos hlt, hfind, hnone]
  · intro a hsome
    have halt : a < b.heap.nmenu :=
      nthparent_lt b root pm hinv.menus _ pm a hinv.menus.pmlt hsome
    obtain ⟨last, hlast, _, hgen, happ⟩ :=
      buildmenutree_append b root pm L hinv r it a halt hnext hsub hlab hout
    refine ⟨halt, _, ?_, hgen, happ⟩
    unfold buildmenutree
    rw [ha]
    simp only [hinv.menus.hprev]
    rw [if_pos hlt, hfind, hsome]
    simp only [hlast]

/-- The first call of `buildmenutree`: the root menu is created with the level of the
first record and holds the first item. -/
theorem buildmenutree_init (r : Record) (b1 : Builder)
    (h : buildmenutree Builder.init r = .ok b1) :
    GenInv b1 0 0 (upd (fun _ => []) 0 [0]) ∧ b1.heap.nitem = 1 ∧
      (b1.heap.menus 0).level = r.level ∧ (b1.heap.items 0).label = r.label ∧
      ∀ i, (b1.heap.items i).submenu = none := by
  unfold buildmenutree at h
  cases ha : allocitem Builder.init.heap r.label r.output r.file with
  | error e => simp [ha] at h
  | ok a =>
    obtain ⟨h1, c⟩ := a
    obtain ⟨it, hc, hh1, hnext, hsub, hlab, hout⟩ := allocitem_shape _ _ _ _ _ _ ha
    subst hc
    subst hh1
    rw [ha] at h
    simp only [Builder.init, Except.ok.injEq] at h
    subst h
    refine ⟨⟨⟨rfl, rfl, ?_, ?_, ?_, ?_⟩, ⟨?_, ?_, ?_, ?_, ?_⟩, ?_⟩, rfl, ?_, ?_, ?_⟩
    · simp [bumpnitems, allocmenu, Heap.empty]
    · simp [bumpnitems, allocmenu, Heap.empty]
    · simp [bumpnitems, allocmenu, Heap.empty, upd]
    · intro m hm hmr
      have : m < 1 := by simpa [bumpnitems, allocmenu, Heap.empty] using hm
      omega
    · intro m hm
      have : m < 1 := by simpa [bumpnitems, allocmenu, Heap.empty] using hm
      have hm0 : m = 0 := by omega
      subst hm0
      simp [bumpnitems, allocmenu, Heap.empty, upd, ischain, hnext]
    · intro m hm
      have : m < 1 := by simpa [bumpnitems, allocmenu, Heap.empty] using hm
      have hm0 : m = 0 := by omega
      subst hm0
      simp [upd]
    · intro m hm i hi
      have : m < 1 := by simpa [bumpnitems, allocmenu, Heap.empty] using hm
      have hm0 : m = 0 := by omega
      subst hm0
      simp [upd] at hi
      subst hi
      simp [bumpnitems, allocmenu, Heap.empty]
    · intro m1 m2 hm1 hm2 i _ _
      have h1 : m1 < 1 := by simpa [bumpnitems, allocmenu, Heap.empty] using hm1
      have h2 : m2 < 1 := by simpa [bumpnitems, allocmenu, Heap.empty] using hm2
      omega
    · intro m hm
      have : m < 1 := by simpa [bumpnitems, allocmenu, Heap.empty] using hm
      have hm0 : m = 0 := by omega
      subst hm0
      simp [bumpnitems, allocmenu, Heap.empty, upd, UMAX]
    · simp [bumpnitems, allocmenu, Heap.empty, upd]
    · simp [bumpnitems, allocmenu, Heap.empty, upd]
    · simp [bumpnitems, allocmenu, Heap.empty, upd, hlab]
    · intro i
      simp only [bumpnitems, allocmenu, Heap.empty, upd]
      split_ifs
      · exact hsub
      · rfl

theorem buildmenutree_GenInv (b b1 : Builder) (root pm : Nat) (L : Nat → List Nat)
    (hinv : GenInv b root pm L) (r : Record) (h : buildmenutree b r = .ok b1) :
    ∃ pm1 L1, GenInv b1 root pm1 L1 ∧ b1.heap.nitem = b.heap.nitem + 1 := by
  cases ha : allocitem b.heap r.label r.output r.file with
  | error e =>
    unfold buildmenutree at h
    simp [ha] at h
  | ok x =>
    obtain ⟨h1, c⟩ := x
    rcases Nat.lt_trichotomy r.level (b.heap.menus pm).level with hlt | heq | hgt
    · obtain ⟨hnone, hsome⟩ := buildmenutree_lt b root pm L hinv r h1 c ha hlt
      cases hn : nthparent b.heap.menus ((b.heap.menus pm).level - r.level) (some pm) with
      | none =>
        rw [hnone hn] at h
        exact absurd h (by simp)
      | some a =>
        obtain ⟨_, b2, hb2, hgen, happ⟩ := hsome a hn
        rw [hb2] at h
        cases h
        exact ⟨a, _, hgen, happ.nitem⟩
    · obtain ⟨b2, hb2, hgen, happ⟩ := buildmenutree_eq b root pm L hinv r h1 c ha heq
      rw [hb2] at h
      cases h
      exact ⟨pm, _, hgen, happ.nitem⟩
    · obtain ⟨b2, last, hb2, _, hgen, hop⟩ := buildmenutree_gt b root pm L hinv r h1 c ha hgt
      rw [hb2] at h
      cases h
      exact ⟨_, _, hgen, hop.nitem⟩

theorem buildall_GenInv (rs : List Record) :
    ∀ (b b1 : Builder) (root pm : Nat) (L : Nat → List Nat), GenInv b root pm L →
      buildall b rs = .ok b1 →
      ∃ pm1 L1, GenInv b1 root pm1 L1 ∧ b1.heap.nitem = b.heap.nitem + rs.length := by
  induction rs with
  | nil =>
    intro b b1 root pm L hinv h
    simp only [buildall, Except.ok.injEq] at h
    subst h
    exact ⟨pm, L, hinv, rfl⟩
  | cons r rs ih =>
    intro b b1 root pm L hinv h
    unfold buildall at h
    cases hs : buildmenutree b r with
    | error e => simp [hs] at h
    | ok b2 =>
      simp only [hs] at h
      obtain ⟨pm2, L2, hinv2, hn2⟩ := buildmenutree_GenInv b b2 root pm L hinv r hs
      obtain ⟨pm1, L1, hinv1, hn1⟩ := ih b2 b1 root pm2 L2 hinv2 h
      refine ⟨pm1, L1, hinv1, ?_⟩
      rw [hn1, hn2, List.length_cons]
      omega

/-- After a non-failing sequence of calls of `buildmenutree` on at least one record,
the invariants `StrictInv` and `ListsInv` hold, the root menu is menu 0 and there
is one item for each record. -/
theorem buildall_init_GenInv (recs : List Record) (b : Builder) (hne : recs ≠ [])
    (hb : buildall Builder.init recs = .ok b) :
    ∃ pm L, GenInv b 0 pm L ∧ b.heap.nitem = recs.length := by
  cases recs with
  | nil => exact absurd rfl hne
  | cons r rs =>
    unfold buildall at hb
    cases hs : buildmenutree Builder.init r with
    | error e => simp [hs] at hb
    | ok b2 =>
      simp only [hs] at hb
      obtain ⟨hinv2, hn2, _⟩ := buildmenutree_init r b2 hs
      obtain ⟨pm1, L1, hinv1, hn1⟩ := buildall_GenInv rs b2 b 0 0 _ hinv2 hb
      refine ⟨pm1, L1, hinv1, ?_⟩
      rw [hn1, hn2, List.length_cons]
      omega

theorem buildall_rootmenu (recs : List Record) (b : Builder) (root : Nat)
    (hb : buildall Builder.init recs = .ok b) (hroot : b.rootmenu = some root) :
    recs ≠ [] ∧ root = 0 := by
  have hne : recs ≠ [] := by
    intro he
    subst he
    simp only [buildall, Except.ok.injEq] at hb
    subst hb
    simp [Builder.init] at hroot
  obtain ⟨pm, L, hinv, _⟩ := buildall_init_GenInv recs b hne hb
  have := hinv.menus.hroot
  rw [hroot] at this
  exact ⟨hne, Option.some.inj this⟩

/-- Each parent link leads to a menu of lower level. -/
theorem nthparent_level (b : Builder) (root pm : Nat) (hinv : StrictInv b root pm) :
    ∀ k m a, m < b.heap.nmenu → nthparent b.heap.menus k (some m) = some a →
      (b.heap.menus a).level + k ≤ (b.heap.menus m).level := by
  intro k
  induction k with
  | zero =>
    intro m a _ h
    simp only [nthparent, Option.some.injEq] at h
    subst h
    omega
  | succ k ih =>
    intro m a hm h
    simp only [nthparent] at h
    by_cases hmr : m = root
    · rw [hmr, hinv.rootparent, nthparent_none] at h
      exact absurd h (by simp)
    · obtain ⟨p, hp, hpar, hlev⟩ := hinv.step m hm hmr
      rw [hpar] at h
      have := ih p a hp h
      omega

/-- No menu has a level below the level of the root menu. -/
theorem rootlevel_le (b : Builder) (root pm : Nat) (hinv : StrictInv b root pm) :
    ∀ n m, (b.heap.menus m).level ≤ n → m < b.heap.nmenu →
      (b.heap.menus root).level ≤ (b.heap.menus m).level := by
  intro n
  induction n with
  | zero =>
    intro m hn hm
    by_cases hmr : m = root
    · rw [hmr]
    · obtain ⟨p, _, _, hlev⟩ := hinv.step m hm hmr
      omega
  | succ n ih =>
    intro m hn hm
    by_cases hmr : m = root
    · rw [hmr]
    · obtain ⟨p, hp, _, hlev⟩ := hinv.step m hm hmr
      have := ih p (by omega) hp
      omega

/-! ## A record above the root (C11) -/

/-- C11: in every builder state reached by a non-failing sequence of calls of
`buildmenutree` (so that a root menu exists), a next record whose level is strictly
less than the level of the root menu makes `buildmenutree` fail with the fatal error
"reached NULL menu": no builder state, hence no tree and no changed item list, is
returned.  The record is as `parsestdin` hands it over (null output only with a
null label). -/
theorem buildmenutree_below_root (recs : List Record) (b : Builder) (root : Nat)
    (r : Record) (hb : buildall Builder.init recs = .ok b)
    (hroot : b.rootmenu = some root) (hr : r.parsed)
    (hlt : r.level < (b.heap.menus root).level) :
    buildmenutree b r = .error .reachedNullMenu := by
  obtain ⟨hne, hr0⟩ := buildall_rootmenu recs b root hb hroot
  subst hr0
  obtain ⟨pm, L, hinv, _⟩ := buildall_init_GenInv recs b hne hb
  have ha := allocitem_ok b.heap r hr
  have hrl := rootlevel_le b 0 pm hinv.menus _ pm (Nat.le_refl _) hinv.menus.pmlt
  have hlt1 : r.level < (b.heap.menus pm).level := by omega
  obtain ⟨hnone, _⟩ := buildmenutree_lt b 0 pm L hinv r _ _ ha hlt1
  apply hnone
  cases hn : nthparent b.heap.menus ((b.heap.menus pm).level - r.level) (some pm) with
  | none => rfl
  | some a =>
    have h1 := nthparent_level b 0 pm hinv.menus _ pm a hinv.menus.pmlt hn
    have h2 := nthparent_lt b 0 pm hinv.menus _ pm a hinv.menus.pmlt hn
    have h3 := rootlevel_le b 0 pm hinv.menus _ a (Nat.le_refl _) h2
    omega

theorem buildmenutree_below_root_witness :
    buildmenutree
      (built [{ level := 1, label := some ['F', 'o', 'o'], output := some ['F', 'o', 'o'],
                file := none }])
      { level := 0, label := some ['A'], output := some ['A'], file := none }
      = .error .reachedNullMenu :=
  buildmenutree_below_root
    [{ level := 1, label := some ['F', 'o', 'o'], output := some ['F', 'o', 'o'],
       file := none }]
    _ 0 { level := 0, label := some ['A'], output := some ['A'], file := none }
    rfl rfl (by decide) (by decide)

/-! ## Screen clamping (C12) -/

/-- C12: with `radius = (diameter + 1) / 2` as `setuppie` computes it, for every
`diameter >= 1`, every screen at least `2 * diameter` wide and high, and every
anchor `(x, y)` on the screen, the position `setupmenupos` stores keeps the menu
window on the screen: `0 <= menu.x`, `menu.x + diameter <= screenw`, and the same
for `y` with the screen height. -/
theorem setupmenupos_onscreen (diameter border : Int) (geom : Geometry) (x y : Int)
    (hd : 1 ≤ diameter) (hw : 2 * diameter ≤ geom.screenw) (hh : 2 * diameter ≤ geom.screenh)
    (hx0 : 0 ≤ x) (hx1 : x ≤ geom.screenw) (hy0 : 0 ≤ y) (hy1 : y ≤ geom.screenh) :
    0 ≤ (setupmenupos (setuppie diameter border) geom x y).1 ∧
    (setupmenupos (setuppie diameter border) geom x y).1 + diameter ≤ geom.screenw ∧
    0 ≤ (setupmenupos (setuppie diameter border) geom x y).2 ∧
    (setupmenupos (setuppie diameter border) geom x y).2 + diameter ≤ geom.screenh := by
  have hr : (diameter + 1).tdiv 2 = (diameter + 1) / 2 :=
    Int.tdiv_eq_ediv (by omega) (by decide)
  simp only [setupmenupos, setuppie, hr]
  refine ⟨?_, ?_, ?_, ?_⟩ <;> split_ifs <;> omega

/-- A pie of diameter 200 anchored near the right and the bottom edge of a
1920 x 1080 screen. -/
theorem setupmenupos_onscreen_witness :
    0 ≤ (setupmenupos (setuppie 200 1) ⟨1900, 1075, 1920, 1080⟩ 1900 1075).1 ∧
    (setupmenupos (setuppie 200 1) ⟨1900, 1075, 1920, 1080⟩ 1900 1075).1 + 200 ≤ 1920 ∧
    0 ≤ (setupmenupos (setuppie 200 1) ⟨1900, 1075, 1920, 1080⟩ 1900 1075).2 ∧
    (setupmenupos (setuppie 200 1) ⟨1900, 1075, 1920, 1080⟩ 1900 1075).2 + 200 ≤ 1080 :=
  setupmenupos_onscreen 200 1 ⟨1900, 1075, 1920, 1080⟩ 1900 1075 (by decide) (by decide)
    (by decide) (by decide) (by decide) (by decide) (by decide)

/-! ## Closing back up to an ancestor (C13) -/

/-- C13, as stated, fails in both directions.  After the records of `"A\n\t\tB\n"`
the current menu is menu 1 at level 2, whose parent chain holds the levels 2 and 0
only; a record at level 1 is nevertheless appended to the root menu (level 0), which
becomes the current menu.  After the records of `"A\n\t\tB\n\t\t\tC\n"` the current
menu is menu 2 at level 3 and the root menu, at level 0, is on its parent chain; a
record at level 0 nevertheless fails with "reached NULL menu". -/
theorem buildmenutree_close_counterexample :
    (∃ b b1, buildall Builder.init jumprecords = .ok b ∧ b.prevmenu = some 1 ∧
      (b.heap.menus 1).level = 2 ∧
      (∀ k a, nthparent b.heap.menus k (some 1) = some a → (b.heap.menus a).level ≠ 1) ∧
      buildmenutree b { level := 1, label := some ['C'], output := some ['C'], file := none }
        = .ok b1 ∧
      b1.prevmenu = some 0 ∧ (b1.heap.menus 0).level = 0 ∧
      b1.heap.menuitems 0 = some [0, 2]) ∧
    (∃ b, buildall Builder.init deeprecords = .ok b ∧ b.prevmenu = some 2 ∧
      (b.heap.menus 2).level = 3 ∧
      nthparent b.heap.menus 2 (some 2) = some 0 ∧ (b.heap.menus 0).level = 0 ∧
      buildmenutree b { level := 0, label := some ['D'], output := some ['D'], file := none }
        = .error .reachedNullMenu) := by
  refine ⟨⟨_, _, rfl, rfl, rfl, ?_, rfl, rfl, rfl, rfl⟩, ⟨_, rfl, rfl, rfl, rfl, rfl, rfl⟩⟩
  intro k a h
  match k, h with
  | 0, h =>
    simp only [nthparent, Option.some.injEq] at h
    subst h
    decide
  | 1, h =>
    have h1 : a = 0 := (Option.some.inj h).symm
    subst h1
    decide
  | k + 2, h =>
    have h1 : nthparent (built jumprecords).heap.menus (k + 2) (some 1) = none := by
      show nthparent _ k none = none
      exact nthparent_none _ k
    have h2 : nthparent (built jumprecords).heap.menus (k + 2) (some 1) = some a := h
    rw [h1] at h2
    exact absurd h2 (by simp)

theorem nthparent_exact (h : Heap) (root : Nat) (hlv : LevelInv h root) :
    ∀ k m, m < h.nmenu → k ≤ (h.menus m).level →
      ∃ a, nthparent h.menus k (some m) = some a ∧ (h.menus a).level + k = (h.menus m).level := by
  intro k
  induction k with
  | zero =>
    intro m _ _
    exact ⟨m, rfl, rfl⟩
  | succ k ih =>
    intro m hm hk
    by_cases hmr : m = root
    · rw [hmr, hlv.rootlevel] at hk
      omega
    · obtain ⟨p, hp, hpar, hlev⟩ := hlv.step m hm hmr
      obtain ⟨a, ha, hal⟩ := ih p hp (by omega)
      refine ⟨a, ?_, by omega⟩
      simp only [nthparent]
      rw [hpar]
      exact ha

/-- C13, amended: in every builder state reached by a non-failing sequence of calls
of `buildmenutree`, for every record (as `parsestdin` hands it over) whose level is
less than the level of the current menu, `buildmenutree` follows exactly
`current level - record level` parent links from the current menu.  When they lead
to `NULL` it fails with "reached NULL menu"; otherwise it appends the new item at
the tail of the item list of the menu reached, whatever the level of that menu, and
makes that menu the current menu.  On input indented step by step from level 0 the
menu reached exists and is the ancestor whose level equals the record's level. -/
theorem buildmenutree_close (recs : List Record) (b : Builder) (pm : Nat) (r : Record)
    (hb : buildall Builder.init recs = .ok b) (hprev : b.prevmenu = some pm)
    (hr : r.parsed) (hlt : r.level < (b.heap.menus pm).level) :
    (nthparent b.heap.menus ((b.heap.menus pm).level - r.level) (some pm) = none →
      buildmenutree b r = .error .reachedNullMenu) ∧
    (∀ a, nthparent b.heap.menus ((b.heap.menus pm).level - r.level) (some pm) = some a →
      ∃ b1 l, buildmenutree b r = .ok b1 ∧ b1.prevmenu = some a ∧
        b.heap.menuitems a = some l ∧ b1.heap.menuitems a = some (l ++ [b.heap.nitem]) ∧
        (b1.heap.items b.heap.nitem).label = r.label ∧
        (b1.heap.items b.heap.nitem).output = r.output) ∧
    (wellindented recs = true →
      ∃ a, nthparent b.heap.menus ((b.heap.menus pm).level - r.level) (some pm) = some a ∧
        (b.heap.menus a).level = r.level) := by
  have hne : recs ≠ [] := by
    intro he
    subst he
    simp only [buildall, Except.ok.injEq] at hb
    subst hb
    simp [Builder.init] at hprev
  obtain ⟨pm1, L, hinv, _⟩ := buildall_init_GenInv recs b hne hb
  have hpm : pm1 = pm := by
    have := hinv.menus.hprev
    rw [hprev] at this
    exact (Option.some.inj this).symm
  subst hpm
  have ha := allocitem_ok b.heap r hr
  obtain ⟨hnone, hsome⟩ := buildmenutree_lt b 0 pm1 L hinv r _ _ ha hlt
  refine ⟨hnone, ?_, ?_⟩
  · intro a hn
    obtain ⟨halt, b1, hb1, hgen, happ⟩ := hsome a hn
    refine ⟨b1, L a, hb1, happ.prev, ListsInv_menuitems b.heap L hinv.lists a halt, ?_,
      happ.newlabel, happ.newoutput hr⟩
    have := ListsInv_menuitems b1.heap _ hgen.lists a (by rw [happ.nmenu]; exact halt)
    rw [this]
    simp [upd]
  · intro hw
    obtain ⟨pm2, lvl, hbi⟩ := buildall_wellindented recs b 0 hw hb hinv.menus.hroot
    obtain ⟨a, hn, hal⟩ := nthparent_exact b.heap 0 hbi.inv
      ((b.heap.menus pm1).level - r.level) pm1 hinv.menus.pmlt (by omega)
    exact ⟨a, hn, by omega⟩

theorem buildmenutree_close_witness :
    (∃ b1 l, buildmenutree (built foobarrecords)
        { level := 0, label := some ['A'], output := some ['A'], file := none } = .ok b1 ∧
      b1.prevmenu = some 0 ∧
      (built foobarrecords).heap.menuitems 0 = some l ∧
      b1.heap.menuitems 0 = some (l ++ [2]) ∧
      (b1.heap.items 2).label = some ['A'] ∧ (b1.heap.items 2).output = some ['A']) ∧
    (∃ a, nthparent (built foobarrecords).heap.menus 1 (some 1) = some a ∧
      ((built foobarrecords).heap.menus a).level = 0) :=
  ⟨(buildmenutree_close foobarrecords (built foobarrecords) 1
      { level := 0, label := some ['A'], output := some ['A'], file := none }
      rfl rfl (by decide) (by decide)).2.1 0 rfl,
   (buildmenutree_close foobarrecords (built foobarrecords) 1
      { level := 0, label := some ['A'], output := some ['A'], file := none }
      rfl rfl (by decide) (by decide)).2.2 rfl⟩

/-! ## Separators and submenus (C14) -/

/-- C14, as stated, fails: on the input `"\n\tBar\n"` (an empty line followed by an
indented line) `buildmenutree` does not fail, and the separator made from the empty
line, item 0, owns the submenu that holds `Bar`. -/
theorem buildmenutree_separator_counterexample :
    ∃ b, parsestdin 8192 ['\n', '\t', 'B', 'a', 'r', '\n'] = .ok b ∧
      (b.heap.items 0).label = none ∧ (b.heap.items 0).submenu = some 1 ∧
      (b.heap.menus 1).caller = some 0 ∧ b.heap.menuitems 1 = some [1] ∧
      (b.heap.items 1).label = some ['B', 'a', 'r'] :=
  ⟨_, rfl, rfl, rfl, rfl, rfl, rfl⟩

theorem buildmenutree_sepstep (b b1 : Builder) (root pm : Nat) (L : Nat → List Nat)
    (prev r : Record) (hbi : BuildInv b root pm prev.level) (hgen : GenInv b root pm L)
    (hsub : ∀ i, (b.heap.items i).submenu ≠ none → (b.heap.items i).label ≠ none)
    (hlast : (b.heap.items (b.heap.nitem - 1)).label = prev.label)
    (hind : r.level ≤ prev.level + 1)
    (hsep : prev.label.isSome = true ∨ r.level ≤ prev.level)
    (h : buildmenutree b r = .ok b1) :
    ∃ pm1 L1, BuildInv b1 root pm1 r.level ∧ GenInv b1 root pm1 L1 ∧
      (∀ i, (b1.heap.items i).submenu ≠ none → (b1.heap.items i).label ≠ none) ∧
      (b1.heap.items (b1.heap.nitem - 1)).label = r.label := by
  obtain ⟨pm1, hbi1⟩ := buildmenutree_level_step b b1 root pm prev.level r hbi hind h
  have happended : ∀ a L1, GenInv b1 root a L1 → Appended b b1 a r →
      ∃ pm1 L1, BuildInv b1 root pm1 r.level ∧ GenInv b1 root pm1 L1 ∧
        (∀ i, (b1.heap.items i).submenu ≠ none → (b1.heap.items i).label ≠ none) ∧
        (b1.heap.items (b1.heap.nitem - 1)).label = r.label := by
    intro a L1 hgen1 happ
    have hpm : pm1 = a := by
      have := hbi1.hprev
      rw [hgen1.menus.hprev] at this
      exact (Option.some.inj this).symm
    subst hpm
    refine ⟨pm1, L1, hbi1, hgen1, ?_, ?_⟩
    · intro i hi
      by_cases hin : i = b.heap.nitem
      · rw [hin, happ.newsubmenu] at hi
        exact absurd rfl hi
      · rw [happ.oldsubmenu i hin] at hi
        rw [happ.oldlabel i hin]
        exact hsub i hi
    · rw [happ.nitem, Nat.add_sub_cancel]
      exact happ.newlabel
  cases ha : allocitem b.heap r.label r.output r.file with
  | error e =>
    unfold buildmenutree at h
    simp [ha] at h
  | ok x =>
    obtain ⟨h1, c⟩ := x
    rcases Nat.lt_trichotomy r.level (b.heap.menus pm).level with hlt | heq | hgt
    · obtain ⟨hnone, hsome⟩ := buildmenutree_lt b root pm L hgen r h1 c ha hlt
      cases hn : nthparent b.heap.menus ((b.heap.menus pm).level - r.level) (some pm) with
      | none =>
        rw [hnone hn] at h
        exact absurd h (by simp)
      | some a =>
        obtain ⟨_, b2, hb2, hgen2, happ⟩ := hsome a hn
        rw [hb2] at h
        cases h
        exact happended a _ hgen2 happ
    · obtain ⟨b2, hb2, hgen2, happ⟩ := buildmenutree_eq b root pm L hgen r h1 c ha heq
      rw [hb2] at h
      cases h
      exact happended pm _ hgen2 happ
    · obtain ⟨b2, last, hb2, hgl, hgen2, hop⟩ :=
        buildmenutree_gt b root pm L hgen r h1 c ha hgt
      rw [hb2] at h
      cases h
      have hpm : pm1 = b.heap.nmenu := by
        have := hbi1.hprev
        rw [hgen2.menus.hprev] at this
        exact (Option.some.inj this).symm
      subst hpm
      have hlastlt : last < b.heap.nitem :=
        hgen.lists.bound pm hgen.menus.pmlt last (List.mem_of_getLast?_eq_some hgl)
      have hlasteq : last = b.heap.nitem - 1 := by
        have := hgen.lastprev
        rw [hgl] at this
        exact Option.some.inj this
      have hprevlabel : prev.label ≠ none := by
        rw [hbi.pmlevel] at hgt
        rcases hsep with h1 | h1
        · intro hc
          rw [hc] at h1
          simp at h1
        · omega
      refine ⟨_, _, hbi1, hgen2, ?_, ?_⟩
      · intro i hi
        by_cases hin : i = b.heap.nitem
        · rw [hin, hop.newsubmenu] at hi
          exact absurd rfl hi
        · rw [hop.oldlabel i hin]
          by_cases hil : i = last
          · rw [hil, hlasteq, hlast]
            exact hprevlabel
          · rw [hop.oldsubmenu i hin hil] at hi
            exact hsub i hi
      · rw [hop.nitem, Nat.add_sub_cancel]
        exact hop.newlabel

theorem buildall_sep (rs : List Record) :
    ∀ (b b1 : Builder) (root pm : Nat) (L : Nat → List Nat) (prev : Record),
      BuildInv b root pm prev.level → GenInv b root pm L →
      (∀ i, (b.heap.items i).submenu ≠ none → (b.heap.items i).label ≠ none) →
      (b.heap.items (b.heap.nitem - 1)).label = prev.label →
      indented prev.level rs = true → sepleaffrom prev rs = true →
      buildall b rs = .ok b1 →
      ∀ i, (b1.heap.items i).submenu ≠ none → (b1.heap.items i).label ≠ none := by
  induction rs with
  | nil =>
    intro b b1 root pm L prev _ _ hsub _ _ _ h
    simp only [buildall, Except.ok.injEq] at h
    subst h
    exact hsub
  | cons r rs ih =>
    intro b b1 root pm L prev hbi hgen hsub hlast hind hsep h
    simp only [indented, Bool.and_eq_true, decide_eq_true_eq] at hind
    simp only [sepleaffrom, Bool.and_eq_true, Bool.or_eq_true, decide_eq_true_eq] at hsep
    unfold buildall at h
    cases hs : buildmenutree b r with
    | error e => simp [hs] at h
    | ok b2 =>
      simp only [hs] at h
      obtain ⟨pm2, L2, hbi2, hgen2, hsub2, hlast2⟩ :=
        buildmenutree_sepstep b b2 root pm L prev r hbi hgen hsub hlast hind.1 hsep.1 hs
      exact ih b2 b1 root pm2 L2 r hbi2 hgen2 hsub2 hlast2 hind.2 hsep.2 h

/-- C14, amended: for every sequence of records that is indented step by step from
level 0 (the first record at level 0, every record at most one level deeper than
the record before it), in which no separator is directly followed by a record at a
deeper level, and on which `buildmenutree` does not fail, every item of the
resulting tree that owns a submenu has a non-null label. -/
theorem buildmenutree_separator_leaf (recs : List Record) (b : Builder) (i s : Nat)
    (hw : wellindented recs = true) (hs : sepleaf recs = true)
    (hb : buildall Builder.init recs = .ok b)
    (hsub : (b.heap.items i).submenu = some s) : (b.heap.items i).label ≠ none := by
  have hi : (b.heap.items i).submenu ≠ none := by
    rw [hsub]
    simp
  cases recs with
  | nil =>
    simp only [buildall, Except.ok.injEq] at hb
    subst hb
    exact absurd rfl hi
  | cons r rs =>
    simp only [wellindented, Bool.and_eq_true, decide_eq_true_eq] at hw
    simp only [sepleaf] at hs
    unfold buildall at hb
    cases hs2 : buildmenutree Builder.init r with
    | error e => simp [hs2] at hb
    | ok b2 =>
      simp only [hs2] at hb
      have hbi : BuildInv b2 0 0 r.level := by
        rw [hw.1]
        exact buildmenutree_level_first b2 r hw.1 hs2
      obtain ⟨hgen, hn, _, hlab, hnosub⟩ := buildmenutree_init r b2 hs2
      have hind : indented r.level rs = true := by
        rw [hw.1]
        exact hw.2
      refine buildall_sep rs b2 b 0 0 _ r hbi hgen ?_ ?_ hind hs hb i hi
      · intro j hj
        exact absurd (hnosub j) hj
      · rw [hn]
        exact hlab

theorem buildmenutree_separator_leaf_witness :
    ((built nestedrecords).heap.items 0).label ≠ none :=
  buildmenutree_separator_leaf nestedrecords (built nestedrecords) 0 1
    (by decide) (by decide) rfl rfl

/-! ## The item counter of a menu (C15) -/

/-- C15: after every non-failing sequence of calls of `buildmenutree`, on fewer than
2^31 records (the counter `nitems` is an `unsigned`), every menu of the tree has an
item list, `nitems` is the number of items in that list and is at least 1, and the
divisor `nitems * 2` that `setupitems` computes in `unsigned` arithmetic is not
zero. -/
theorem buildmenutree_nitems (recs : List Record) (b : Builder) (m : Nat)
    (hb : buildall Builder.init recs = .ok b) (hlen : recs.length < 2 ^ 31)
    (hm : m < b.heap.nmenu) :
    ∃ l, b.heap.menuitems m = some l ∧ (b.heap.menus m).nitems = l.length ∧
      1 ≤ (b.heap.menus m).nitems ∧ ((b.heap.menus m).nitems * 2) % UMAX ≠ 0 := by
  have hne : recs ≠ [] := by
    intro he
    subst he
    simp only [buildall, Except.ok.injEq] at hb
    subst hb
    exact absurd hm (by simp [Builder.init, Heap.empty])
  obtain ⟨pm, L, hinv, hn⟩ := buildall_init_GenInv recs b hne hb
  have hl := ListsInv_length b.heap L hinv.lists m hm
  have hpos : 0 < (L m).length := List.length_pos.2 (hinv.lists.nonempty m hm)
  have hcount := hinv.lists.count m hm
  have hmod : (L m).length % UMAX = (L m).length := by
    apply Nat.mod_eq_of_lt
    unfold UMAX
    omega
  rw [hmod] at hcount
  refine ⟨L m, ListsInv_menuitems b.heap L hinv.lists m hm, hcount, ?_, ?_⟩
  · omega
  · rw [hcount]
    unfold UMAX
    omega

theorem buildmenutree_nitems_witness :
    ∃ l, (built nestedrecords).heap.menuitems 0 = some l ∧
      ((built nestedrecords).heap.menus 0).nitems = l.length ∧
      1 ≤ ((built nestedrecords).heap.menus 0).nitems ∧
      (((built nestedrecords).heap.menus 0).nitems * 2) % UMAX ≠ 0 :=
  buildmenutree_nitems nestedrecords (built nestedrecords) 0 rfl (by decide) (by decide)

end Pmenu
